import Mathlib

/-!
# Certificate Transparency log node: sparse Merkle tree and serving handler

A shallow embedding of `cpp/merkletree/sparse_merkle_tree.cc` (null hashes, paths,
`SetLeaf`, `CalculateSubtreeHash`, `CurrentRoot`) and of the request handlers of
`cpp/server/handler.h`, `cpp/server/handler.cc` and `cpp/server/certificate_handler.cc`
(the get-* and add-* handlers, the proxy and latency wrappers, the registration of paths
and the staleness task), followed by the properties proved about them.

Conventions of the embedding:
* `std::string` digests are `String`; the empty string is the "not computed" marker, as in
  the code.
* The hasher is a parameter (`TreeHasher`).
* Each `unordered_map` level is a function from index to optional node; `tree_` is the list
  of levels.
* `CHECK`/`LOG(FATAL)` exits are the `.error` results of type `Fatal`.
* Calls on `JsonOutput` are returned as the list of replies sent; a handler is the list of
  calls it makes on its collaborators, in program order.
-/
/-- The `TreeHasher` collaborator (declared in `merkletree/tree_hasher.h`, outside this
development), taken as a parameter: the digest width in bytes and the two
domain-separated hash operations. -/
structure TreeHasher where
  DigestSize : Nat
  HashLeaf : String → String
  HashChildren : String → String → String

/-- Null-hash vector as built inside `GetNullHashes` when the cached pointer is
unset: start from `HashLeaf("")`, append `HashChildren(r.back(), r.back())` for
`i = 1 .. DigestSize*8 - 1`, then reverse. -/
def computeNullHashes (hasher : TreeHasher) : List String :=
  ((List.range' 1 (hasher.DigestSize * 8 - 1)).foldl
    (fun r _ => r ++ [hasher.HashChildren (r.getLastD "") (r.getLastD "")])
    [hasher.HashLeaf ""]).reverse

/-- The function `GetNullHashes`: the function-local static pointer is passed in and out
explicitly; the vector is computed only when the pointer is unset. -/
def GetNullHashes (hasher : TreeHasher) (null_hashes : Option (List String)) :
    List String × Option (List String) :=
  match null_hashes with
  | none => let r := computeNullHashes hasher; (r, some r)
  | some r => (r, some r)

namespace SparseMerkleTree

/-- Modelled from the spec: the constant `kDigestSizeBits` is declared in the tree's header,
which is not among the sources; paths and digests have 256 bits. -/
def kDigestSizeBits : Nat := 256

/-- Modelled from the spec: the class `Path` is declared in the tree's header, which is not
among the sources; its member `b_` is the array of `kDigestSizeBits / 8 = 32` bytes that
the constructors and operators of the source file fill, copy and compare. -/
structure Path where
  b_ : Fin 32 → Fin 256

instance : DecidableEq Path := fun a b =>
  decidable_of_iff (∀ i : Fin 32, a.b_ i = b.b_ i)
    ⟨fun h => by cases a; cases b; simp only [Path.mk.injEq]; exact funext h,
     fun h i => by rw [h]⟩

/-- Default constructor `Path()`: every byte zero. -/
def Path.zero : Path := ⟨fun _ => 0⟩

/-- Constructor `Path(uint64_t lsb)`: starting from the zero path, for `i = 0 .. 7`
or the low byte of `lsb` into `b_[size - 1 - i]` and shift `lsb` right by 8. -/
def Path.ofUInt64 (lsb : Nat) : Path :=
  ((List.range 8).foldl
    (fun (s : Path × Nat) i =>
      (⟨fun j => if j.val = 32 - 1 - i then Fin.ofNat ((s.1.b_ j).val ||| (s.2 &&& 0xff))
                 else s.1.b_ j⟩,
       s.2 >>> 8))
    (Path.zero, lsb % 2 ^ 64)).1

/-- Method `Path::size()`. -/
def Path.size (_p : Path) : Nat := 32

/-- Modelled from the spec: `nth_msb` is declared in the tree's header, which is not among
the sources. Paths are read most-significant bit first, so bit `n` is bit `7 - n % 8` of
byte `n / 8` (the order in which `operator<<` prints a path). -/
def Path.nth_msb (p : Path) (n : Nat) : Bool :=
  if h : n < 256 then (p.b_ ⟨n / 8, by omega⟩).val &&& (128 >>> (n % 8)) != 0 else false

/-- Modelled from the spec: `set_nth_msb` is declared in the tree's header, which is not
among the sources. Sets or clears the bit that `nth_msb` reads. -/
def Path.set_nth_msb (p : Path) (n : Nat) (v : Bool) : Path :=
  if n < 256 then
    ⟨fun i => if i.val = n / 8 then
        (if v then Fin.ofNat ((p.b_ i).val ||| (128 >>> (n % 8)))
         else Fin.ofNat ((p.b_ i).val &&& (255 ^^^ (128 >>> (n % 8)))))
      else p.b_ i⟩
  else p

/-- Modelled from the spec: `IndexType` is declared in the tree's header, which is not among
the sources. Nodes are indexed by `(depth, path bits so far)`; the key is a `Path` (it has
`set_nth_msb`, is printed with the path printer and hashed with `Path::hash`), built from
an integer by `Path(uint64_t lsb)`. -/
abbrev IndexType := Path

/-- Modelled from the spec: node kinds of `TreeNode` (declared in the absent header; the
source file uses `TreeNode::INTERNAL` and `TreeNode::LEAF`). -/
inductive NodeType
  | INTERNAL
  | LEAF
  deriving DecidableEq, Repr

/-- Modelled from the spec: a tree node (declared in the absent header) with the members
the source file uses: kind `type_`, `hash_` (empty string = not computed), and the owned
path pointer `path_` (set on leaves, null once the node has been moved from). -/
structure TreeNode where
  type_ : NodeType
  hash_ : String
  path_ : Option Path

/-- Constructor `TreeNode(path, leaf_hash)`. -/
def TreeNode.leaf (path : Path) (leaf_hash : String) : TreeNode :=
  ⟨NodeType.LEAF, leaf_hash, some path⟩

/-- One level of `tree_`: an unordered map from index to node. -/
abbrev Level := IndexType → Option TreeNode

/-- The empty map. -/
def Level.empty : Level := fun _ => none

/-- Map `emplace`: inserts unless the key is present; the flag tells whether it inserted. -/
def Level.emplace (m : Level) (k : IndexType) (v : TreeNode) : Level × Bool :=
  match m k with
  | none => (fun j => if j = k then some v else m j, true)
  | some _ => (m, false)

/-- In-place change of the node an iterator points at. -/
def Level.modify (m : Level) (k : IndexType) (f : TreeNode → TreeNode) : Level :=
  fun j => if j = k then (m j).map f else m j

/-- Fatal exits of the tree code. -/
inductive Fatal
  /-- `CHECK_EQ(treehasher_.DigestSize(), path.size())` in `SetLeaf`. -/
  | digest_size_mismatch
  /-- `CHECK(tree_[depth].emplace(...).second)` for the new leaf. -/
  | emplace_leaf_failed
  /-- `CHECK_LT(depth, kDigestSizeBits - 1)` in the collision branch. -/
  | depth_limit
  /-- `CHECK(tree_[depth + 1].emplace(...).second)` for the leaf pushed down. -/
  | emplace_pushed_failed
  /-- `LOG(FATAL) << "Failed to set "` after the loop. -/
  | failed_to_set
  /-- Dereference of a null `path_`. -/
  | null_path
  /-- `null_hashes_->at(i)` with `i` past the end. -/
  | null_hash_out_of_range
  /-- The bound on the recursion depth of `CalculateSubtreeHash` in this embedding is used
  up. -/
  | recursion_budget
  deriving DecidableEq, Repr

end SparseMerkleTree

deriving instance DecidableEq for Except

open SparseMerkleTree in
/-- The sparse Merkle tree object: the per-depth maps, the cached root and the pointer to
the null hashes obtained at construction. The hasher is passed to each method. -/
structure SparseMerkleTree where
  tree_ : List Level
  root_hash_ : String
  null_hashes_ : List String

namespace SparseMerkleTree

/-- Constructor: empty `tree_`, empty `root_hash_`, `null_hashes_` from `GetNullHashes`;
the static cache of `GetNullHashes` is threaded. -/
def create (hasher : TreeHasher) (cache : Option (List String)) :
    SparseMerkleTree × Option (List String) :=
  let r := GetNullHashes hasher cache
  (⟨[], "", r.1⟩, r.2)

/-- The first tree built in a process (the static cache still unset). -/
def fresh (hasher : TreeHasher) : SparseMerkleTree := (create hasher none).1

/-- Method `EnsureHaveLevel` on the vector of levels (`resize` appends empty maps). -/
def EnsureHaveLevel (tree : List Level) (level : Nat) : List Level :=
  if tree.length < level + 1 then tree ++ List.replicate (level + 1 - tree.length) Level.empty
  else tree

/-- Read `tree_[depth]` (empty map past the end). -/
def levelAt (tree : List Level) (depth : Nat) : Level := tree.getD depth Level.empty

/-- The loop of `SetLeaf`, from `depth` on, with `n = kDigestSizeBits - depth` iterations left. -/
def SetLeafLoop (path : Path) (leaf_hash : String) :
    Nat → Nat → IndexType → List Level → Except Fatal (List Level)
  | 0, _, _, _ => .error Fatal.failed_to_set
  | n + 1, depth, node_index, tree =>
    let node_index := node_index.set_nth_msb depth (path.nth_msb depth)
    let tree := EnsureHaveLevel tree depth
    match levelAt tree depth node_index with
    | none =>
      let r := (levelAt tree depth).emplace node_index (TreeNode.leaf path leaf_hash)
      if r.2 then .ok (tree.set depth r.1) else .error Fatal.emplace_leaf_failed
    | some node =>
      if node.type_ = NodeType.INTERNAL then
        SetLeafLoop path leaf_hash n (depth + 1) node_index
          (tree.set depth ((levelAt tree depth).modify node_index (fun x => { x with hash_ := "" })))
      else
        match node.path_ with
        | none => .error Fatal.null_path
        | some q =>
          if q = path then
            .ok (tree.set depth
              ((levelAt tree depth).modify node_index (fun x => { x with hash_ := leaf_hash })))
          else if depth < kDigestSizeBits - 1 then
            let tree := EnsureHaveLevel tree (depth + 1)
            let node_index2 := node_index.set_nth_msb (depth + 1) (q.nth_msb (depth + 1))
            let r := (levelAt tree (depth + 1)).emplace node_index2 node
            if r.2 then
              let tree := tree.set (depth + 1) r.1
              let tree := tree.set depth ((levelAt tree depth).modify node_index
                (fun _ => ⟨NodeType.INTERNAL, "", none⟩))
              SetLeafLoop path leaf_hash n (depth + 1) node_index2 tree
            else .error Fatal.emplace_pushed_failed
          else .error Fatal.depth_limit

/-- Method `SetLeaf`. -/
def SetLeaf (hasher : TreeHasher) (t : SparseMerkleTree) (path : Path) (data : String) :
    Except Fatal SparseMerkleTree :=
  if hasher.DigestSize = path.size then
    match SetLeafLoop path (hasher.HashLeaf data) kDigestSizeBits 0 Path.zero t.tree_ with
    | .ok tree => .ok { t with tree_ := tree, root_hash_ := "" }
    | .error e => .error e
  else .error Fatal.digest_size_mismatch

/-- Checked read `null_hashes_->at(i)`. -/
def nullAt (nulls : List String) (i : Nat) : Except Fatal String :=
  match nulls.get? i with
  | some h => .ok h
  | none => .error Fatal.null_hash_out_of_range

/-- The LEAF loop of `CalculateSubtreeHash`: `c` iterations left, counting `i` down. -/
def foldLeaf (hasher : TreeHasher) (nulls : List String) (path : Path) :
    Nat → Nat → String → Except Fatal String
  | 0, _, ret => .ok ret
  | c + 1, i, ret =>
    match nullAt nulls i with
    | .error e => .error e
    | .ok nh =>
      foldLeaf hasher nulls path c (i - 1)
        (if path.nth_msb i = false then hasher.HashChildren ret nh else hasher.HashChildren nh ret)

/-- Method `CalculateSubtreeHash`, state passing (it caches hashes on INTERNAL nodes).
The first argument bounds the recursion depth. -/
def CalculateSubtreeHash (hasher : TreeHasher) :
    Nat → SparseMerkleTree → Nat → IndexType → Except Fatal (String × SparseMerkleTree)
  | 0, _, _, _ => .error Fatal.recursion_budget
  | fuel + 1, t, depth, index =>
    if t.tree_.length ≤ depth then
      match nullAt t.null_hashes_ depth with
      | .ok h => .ok (h, t)
      | .error e => .error e
    else
      match levelAt t.tree_ depth index with
      | some node =>
        match node.type_ with
        | NodeType.INTERNAL =>
          if node.hash_ ≠ "" then .ok (node.hash_, t)
          else
            let left_child_index := index
            let right_child_index := index.set_nth_msb (depth + 1) true
            match CalculateSubtreeHash hasher fuel t (depth + 1) left_child_index with
            | .error e => .error e
            | .ok (left, t1) =>
              match CalculateSubtreeHash hasher fuel t1 (depth + 1) right_child_index with
              | .error e => .error e
              | .ok (right, t2) =>
                let h := hasher.HashChildren left right
                let level := (levelAt t2.tree_ depth).modify index (fun x => { x with hash_ := h })
                .ok (h, { t2 with tree_ := t2.tree_.set depth level })
        | NodeType.LEAF =>
          match node.path_ with
          | none => .error Fatal.null_path
          | some q =>
            match foldLeaf hasher t.null_hashes_ q (kDigestSizeBits - 1 - depth)
                (kDigestSizeBits - 1) node.hash_ with
            | .ok ret => .ok (ret, t)
            | .error e => .error e
      | none =>
        match nullAt t.null_hashes_ depth with
        | .ok h => .ok (h, t)
        | .error e => .error e

/-- Method `CurrentRoot`: returns the root and the tree with its caches filled. The two
indices are the conversions of the integers 0 and 1 to `IndexType`; the two calls are
taken left to right. The recursion of `CalculateSubtreeHash` stops at `tree_.size()`,
which bounds its depth. -/
def CurrentRoot (hasher : TreeHasher) (t : SparseMerkleTree) :
    Except Fatal (String × SparseMerkleTree) :=
  if t.root_hash_ = "" then
    match CalculateSubtreeHash hasher (t.tree_.length + 1) t 0 (Path.ofUInt64 0) with
    | .error e => .error e
    | .ok (left, t1) =>
      match CalculateSubtreeHash hasher (t1.tree_.length + 1) t1 0 (Path.ofUInt64 1) with
      | .error e => .error e
      | .ok (right, t2) =>
        let h := hasher.HashChildren left right
        .ok (h, { t2 with root_hash_ := h })
  else .ok (t.root_hash_, t)

end SparseMerkleTree

namespace SparseMerkleTree

/-- The first `j` bits of `p` followed by zero bits: the key under which the loop of
`SetLeaf` looks up the node of `p` at depth `j - 1`. -/
def Path.pre (p : Path) (j : Nat) : Path :=
  (List.range j).foldl (fun acc i => acc.set_nth_msb i (p.nth_msb i)) Path.zero

end SparseMerkleTree

/-- The self-hash chain: `HashLeaf("")` hashed with itself `n` times,
`f^n(HashLeaf(""))` with `f(x) = HashChildren(x, x)`. -/
def nullChain (hasher : TreeHasher) : Nat → String
  | 0 => hasher.HashLeaf ""
  | n + 1 => hasher.HashChildren (nullChain hasher n) (nullChain hasher n)

namespace SparseMerkleTree

/-- Hash of the complete binary hash tree of height `n` over the leaf hashes `leafHash`:
the subtree of all paths that extend the first `256 - n` bits of `k` (the other bits of
`k` being zero). A leaf is its own hash; an inner node is `HashChildren(left, right)`,
the right child having bit `255 - n` set. -/
def refHash (hasher : TreeHasher) (leafHash : Path → String) : Nat → Path → String
  | 0, k => leafHash k
  | n + 1, k =>
    hasher.HashChildren (refHash hasher leafHash n k)
      (refHash hasher leafHash n (k.set_nth_msb (255 - n) true))

/-- Leaf hashes of an authenticated map: the stored leaf hash, `HashLeaf("")` where the
path was never set. -/
def leafOf (hasher : TreeHasher) (M : Path → Option String) : Path → String :=
  fun p => (M p).getD (hasher.HashLeaf "")

/-- Folding a leaf hash up `c` levels from the deepest one, pairing at level `i` with the
null hash of that level on the side opposite bit `i` of the path. -/
def foldPure (hasher : TreeHasher) (path : Path) (h : String) : Nat → String
  | 0 => h
  | c + 1 =>
    if path.nth_msb (255 - c) = false then
      hasher.HashChildren (foldPure hasher path h c) (nullChain hasher c)
    else hasher.HashChildren (nullChain hasher c) (foldPure hasher path h c)

end SparseMerkleTree

namespace SparseMerkleTree

/-- Representation invariant of the per-depth maps: at most 256 levels; the key of a node
at depth `d` has zero bits after its first `d + 1`; the parent position of every node
holds an INTERNAL node; a LEAF carries its path and sits under the key made of the first
`d + 1` bits of that path; INTERNAL nodes occur only at depths below 255. -/
structure WF (tree : List Level) : Prop where
  len : tree.length ≤ 256
  key : ∀ d k node, levelAt tree d k = some node → k.pre (d + 1) = k
  parent : ∀ d k node, levelAt tree (d + 1) k = some node →
    ∃ par, levelAt tree d (k.pre (d + 1)) = some par ∧ par.type_ = NodeType.INTERNAL
  leaf : ∀ d k node, levelAt tree d k = some node → node.type_ = NodeType.LEAF →
    ∃ q, node.path_ = some q ∧ q.pre (d + 1) = k
  internal : ∀ d k node, levelAt tree d k = some node → node.type_ = NodeType.INTERNAL →
    d < 255

/-- The maps represent the leaf-hash map `M`: the LEAF nodes are exactly the entries of
`M`, and every node has an entry of `M` beneath it. -/
structure Sem (tree : List Level) (M : Path → Option String) : Prop where
  leaves : ∀ q h, M q = some h ↔
    ∃ d node, levelAt tree d (q.pre (d + 1)) = some node ∧ node.type_ = NodeType.LEAF ∧
      node.hash_ = h ∧ node.path_ = some q
  inhabited : ∀ d k node, levelAt tree d k = some node →
    ∃ q h, M q = some h ∧ q.pre (d + 1) = k

/-- Value of `CurrentRoot` for the leaf-hash map `M`: the left half of the tree hashed in
full, paired with the null hash of depth 0. -/
def rootValue (hasher : TreeHasher) (M : Path → Option String) : String :=
  hasher.HashChildren (refHash hasher (leafOf hasher M) 255 Path.zero) (nullChain hasher 255)

/-- Full invariant of a tree object with respect to the leaf-hash map `M` it represents:
its null hashes are those of its hasher, the maps are well formed and represent `M`, and
every non-empty cached hash is the hash of the subtree it stands for. -/
structure Inv (hasher : TreeHasher) (t : SparseMerkleTree) (M : Path → Option String) :
    Prop where
  nulls : t.null_hashes_ = computeNullHashes hasher
  wf : WF t.tree_
  sem : Sem t.tree_ M
  cache : ∀ d k node, levelAt t.tree_ d k = some node → node.type_ = NodeType.INTERNAL →
    node.hash_ ≠ "" → node.hash_ = refHash hasher (leafOf hasher M) (255 - d) k
  root : t.root_hash_ ≠ "" → t.root_hash_ = rootValue hasher M

/-- The tree `b` is the tree `a` with the entry at `(d, k)` replaced by `v`. -/
def Upd (a b : List Level) (d : Nat) (k : IndexType) (v : TreeNode) : Prop :=
  b.length = a.length ∧
    ∀ e j, levelAt b e j = if e = d ∧ j = k then some v else levelAt a e j

/-- Every position above `(d, k)` on the way from the root holds an INTERNAL node. -/
def AncInternal (tree : List Level) (d : Nat) (k : IndexType) : Prop :=
  ∀ e, e < d → ∃ par, levelAt tree e (k.pre (e + 1)) = some par ∧
    par.type_ = NodeType.INTERNAL

end SparseMerkleTree

namespace SparseMerkleTree

/-- Two nodes agree up to the hash cached on an INTERNAL node. -/
def NodeSim (x y : TreeNode) : Prop :=
  x.type_ = y.type_ ∧ x.path_ = y.path_ ∧ (x.type_ = NodeType.LEAF → x.hash_ = y.hash_)

/-- Two optional nodes are both absent or agree up to cached hashes. -/
def SimO : Option TreeNode → Option TreeNode → Prop
  | none, none => True
  | some x, some y => NodeSim x y
  | _, _ => False

/-- Two trees have the same levels up to the hashes cached on INTERNAL nodes. -/
def SameSkel (a b : List Level) : Prop :=
  a.length = b.length ∧ ∀ e j, SimO (levelAt a e j) (levelAt b e j)

end SparseMerkleTree

namespace SparseMerkleTree

/-- Invariant of the loop of `SetLeaf` at the top of the iteration for `depth`: the maps
are well formed and still represent the old map `M`; every position of `path` above
`depth` holds an INTERNAL node; a non-empty cached hash is right for `M` and does not sit
on the part of `path` already walked; `node_index` carries the bits of `path` walked so
far and nothing after position `depth`. -/
structure LoopInv (hasher : TreeHasher) (M : Path → Option String) (path : Path)
    (depth : Nat) (node_index : IndexType) (tree : List Level) : Prop where
  wf : WF tree
  sem : Sem tree M
  cache : ∀ d k node, levelAt tree d k = some node → node.type_ = NodeType.INTERNAL →
    node.hash_ ≠ "" →
    node.hash_ = refHash hasher (leafOf hasher M) (255 - d) k ∧
      (k = path.pre (d + 1) → depth ≤ d)
  walked : AncInternal tree depth path
  idx_lo : ∀ i, i < depth → node_index.nth_msb i = path.nth_msb i
  idx_hi : ∀ i, depth < i → node_index.nth_msb i = false

/-- What `SetLeaf` leaves behind: well-formed maps for the updated leaf-hash map, with
every non-empty cached hash right for it. -/
structure Done (hasher : TreeHasher) (M : Path → Option String) (tree : List Level) :
    Prop where
  wf : WF tree
  sem : Sem tree M
  cache : ∀ d k node, levelAt tree d k = some node → node.type_ = NodeType.INTERNAL →
    node.hash_ ≠ "" → node.hash_ = refHash hasher (leafOf hasher M) (255 - d) k

end SparseMerkleTree

namespace SparseMerkleTree

/-- A run of `SetLeaf` calls, in order, stopping at the first fatal exit. -/
def SetLeaves (hasher : TreeHasher) (t : SparseMerkleTree) (ops : List (Path × String)) :
    Except Fatal SparseMerkleTree :=
  ops.foldlM (fun s o => SetLeaf hasher s o.1 o.2) t

/-- The digest `CurrentRoot` returns after the calls `ops` on a fresh tree. -/
def rootAfter (hasher : TreeHasher) (ops : List (Path × String)) : Except Fatal String :=
  match SetLeaves hasher (fresh hasher) ops with
  | .ok t =>
    match CurrentRoot hasher t with
    | .ok r => .ok r.1
    | .error e => .error e
  | .error e => .error e

/-- The last data a sequence of calls gave to a path, if any. -/
def lastData (ops : List (Path × String)) (p : Path) : Option String :=
  (ops.reverse.find? (fun o => decide (o.1 = p))).map Prod.snd

/-- The leaf-hash map after a sequence of calls. -/
def hashMap (hasher : TreeHasher) (ops : List (Path × String)) : Path → Option String :=
  fun p => (lastData ops p).map hasher.HashLeaf

/-- Tree states that calls of `SetLeaf` and `CurrentRoot`, in any interleaving, produce
from a fresh tree. -/
inductive Reachable (hasher : TreeHasher) : SparseMerkleTree → Prop
  | fresh : Reachable hasher (fresh hasher)
  | setLeaf (t : SparseMerkleTree) (p : Path) (d : String) (t2 : SparseMerkleTree) :
      Reachable hasher t → SetLeaf hasher t p d = .ok t2 → Reachable hasher t2
  | currentRoot (t : SparseMerkleTree) (r : String) (t2 : SparseMerkleTree) :
      Reachable hasher t → CurrentRoot hasher t = .ok (r, t2) → Reachable hasher t2

/-- The tree with every memoised value dropped: `root_hash_` and the hash cached on each
INTERNAL node are emptied. -/
def clearCaches (t : SparseMerkleTree) : SparseMerkleTree :=
  { t with
    tree_ := t.tree_.map (fun m j =>
      (m j).map (fun x => if x.type_ = NodeType.INTERNAL then { x with hash_ := "" } else x)),
    root_hash_ := "" }

end SparseMerkleTree

namespace SparseMerkleTree

/-- Reference root of the authenticated map left by the calls `ops`: the root of the
complete binary hash tree of height 256 whose leaf at path `p` is `HashLeaf(d)` for the
last data `d` set at `p`, and `HashLeaf("")` when `p` was never set. -/
def referenceRoot (hasher : TreeHasher) (ops : List (Path × String)) : String :=
  refHash hasher (fun p => hasher.HashLeaf ((lastData ops p).getD "")) 256 Path.zero

/-- The single-leaf root as the specification words it: start from `HashLeaf(d)` and fold
up the 256 levels `i = 255, ..., 0`, pairing with `null_hashes[i]` on the side opposite
bit `i` of `p`. -/
def singleLeafFold (hasher : TreeHasher) (p : Path) (d : String) : String :=
  (List.range 256).reverse.foldl
    (fun acc i =>
      if p.nth_msb i = false then
        hasher.HashChildren acc ((GetNullHashes hasher none).1.getD i "")
      else hasher.HashChildren ((GetNullHashes hasher none).1.getD i "") acc)
    (hasher.HashLeaf d)

/-- A small hasher for concrete runs: a digest is "0" when everything beneath it is the
empty string and "1" otherwise. -/
def flagHasher : TreeHasher :=
  ⟨32, fun d => if d = "" then "0" else "1", fun l r => if l = "0" ∧ r = "0" then "0" else "1"⟩

/-- The path whose first bit is 1 and whose other bits are 0. -/
def highPath : Path := Path.zero.set_nth_msb 0 true

end SparseMerkleTree

namespace util

/-- Modelled from the spec: canonical status codes of `util::Status` (its header is not
among the sources); the handler tells apart OK, ALREADY_EXISTS, RESOURCE_EXHAUSTED and
every other code. -/
inductive Code
  | OK
  | CANCELLED
  | UNKNOWN
  | INVALID_ARGUMENT
  | DEADLINE_EXCEEDED
  | NOT_FOUND
  | ALREADY_EXISTS
  | PERMISSION_DENIED
  | RESOURCE_EXHAUSTED
  | FAILED_PRECONDITION
  | ABORTED
  | OUT_OF_RANGE
  | UNIMPLEMENTED
  | INTERNAL
  | UNAVAILABLE
  | DATA_LOSS
  | UNAUTHENTICATED
  deriving DecidableEq, Repr

/-- Modelled from the spec: a `util::Status` (header not among the sources), the canonical
code and the error message the handler reads. -/
structure Status where
  code : Code
  error_message : String

/-- Method `Status::ok()`. -/
def Status.ok (s : Status) : Bool := decide (s.code = Code.OK)

/-- Method `Status::CanonicalCode()`. -/
def Status.CanonicalCode (s : Status) : Code := s.code

end util

/-- JSON values as the handler builds them: integers, strings, byte strings added with
`AddBase64` (encoded on output), a signature block added with `Add`, arrays and objects. -/
inductive JsonValue
  | int (v : Int)
  | str (s : String)
  | base64 (raw : String)
  | signature (sig : String)
  | array (items : List JsonValue)
  | object (fields : List (String × JsonValue))

/-- A `JsonObject` under construction: its members in insertion order. -/
abbrev JsonObject := List (String × JsonValue)

/-- One call on the `JsonOutput` collaborator. -/
inductive Reply
  | SendError (code : Nat) (message : String)
  | SendJsonReply (code : Nat) (body : JsonObject)

/-- The libevent constant `HTTP_OK`. -/
def HTTP_OK : Nat := 200
/-- The libevent constant `HTTP_BADREQUEST`. -/
def HTTP_BADREQUEST : Nat := 400
/-- The libevent constant `HTTP_BADMETHOD`. -/
def HTTP_BADMETHOD : Nat := 405
/-- The libevent constant `HTTP_INTERNAL`. -/
def HTTP_INTERNAL : Nat := 500
/-- The libevent constant `HTTP_SERVUNAVAIL`. -/
def HTTP_SERVUNAVAIL : Nat := 503

/-- The fields of `ct::SignedCertificateTimestamp` the handler reads. -/
structure SignedCertificateTimestamp where
  key_id : String
  timestamp : Nat
  signature : String

/-- What the handler observes of a `Logged` entry: its sequence number and the outcome of
`SerializeForLeaf`, `SerializeExtraData` and `Serializer::SerializeSCT(entry.sct())`
(`none` = the call reports failure). -/
structure LoggedEntry where
  sequence_number : Int
  leaf_input : Option String
  extra_data : Option String
  sct_data : Option String

/-- Two's-complement wrap of an integer into the signed 64-bit range. -/
def wrap64 (x : Int) : Int := (x + 2 ^ 63) % 2 ^ 64 - 2 ^ 63

namespace HttpHandler

/-- Method `HttpHandler::AddEntryReply`: the calls it makes on `output_`. -/
def AddEntryReply (add_status : util.Status) (sct : SignedCertificateTimestamp) : List Reply :=
  if !add_status.ok && add_status.CanonicalCode ≠ util.Code.ALREADY_EXISTS then
    let response_code :=
      if add_status.CanonicalCode = util.Code.RESOURCE_EXHAUSTED then HTTP_SERVUNAVAIL
      else HTTP_BADREQUEST
    [Reply.SendError response_code add_status.error_message]
  else
    let json_reply : JsonObject :=
      [("sct_version", JsonValue.int 0),
       ("id", JsonValue.base64 sct.key_id),
       ("timestamp", JsonValue.int sct.timestamp),
       ("extensions", JsonValue.str ""),
       ("signature", JsonValue.signature sct.signature)]
    [Reply.SendJsonReply HTTP_OK json_reply]

/-- The JSON object of one entry in a get-entries reply. -/
def entryJson (include_scts : Bool) (leaf_input extra_data sct_data : String) : JsonObject :=
  [("leaf_input", JsonValue.base64 leaf_input), ("extra_data", JsonValue.base64 extra_data)]
    ++ (if include_scts then [("sct", JsonValue.base64 sct_data)] else [])

/-- The loop of `BlockingGetEntries` over the open scan `it`: `.ok` carries the array
accumulated when the loop ends, `.error` the reply of the early return. -/
def entriesLoop (include_scts : Bool) (end_ : Int) :
    List LoggedEntry → Int → List JsonValue → Except (List Reply) (List JsonValue)
  | [], _, json_entries => .ok json_entries
  | entry :: it, i, json_entries =>
    if i ≤ end_ then
      if entry.sequence_number ≠ i then .ok json_entries
      else
        match entry.leaf_input, entry.extra_data,
            (if include_scts then entry.sct_data else some "") with
        | some leaf_input, some extra_data, some sct_data =>
          entriesLoop include_scts end_ it (wrap64 (i + 1))
            (json_entries ++ [JsonValue.object (entryJson include_scts leaf_input extra_data sct_data)])
        | _, _, _ => .error [Reply.SendError HTTP_INTERNAL "Serialization failed."]
    else .ok json_entries

/-- Method `HttpHandler::BlockingGetEntries`; `ScanEntries` stands for the database. -/
def BlockingGetEntries (ScanEntries : Int → List LoggedEntry) (start end_ : Int)
    (include_scts : Bool) : List Reply :=
  match entriesLoop include_scts end_ (ScanEntries start) start [] with
  | .error sent => sent
  | .ok json_entries =>
    if json_entries.length < 1 then [Reply.SendError HTTP_BADREQUEST "Entry not found."]
    else [Reply.SendJsonReply HTTP_OK [("entries", JsonValue.array json_entries)]]

/-- The object a 200 reply of get-entries carries for `entry`, when it serialises. -/
def entryObject (include_scts : Bool) (entry : LoggedEntry) : JsonValue :=
  JsonValue.object (entryJson include_scts (entry.leaf_input.getD "")
    (entry.extra_data.getD "") (if include_scts then entry.sct_data.getD "" else ""))

end HttpHandler

/-! ## The request handlers of `handler.h` and `certificate_handler.cc`

A handler is embedded as the list of calls it makes on its collaborators, in program
order. The answers of the collaborators at the time of the request are fields of the
handler object. -/

/-- The request commands of libevent (`evhttp_cmd_type`). -/
inductive evhttp_cmd_type
  | EVHTTP_REQ_GET
  | EVHTTP_REQ_POST
  | EVHTTP_REQ_HEAD
  | EVHTTP_REQ_PUT
  | EVHTTP_REQ_DELETE
  | EVHTTP_REQ_OPTIONS
  | EVHTTP_REQ_TRACE
  | EVHTTP_REQ_CONNECT
  | EVHTTP_REQ_PATCH
  deriving DecidableEq, Repr

/-- A JSON document as `JsonObject json_body(evhttp_request_get_input_buffer(req))` parses
it from the request body (the json-c types). -/
inductive JsonDoc
  | null
  | boolean (b : Bool)
  | number (text : String)
  | string (s : String)
  | array (items : List JsonDoc)
  | object (members : List (String × JsonDoc))

/-- Modelled from the spec: the query of a request after `libevent::ParseQuery` (the
wrapper is not among the sources), given by what `GetParam`, `GetIntParam` (a signed 64-bit
value) and `GetBoolParam` return for each parameter name. -/
structure QueryParams where
  GetParam : String → Option String
  GetIntParam : String → Int
  GetBoolParam : String → Bool

/-- What the handlers read of an `evhttp_request`: its command, its query and the parse
of its input buffer (`none` = `JsonObject::Ok()` is false). -/
structure Request where
  command : evhttp_cmd_type
  query : QueryParams
  body : Option JsonDoc

/-- A closure handed to `ThreadPool::Add`. -/
inductive PoolTask
  | ProxyRequest (request : Request)
  | BlockingAddChain (req : Request) (chain : List String)
  | BlockingAddPreChain (req : Request) (chain : List String)

/-- One call of a handler on a collaborator: a reply on `output_`, `db_->ScanEntries`,
the three calls on `log_lookup_`, `cert_checker_->GetTrustedCertificates`, `pool_->Add`,
the construction and destruction of the `ScopedLatency` of a path,
`controller_->NodeIsStale` and `event_base_->Delay` of a child task that runs
`UpdateNodeStaleness`. -/
inductive Call
  | Send (reply : Reply)
  | ScanEntries (start : Int)
  | GetSTH
  | AuditProof (hash : String) (tree_size : Int)
  | ConsistencyProof (first second : Int)
  | GetTrustedCertificates
  | PoolAdd (task : PoolTask)
  | ScopedLatencyBegin (path : String)
  | ScopedLatencyEnd (path : String)
  | NodeIsStale
  | Delay (seconds : Int)

/-- The flags defined in `handler.cc` (both `int32`). -/
structure Flags where
  max_leaf_entries_per_response : Int
  staleness_check_delay_secs : Int

/-- The values `DEFINE_int32` gives the flags. -/
def FLAGS_default : Flags :=
  { max_leaf_entries_per_response := 1000, staleness_check_delay_secs := 5 }

/-- The fields of `ct::SignedTreeHead` the handler reads. -/
structure SignedTreeHead where
  tree_size : Int
  timestamp : Int
  sha256_root_hash : String
  signature : String

/-- The fields of `ct::ShortMerkleAuditProof` the handler reads. -/
structure ShortMerkleAuditProof where
  leaf_index : Int
  path_node : List String

/-- Modelled from the spec: the answers of `LogLookup` (its header is not among the
sources) at the time of the request; `AuditProof` is `none` when the call returns anything
other than `LogLookup::OK`. -/
structure LogLookup where
  GetSTH : SignedTreeHead
  AuditProof : String → Int → Option ShortMerkleAuditProof
  ConsistencyProof : Int → Int → List String

/-- Modelled from the spec: the trusted certificates of `CertChecker` (its header is not
among the sources) in the order of the multimap, each given by the outcome of
`DerEncoding` (`none` = the status is not OK). -/
structure CertChecker where
  GetTrustedCertificates : List (Option String)

/-- Modelled from the spec: library code the handlers call whose sources are absent:
`util::FromBase64` (also behind `JsonString::FromBase64`) and whether
`Cert::IsLoaded()` holds after `LoadFromDerString` of the given bytes. -/
structure Library where
  FromBase64 : String → String
  IsLoaded : String → Bool

/-- The handler object: the members of `HttpHandler` and `CertificateHttpHandler` that
the embedded methods read, with the collaborators given by their answers. `frontend_` only
matters through being null or not. `IsActive` is `task_.task()->IsActive()`. -/
structure CertificateHttpHandler where
  log_lookup_ : LogLookup
  db_ : Int → List LoggedEntry
  controller_NodeIsStale : Bool
  IsActive : Bool
  node_is_stale_ : Bool
  cert_checker_ : Option CertChecker
  frontend_ : Option Unit

/-- A `libevent::HttpServer::HandlerCallback`. -/
abbrev HandlerCallback := Request → List Call

/-- A callback bound to `this`: it reads the handler object when the request arrives. -/
abbrev BoundCallback := CertificateHttpHandler → HandlerCallback

/-- Modelled from the spec: the dispatch table of `libevent::HttpServer` (the wrapper is
not among the sources), binding paths to handlers in registration order. -/
abbrev HttpServer := List (String × BoundCallback)

/-- Modelled from the spec: `HttpServer::AddHandler` binds `path` to `cb`; it reports
failure when the path is bound already. -/
def HttpServer.AddHandler (server : HttpServer) (path : String) (cb : BoundCallback) :
    Bool × HttpServer :=
  if server.any (fun e => e.1 == path) then (false, server)
  else (true, server ++ [(path, cb)])

/-- Modelled from the spec: `JsonArray json_chain(json_body, "chain")` of the wrapper
(not among the sources): the items of the member when it exists and is an array. -/
def JsonDoc.arrayMember (key : String) : JsonDoc → Option (List JsonDoc)
  | JsonDoc.object members =>
    match members.lookup key with
    | some (JsonDoc.array items) => some items
    | _ => none
  | _ => none

/-- The function `StatsHandlerInterceptor` of `handler.cc`: the scoped latency of `path`
encloses the call of `cb`. -/
def StatsHandlerInterceptor (path : String) (cb : HandlerCallback) (req : Request) :
    List Call :=
  [Call.ScopedLatencyBegin path] ++ cb req ++ [Call.ScopedLatencyEnd path]

namespace HttpHandler

/-- The calls of `HttpHandler::BlockingGetEntries`: it opens the scan, then replies. -/
def BlockingGetEntriesCalls (this : CertificateHttpHandler) (start end_ : Int)
    (include_scts : Bool) : List Call :=
  Call.ScanEntries start :: (BlockingGetEntries this.db_ start end_ include_scts).map Call.Send

/-- Method `HttpHandler::IsNodeStale`. -/
def IsNodeStale (this : CertificateHttpHandler) : Bool := this.node_is_stale_

/-- Method `HttpHandler::ProxyInterceptor`. -/
def ProxyInterceptor (this : CertificateHttpHandler) (local_handler : HandlerCallback)
    (request : Request) : List Call :=
  if IsNodeStale this then [Call.PoolAdd (PoolTask.ProxyRequest request)]
  else local_handler request

/-- Method `HttpHandler::AddProxyWrappedHandler`; `none` = the `CHECK` fails. -/
def AddProxyWrappedHandler (server : HttpServer) (path : String)
    (local_handler : BoundCallback) : Option HttpServer :=
  let stats_handler : BoundCallback := fun this => StatsHandlerInterceptor path (local_handler this)
  match server.AddHandler path (fun this => ProxyInterceptor this (stats_handler this)) with
  | (true, server) => some server
  | (false, _) => none

/-- Method `HttpHandler::GetEntries`. The sum `start + FLAGS_max_leaf_entries_per_response`
is an `int64_t`, taken here with two's-complement wrap-around. -/
def GetEntries (flags : Flags) (this : CertificateHttpHandler) (req : Request) : List Call :=
  if req.command ≠ evhttp_cmd_type.EVHTTP_REQ_GET then
    [Call.Send (Reply.SendError HTTP_BADMETHOD "Method not allowed.")]
  else
    let query := req.query
    let start := query.GetIntParam "start"
    if start < 0 then
      [Call.Send (Reply.SendError HTTP_BADREQUEST "Missing or invalid \"start\" parameter.")]
    else
      let end_ := query.GetIntParam "end"
      if end_ < start then
        [Call.Send (Reply.SendError HTTP_BADREQUEST "Missing or invalid \"end\" parameter.")]
      else
        let end_ := min end_ (wrap64 (start + flags.max_leaf_entries_per_response))
        let include_scts := query.GetBoolParam "include_scts"
        BlockingGetEntriesCalls this start end_ include_scts

/-- Method `HttpHandler::GetProof`. -/
def GetProof (lib : Library) (this : CertificateHttpHandler) (req : Request) : List Call :=
  if req.command ≠ evhttp_cmd_type.EVHTTP_REQ_GET then
    [Call.Send (Reply.SendError HTTP_BADMETHOD "Method not allowed.")]
  else
    let query := req.query
    match query.GetParam "hash" with
    | none =>
      [Call.Send (Reply.SendError HTTP_BADREQUEST "Missing or invalid \"hash\" parameter.")]
    | some b64_hash =>
      let hash := lib.FromBase64 b64_hash
      if hash = "" then
        [Call.Send (Reply.SendError HTTP_BADREQUEST "Invalid \"hash\" parameter.")]
      else
        let tree_size := query.GetIntParam "tree_size"
        if tree_size < 0 then
          [Call.Send (Reply.SendError HTTP_BADREQUEST
            "Missing or invalid \"tree_size\" parameter.")]
        else if tree_size > this.log_lookup_.GetSTH.tree_size then
          [Call.GetSTH, Call.Send (Reply.SendError HTTP_BADREQUEST
            "Missing or invalid \"tree_size\" parameter.")]
        else
          [Call.GetSTH, Call.AuditProof hash tree_size] ++
            match this.log_lookup_.AuditProof hash tree_size with
            | none => [Call.Send (Reply.SendError HTTP_BADREQUEST "Couldn\x27t find hash.")]
            | some proof =>
              let json_audit := proof.path_node.map JsonValue.base64
              [Call.Send (Reply.SendJsonReply HTTP_OK
                [("leaf_index", JsonValue.int proof.leaf_index),
                 ("audit_path", JsonValue.array json_audit)])]

/-- Method `HttpHandler::GetSTH`. -/
def GetSTH (this : CertificateHttpHandler) (req : Request) : List Call :=
  if req.command ≠ evhttp_cmd_type.EVHTTP_REQ_GET then
    [Call.Send (Reply.SendError HTTP_BADMETHOD "Method not allowed.")]
  else
    let sth := this.log_lookup_.GetSTH
    [Call.GetSTH, Call.Send (Reply.SendJsonReply HTTP_OK
      [("tree_size", JsonValue.int sth.tree_size),
       ("timestamp", JsonValue.int sth.timestamp),
       ("sha256_root_hash", JsonValue.base64 sth.sha256_root_hash),
       ("tree_head_signature", JsonValue.signature sth.signature)])]

/-- Method `HttpHandler::GetConsistency`. -/
def GetConsistency (this : CertificateHttpHandler) (req : Request) : List Call :=
  if req.command ≠ evhttp_cmd_type.EVHTTP_REQ_GET then
    [Call.Send (Reply.SendError HTTP_BADMETHOD "Method not allowed.")]
  else
    let query := req.query
    let first := query.GetIntParam "first"
    if first < 0 then
      [Call.Send (Reply.SendError HTTP_BADREQUEST "Missing or invalid \"first\" parameter.")]
    else
      let second := query.GetIntParam "second"
      if second < first then
        [Call.Send (Reply.SendError HTTP_BADREQUEST
          "Missing or invalid \"second\" parameter.")]
      else
        let consistency := this.log_lookup_.ConsistencyProof first second
        let json_cons := consistency.map JsonValue.base64
        [Call.ConsistencyProof first second,
         Call.Send (Reply.SendJsonReply HTTP_OK [("consistency", JsonValue.array json_cons)])]

/-- Method `HttpHandler::UpdateNodeStaleness`: the handler object after the call and the
calls made. -/
def UpdateNodeStaleness (flags : Flags) (this : CertificateHttpHandler) :
    CertificateHttpHandler × List Call :=
  if !this.IsActive then (this, [])
  else
    let node_is_stale := this.controller_NodeIsStale
    ({ this with node_is_stale_ := node_is_stale },
      [Call.NodeIsStale, Call.Delay flags.staleness_check_delay_secs])

end HttpHandler

namespace CertificateHttpHandler

/-- Whether an item of the "chain" array is a JSON string (`JsonString::Ok()`). -/
def isJsonString : JsonDoc → Bool
  | JsonDoc.string _ => true
  | _ => false

/-- The bytes `JsonString::FromBase64` gives for an item of the "chain" array. -/
def itemDer (lib : Library) : JsonDoc → String
  | JsonDoc.string json_cert => lib.FromBase64 json_cert
  | _ => ""

/-- Whether an item of the "chain" array passes both checks of the loop of `ExtractChain`:
it is a JSON string and its decoded bytes load as a certificate. -/
def itemLoads (lib : Library) (item : JsonDoc) : Bool :=
  isJsonString item && lib.IsLoaded (itemDer lib item)

/-- The loop of `ExtractChain` over the items of the array from index `i` on; `chain`
holds the certificates added so far (as their DER bytes). The result is the returned
value, the replies sent and the chain. -/
def ExtractChainLoop (lib : Library) :
    List JsonDoc → List String → Bool × List Reply × List String
  | [], chain => (true, [], chain)
  | JsonDoc.string json_cert :: rest, chain =>
    if !lib.IsLoaded (lib.FromBase64 json_cert) then
      (false, [Reply.SendError HTTP_BADREQUEST "Unable to parse provided chain."], chain)
    else ExtractChainLoop lib rest (chain ++ [lib.FromBase64 json_cert])
  | _ :: _, chain =>
    (false, [Reply.SendError HTTP_BADREQUEST "Unable to parse provided JSON."], chain)

/-- The function `ExtractChain`: the returned value, the replies sent on `output` and the
certificates in `chain` on return. -/
def ExtractChain (lib : Library) (req : Request) : Bool × List Reply × List String :=
  if req.command ≠ evhttp_cmd_type.EVHTTP_REQ_POST then
    (false, [Reply.SendError HTTP_BADMETHOD "Method not allowed."], [])
  else
    match req.body with
    | some (JsonDoc.object members) =>
      match (JsonDoc.object members).arrayMember "chain" with
      | none => (false, [Reply.SendError HTTP_BADREQUEST "Unable to parse provided JSON."], [])
      | some json_chain => ExtractChainLoop lib json_chain []
    | _ => (false, [Reply.SendError HTTP_BADREQUEST "Unable to parse provided JSON."], [])

/-- The loop of `GetRoots` over the trusted certificates; every evaluation of the loop
condition calls `GetTrustedCertificates`. -/
def GetRootsLoop : List (Option String) → List JsonValue → List Call
  | [], roots =>
    [Call.GetTrustedCertificates,
     Call.Send (Reply.SendJsonReply HTTP_OK [("certificates", JsonValue.array roots)])]
  | none :: _, _ =>
    [Call.GetTrustedCertificates,
     Call.Send (Reply.SendError HTTP_INTERNAL "Serialisation failed.")]
  | some cert :: it, roots =>
    Call.GetTrustedCertificates :: GetRootsLoop it (roots ++ [JsonValue.base64 cert])

/-- Method `CertificateHttpHandler::GetRoots`; `none` = `cert_checker_` is null and is
dereferenced. -/
def GetRoots (this : CertificateHttpHandler) (req : Request) : Option (List Call) :=
  if req.command ≠ evhttp_cmd_type.EVHTTP_REQ_GET then
    some [Call.Send (Reply.SendError HTTP_BADMETHOD "Method not allowed.")]
  else
    match this.cert_checker_ with
    | none => none
    | some cert_checker =>
      some (Call.GetTrustedCertificates ::
        GetRootsLoop cert_checker.GetTrustedCertificates [])

/-- Method `CertificateHttpHandler::AddChain`. -/
def AddChain (lib : Library) (req : Request) : List Call :=
  let r := ExtractChain lib req
  if !r.1 then r.2.1.map Call.Send
  else r.2.1.map Call.Send ++ [Call.PoolAdd (PoolTask.BlockingAddChain req r.2.2)]

/-- Method `CertificateHttpHandler::AddPreChain`. -/
def AddPreChain (lib : Library) (req : Request) : List Call :=
  let r := ExtractChain lib req
  if !r.1 then r.2.1.map Call.Send
  else r.2.1.map Call.Send ++ [Call.PoolAdd (PoolTask.BlockingAddPreChain req r.2.2)]

/-- Method `CertificateHttpHandler::AddHandlers`; `none` = a `CHECK` fails. A handler
that would dereference a null `cert_checker_` makes no call. -/
def AddHandlers (lib : Library) (this : CertificateHttpHandler) (server : HttpServer) :
    Option HttpServer := do
  let server ←
    if this.cert_checker_.isSome then
      HttpHandler.AddProxyWrappedHandler server "/ct/v1/get-roots"
        (fun this req => (GetRoots this req).getD [])
    else some server
  if this.frontend_.isSome then
    let server ← HttpHandler.AddProxyWrappedHandler server "/ct/v1/add-chain"
      (fun _ => AddChain lib)
    HttpHandler.AddProxyWrappedHandler server "/ct/v1/add-pre-chain" (fun _ => AddPreChain lib)
  else some server

end CertificateHttpHandler

namespace HttpHandler

/-- Method `HttpHandler::Add`; `none` = a `CHECK` fails. -/
def Add (flags : Flags) (lib : Library) (this : CertificateHttpHandler)
    (server : HttpServer) : Option HttpServer := do
  let server ← AddProxyWrappedHandler server "/ct/v1/get-entries" (GetEntries flags)
  let server ← AddProxyWrappedHandler server "/ct/v1/get-proof-by-hash" (GetProof lib)
  let server ← AddProxyWrappedHandler server "/ct/v1/get-sth" GetSTH
  let server ← AddProxyWrappedHandler server "/ct/v1/get-sth-consistency" GetConsistency
  CertificateHttpHandler.AddHandlers lib this server

/-- The paths bound in a dispatch table, in registration order. -/
def registeredPaths (server : HttpServer) : List String := server.map Prod.fst

/-- Dispatch of a request for `path`: the calls of the bound callback (`none` = no
callback is bound to the path). -/
def dispatch (server : HttpServer) (path : String) (this : CertificateHttpHandler)
    (req : Request) : Option (List Call) :=
  (server.lookup path).map (fun cb => cb this req)

/-- The chain "delay, callback, delay" of the staleness task: `pending` callbacks are
waiting on the event base; each step of `fuel` runs one of them as
`UpdateNodeStaleness` on the handler object whose `IsActive` and controller answer are
given by the head of `world`, and every `Delay` it makes adds a pending callback. The result
is the handler object, the number of pending callbacks and the calls made. -/
def runStalenessTask (flags : Flags) :
    List (Bool × Bool) → CertificateHttpHandler → Nat → CertificateHttpHandler × Nat × List Call
  | [], this, pending => (this, pending, [])
  | _ :: _, this, 0 => (this, 0, [])
  | (active, answer) :: world, this, pending + 1 =>
    let r := UpdateNodeStaleness flags
      { this with IsActive := active, controller_NodeIsStale := answer }
    let scheduled := (r.2.filter (fun c => match c with | Call.Delay _ => true | _ => false)).length
    let rest := runStalenessTask flags world r.1 (pending + scheduled)
    (rest.1, rest.2.1, r.2 ++ rest.2.2)

/-- Reference description of a get-entries reply, following the words of the
specification: the longest run at the head of the scan whose `j`-th entry has sequence
number `start + j`. -/
def contiguousRun : Int → List LoggedEntry → List LoggedEntry
  | _, [] => []
  | start, entry :: scan =>
    if entry.sequence_number = start then entry :: contiguousRun (start + 1) scan else []

/-- The handler object of the examples: a log holding the entries `0 .. n - 1`, each
serialising to fixed strings, a lookup with tree size `n`, a fresh node, no cert checker
and no frontend. -/
def exampleHandler (n : Nat) : CertificateHttpHandler :=
  { log_lookup_ :=
      { GetSTH := { tree_size := n, timestamp := 0, sha256_root_hash := "", signature := "" },
        AuditProof := fun _ _ => none,
        ConsistencyProof := fun _ _ => [] },
    db_ := fun start =>
      ((List.range n).map (fun (i : Nat) =>
        ({ sequence_number := (i : Int), leaf_input := some "leaf", extra_data := some "extra",
           sct_data := none } : LoggedEntry))).drop start.toNat,
    controller_NodeIsStale := false,
    IsActive := true,
    node_is_stale_ := false,
    cert_checker_ := none,
    frontend_ := none }

/-- The library of the examples: base64 decoding is the identity and the bytes load as a
certificate when they are not empty. -/
def exampleLibrary : Library :=
  { FromBase64 := fun s => s, IsLoaded := fun der => decide (der ≠ "") }

/-- The calls made for a request for `path` by a server whose dispatch table was filled
by `Add` on the empty table. -/
def serve (flags : Flags) (lib : Library) (this : CertificateHttpHandler) (path : String)
    (req : Request) : Option (List Call) :=
  (Add flags lib this []).bind (fun server => dispatch server path this req)

/-- A request with the given command, integer parameters `lo` and `hi` under the given
names, no other parameter and no body. -/
def exampleRequest (command : evhttp_cmd_type) (lo_name hi_name : String) (lo hi : Int) :
    Request :=
  { command := command,
    query :=
      { GetParam := fun _ => none,
        GetIntParam := fun name => if name = lo_name then lo else if name = hi_name then hi else -1,
        GetBoolParam := fun _ => false },
    body := none }

end HttpHandler

namespace SparseMerkleTree

/-- The representation invariant of the per-depth maps `tree` for the calls `ops` of
`SetLeaf`: a node sits above some path that was set; the LEAF nodes and the paths set
correspond one to one, the leaf of a path being stored under the key made of the first
`d + 1` bits of the path and carrying `HashLeaf` of the last data set for it; every
position above a node holds an INTERNAL node, and INTERNAL nodes occur only at depths
below 255. -/
structure RepInvariant (hasher : TreeHasher) (ops : List (Path × String))
    (tree : List Level) : Prop where
  covered : ∀ d k node, levelAt tree d k = some node →
    ∃ q data, lastData ops q = some data ∧ q.pre (d + 1) = k
  leaf_of_path : ∀ q data, lastData ops q = some data →
    ∃ d, levelAt tree d (q.pre (d + 1)) = some (TreeNode.leaf q (hasher.HashLeaf data))
  path_of_leaf : ∀ d k node, levelAt tree d k = some node → node.type_ = NodeType.LEAF →
    ∃ q data, lastData ops q = some data ∧ q.pre (d + 1) = k ∧
      node = TreeNode.leaf q (hasher.HashLeaf data)
  leaf_unique : ∀ d k node e j node2 q, levelAt tree d k = some node →
    node.type_ = NodeType.LEAF → node.path_ = some q → levelAt tree e j = some node2 →
    node2.type_ = NodeType.LEAF → node2.path_ = some q → d = e ∧ k = j
  ancestors : ∀ d k node, levelAt tree d k = some node → ∀ e, e < d →
    ∃ par, levelAt tree e (k.pre (e + 1)) = some par ∧ par.type_ = NodeType.INTERNAL
  internal_depth : ∀ d k node, levelAt tree d k = some node →
    node.type_ = NodeType.INTERNAL → d < 255

/-- The maps while the leaf of `p` (leaf hash `hp`) is being pushed down, at the top of
iteration `j` of the loop of `SetLeaf` for a colliding path: each level `e < j` holds one
INTERNAL node without cached hash under the first `e + 1` bits of `p`, level `j` holds
the leaf of `p` under the first `j + 1` bits of `p`, and there is nothing else. -/
def collisionStage (p : Path) (hp : String) (j : Nat) : Nat → IndexType → Option TreeNode :=
  fun e i =>
    if e < j then (if i = p.pre (e + 1) then some ⟨NodeType.INTERNAL, "", none⟩ else none)
    else if e = j then (if i = p.pre (j + 1) then some (TreeNode.leaf p hp) else none)
    else none

/-- The maps after the collision of `q` with the leaf of `p` was resolved at level `k`:
those of `collisionStage p hp k` and the leaf of `q` at level `k` under the first `k + 1`
bits of `q`. -/
def collisionFinal (p q : Path) (hp hq : String) (k : Nat) :
    Nat → IndexType → Option TreeNode :=
  fun e i =>
    if e = k ∧ i = q.pre (k + 1) then some (TreeNode.leaf q hq) else collisionStage p hp k e i

/-- A second small hasher for concrete runs, with constant digests. -/
def constHasher : TreeHasher := ⟨32, fun _ => "x", fun _ _ => "y"⟩

/-- The path whose second bit is 1 and whose other bits are 0. -/
def secondPath : Path := Path.zero.set_nth_msb 1 true

end SparseMerkleTree

namespace HttpHandler

/-- Whether the serialisation calls of the loop of `BlockingGetEntries` succeed for an
entry: `SerializeForLeaf`, `SerializeExtraData` and, when `include_scts` is set,
`SerializeSCT`. -/
def serialises (include_scts : Bool) (entry : LoggedEntry) : Bool :=
  entry.leaf_input.isSome && entry.extra_data.isSome &&
    (!include_scts || entry.sct_data.isSome)

/-- The replies among the calls of a handler, in order. -/
def replies (calls : List Call) : List Reply :=
  calls.filterMap (fun c => match c with | Call.Send reply => some reply | _ => none)

end HttpHandler

namespace SparseMerkleTree

/-- The digest `CurrentRoot` returns after the calls `ops` of `SetLeaf` on a tree that is
constructed while the static pointer of `GetNullHashes` holds `cache`. -/
def rootAfterIn (hasher : TreeHasher) (cache : Option (List String))
    (ops : List (Path × String)) : Except Fatal String :=
  match SetLeaves hasher (create hasher cache).1 ops with
  | .ok t =>
    match CurrentRoot hasher t with
    | .ok r => .ok r.1
    | .error e => .error e
  | .error e => .error e

/-- The number a digit stands for, for `sumHasher` (0 for any other string). -/
def digitCode (s : String) : Nat :=
  if s = "1" then 1 else if s = "2" then 2 else if s = "3" then 3 else if s = "4" then 4
  else if s = "5" then 5 else if s = "6" then 6 else 0

/-- The digit of a number below 7. -/
def digitName (n : Nat) : String :=
  match n with
  | 0 => "0"
  | 1 => "1"
  | 2 => "2"
  | 3 => "3"
  | 4 => "4"
  | 5 => "5"
  | _ => "6"

/-- A small hasher for concrete runs whose digests are the digits "0" to "6":
`HashLeaf` tells the empty string from the others, `HashChildren(l, r)` is
`l + r + 1` modulo 7. -/
def sumHasher : TreeHasher :=
  ⟨32, fun d => if d = "" then "1" else "2",
    fun l r => digitName ((digitCode l + digitCode r + 1) % 7)⟩

/-- The hasher `flagHasher` with a digest width of 16 bytes. -/
def narrowHasher : TreeHasher := ⟨16, flagHasher.HashLeaf, flagHasher.HashChildren⟩

/-- Reference for the memoisation, written from the words "uncached recomputation on the
current node map": the hash of the subtree at `(depth, index)` computed from the nodes
alone, reading no hash cached on an INTERNAL node and writing none. The first argument
bounds the recursion depth. -/
def uncachedSubtreeHash (hasher : TreeHasher) (nulls : List String) (tree : List Level) :
    Nat → Nat → IndexType → Except Fatal String
  | 0, _, _ => .error Fatal.recursion_budget
  | fuel + 1, depth, index =>
    match levelAt tree depth index with
    | none => nullAt nulls depth
    | some node =>
      match node.type_ with
      | NodeType.INTERNAL =>
        match uncachedSubtreeHash hasher nulls tree fuel (depth + 1) index with
        | .error e => .error e
        | .ok left =>
          match uncachedSubtreeHash hasher nulls tree fuel (depth + 1)
              (index.set_nth_msb (depth + 1) true) with
          | .error e => .error e
          | .ok right => .ok (hasher.HashChildren left right)
      | NodeType.LEAF =>
        match node.path_ with
        | none => .error Fatal.null_path
        | some q => foldLeaf hasher nulls q (kDigestSizeBits - 1 - depth) (kDigestSizeBits - 1)
            node.hash_

/-- Reference for the memoisation: the digest of `CurrentRoot` recomputed from the node
map, ignoring `root_hash_` and every hash cached on an INTERNAL node. -/
def uncachedRoot (hasher : TreeHasher) (t : SparseMerkleTree) : Except Fatal String :=
  match uncachedSubtreeHash hasher t.null_hashes_ t.tree_ (t.tree_.length + 1) 0
      (Path.ofUInt64 0) with
  | .error e => .error e
  | .ok left =>
    match uncachedSubtreeHash hasher t.null_hashes_ t.tree_ (t.tree_.length + 1) 0
        (Path.ofUInt64 1) with
    | .error e => .error e
    | .ok right => .ok (hasher.HashChildren left right)

/-- A call on the tree object. -/
inductive TreeCall
  | SetLeaf (path : Path) (data : String)
  | CurrentRoot

/-- An interleaving of `SetLeaf` and `CurrentRoot` calls, run in order on the tree object
and stopping at the first fatal exit. -/
def runCalls (hasher : TreeHasher) : SparseMerkleTree → List TreeCall →
    Except Fatal SparseMerkleTree
  | t, [] => .ok t
  | t, TreeCall.SetLeaf path data :: rest =>
    match SetLeaf hasher t path data with
    | .ok t2 => runCalls hasher t2 rest
    | .error e => .error e
  | t, TreeCall.CurrentRoot :: rest =>
    match CurrentRoot hasher t with
    | .ok r => runCalls hasher r.2 rest
    | .error e => .error e

/-- What a tree object holds in its caches: the type of the node at level 0 under the zero
key with the hash cached on it, and `root_hash_`. -/
def cachesAtTop (t : SparseMerkleTree) : Option (NodeType × String) × String :=
  ((levelAt t.tree_ 0 Path.zero).map (fun node => (node.type_, node.hash_)), t.root_hash_)

/-- Position `(e, j)` is one that the recomputation started at `(d, k)` can read: it is
not above `d`, and `j` is `k` up to the bits after bit `d` and up to bit `e`. -/
def BelowU (d : Nat) (k : IndexType) (e : Nat) (j : IndexType) : Prop :=
  d ≤ e ∧ ∀ i, (i ≤ d ∨ e < i) → j.nth_msb i = k.nth_msb i

/-- The key of every node at depth `d` has zero bits after its first `d + 1`. -/
def KeyNormal (tree : List Level) : Prop :=
  ∀ d k node, levelAt tree d k = some node → k.pre (d + 1) = k

/-- Every non-empty hash cached on an INTERNAL node is the hash that the uncached
recomputation gives for the node (with any bound on the recursion that reaches the last
level). -/
def CacheValid (hasher : TreeHasher) (nulls : List String) (tree : List Level) : Prop :=
  ∀ d k node, levelAt tree d k = some node → node.type_ = NodeType.INTERNAL →
    node.hash_ ≠ "" →
    ∀ g, tree.length + 1 ≤ g + d → uncachedSubtreeHash hasher nulls tree g d k = .ok node.hash_

/-- What the loop of `SetLeaf` for `path`, started at `depth` on `tree`, leaves in `T`:
positions whose key leaves `path` before their depth are untouched; a non-empty hash still
cached on an INTERNAL node was there before, and when the node lies on `path` at `depth`
or below, nothing the recomputation of its hash reads was touched. -/
def LoopMemo (path : Path) (depth : Nat) (tree T : List Level) : Prop :=
  (∀ e j i, i < e → j.nth_msb i ≠ path.nth_msb i → levelAt T e j = levelAt tree e j) ∧
  (∀ d k node, levelAt T d k = some node → node.type_ = NodeType.INTERNAL →
    node.hash_ ≠ "" →
    levelAt tree d k = some node ∧
      (depth ≤ d → k = path.pre (d + 1) →
        ∀ e j, BelowU d k e j → levelAt T e j = levelAt tree e j))

/-- The memoised values of a tree object agree with the uncached recomputation on its
node map. -/
structure Memo (hasher : TreeHasher) (t : SparseMerkleTree) : Prop where
  keys : KeyNormal t.tree_
  cache : CacheValid hasher t.null_hashes_ t.tree_
  root : t.root_hash_ ≠ "" → uncachedRoot hasher t = .ok t.root_hash_

end SparseMerkleTree

namespace SparseMerkleTree

/-! ### Bits of paths -/

theorem mask_eq (k : Nat) (hk : k < 8) : (128 : Nat) >>> k = 2 ^ (7 - k) := by
  interval_cases k <;> rfl

theorem and_two_pow_ne_zero (b j : Nat) : (b &&& 2 ^ j != 0) = Nat.testBit b j := by
  cases h : b.testBit j
  · have : b &&& 2 ^ j = 0 := by
      apply Nat.eq_of_testBit_eq
      intro i
      simp only [Nat.testBit_and, Nat.testBit_two_pow, Nat.zero_testBit]
      by_cases hji : j = i
      · subst hji; simp [h]
      · simp [hji]
    simp [this]
  · have : b &&& 2 ^ j = 2 ^ j := by
      apply Nat.eq_of_testBit_eq
      intro i
      simp only [Nat.testBit_and, Nat.testBit_two_pow]
      by_cases hji : j = i
      · subst hji; simp [h]
      · simp [hji]
    simp [this]

theorem Path.nth_msb_eq (p : Path) (n : Nat) (h : n < 256) :
    p.nth_msb n = Nat.testBit (p.b_ ⟨n / 8, by omega⟩).val (7 - n % 8) := by
  unfold Path.nth_msb
  rw [dif_pos h, mask_eq _ (Nat.mod_lt _ (by decide)), and_two_pow_ne_zero]

theorem Path.nth_msb_of_ge (p : Path) (n : Nat) (h : 256 ≤ n) : p.nth_msb n = false := by
  unfold Path.nth_msb
  rw [dif_neg (by omega)]

theorem testBit_255 (i : Nat) : Nat.testBit 255 i = decide (i < 8) := by
  have : (255 : Nat) = 2 ^ 8 - 1 := by norm_num
  rw [this, Nat.testBit_two_pow_sub_one]

theorem testBit_byte_high (b i : Nat) (hb : b < 256) (hi : ¬ i < 8) : Nat.testBit b i = false := by
  apply Nat.testBit_lt_two_pow
  calc b < 2 ^ 8 := by simpa using hb
    _ ≤ 2 ^ i := Nat.pow_le_pow_right (by decide) (by omega)

theorem setbit_true (b j i : Nat) (hb : b < 256) (hj : j < 8) :
    Nat.testBit ((b ||| 2 ^ j) % 256) i = if i = j then true else Nat.testBit b i := by
  have h256 : (256 : Nat) = 2 ^ 8 := by norm_num
  rw [h256, Nat.testBit_mod_two_pow, Nat.testBit_or, Nat.testBit_two_pow]
  by_cases hi : i = j
  · subst hi; simp [hj]
  · have hji : ¬ j = i := fun h => hi h.symm
    simp only [hi, hji, decide_False, Bool.or_false, if_false]
    by_cases h8 : i < 8
    · simp [h8]
    · simp only [h8, decide_False, Bool.false_and]
      exact (testBit_byte_high b i hb h8).symm

theorem setbit_false (b j i : Nat) (hb : b < 256) (hj : j < 8) :
    Nat.testBit ((b &&& (255 ^^^ 2 ^ j)) % 256) i = if i = j then false else Nat.testBit b i := by
  have h256 : (256 : Nat) = 2 ^ 8 := by norm_num
  rw [h256, Nat.testBit_mod_two_pow, Nat.testBit_and, Nat.testBit_xor, Nat.testBit_two_pow,
    testBit_255]
  by_cases hi : i = j
  · subst hi; simp [hj]
  · have hji : ¬ j = i := fun h => hi h.symm
    simp only [hi, hji, decide_False, if_false]
    by_cases h8 : i < 8
    · simp [h8]
    · simp only [h8, decide_False, Bool.false_and]
      exact (testBit_byte_high b i hb h8).symm

theorem Path.nth_msb_set_lt (p : Path) (n m : Nat) (v : Bool) (hn : n < 256) (hm : m < 256) :
    (p.set_nth_msb n v).nth_msb m = if m = n then v else p.nth_msb m := by
  rw [Path.nth_msb_eq _ _ hm, Path.nth_msb_eq _ _ hm]
  unfold Path.set_nth_msb
  rw [if_pos hn]
  simp only
  by_cases hb : m / 8 = n / 8
  · rw [if_pos hb, mask_eq _ (Nat.mod_lt _ (by decide))]
    have hlt := (p.b_ ⟨m / 8, by omega⟩).isLt
    cases v
    · simp only [Bool.false_eq_true, if_false, Fin.ofNat, Nat.succ_eq_add_one, Nat.reduceAdd]
      rw [setbit_false _ _ _ hlt (by omega)]
      by_cases hmn : m = n
      · subst hmn; simp
      · have : ¬ (7 - m % 8 = 7 - n % 8) := by omega
        simp [this, hmn]
    · simp only [if_true, Fin.ofNat, Nat.succ_eq_add_one, Nat.reduceAdd]
      rw [setbit_true _ _ _ hlt (by omega)]
      by_cases hmn : m = n
      · subst hmn; simp
      · have : ¬ (7 - m % 8 = 7 - n % 8) := by omega
        simp [this, hmn]
  · rw [if_neg hb]
    have : ¬ m = n := fun h => hb (by rw [h])
    simp [this]

theorem Path.nth_msb_set (p : Path) (n m : Nat) (v : Bool) :
    (p.set_nth_msb n v).nth_msb m = if m = n ∧ n < 256 then v else p.nth_msb m := by
  by_cases hn : n < 256
  · by_cases hm : m < 256
    · rw [Path.nth_msb_set_lt _ _ _ _ hn hm]; simp [hn]
    · rw [Path.nth_msb_of_ge _ _ (by omega), Path.nth_msb_of_ge _ _ (by omega)]
      have : ¬ (m = n ∧ n < 256) := by omega
      simp [this]
  · have : ¬ (m = n ∧ n < 256) := by omega
    rw [if_neg this]
    unfold Path.set_nth_msb
    rw [if_neg hn]

theorem Path.ext_bits (p q : Path) (h : ∀ n, n < 256 → p.nth_msb n = q.nth_msb n) : p = q := by
  cases p with | mk f =>
  cases q with | mk g =>
  simp only [Path.mk.injEq]
  funext i
  apply Fin.ext
  apply Nat.eq_of_testBit_eq
  intro j
  by_cases hj : j < 8
  · have hi := i.isLt
    have := h (8 * i.val + (7 - j)) (by omega)
    rw [Path.nth_msb_eq _ _ (by omega), Path.nth_msb_eq _ _ (by omega)] at this
    simp only at this
    have e1 : (8 * i.val + (7 - j)) / 8 = i.val := by omega
    have e2 : 7 - (8 * i.val + (7 - j)) % 8 = j := by omega
    have e3 : (⟨(8 * i.val + (7 - j)) / 8, by omega⟩ : Fin 32) = i := Fin.ext e1
    rw [e2, e3] at this
    exact this
  · rw [testBit_byte_high _ _ (f i).isLt hj, testBit_byte_high _ _ (g i).isLt hj]

theorem Path.nth_msb_zero (n : Nat) : Path.zero.nth_msb n = false := by
  unfold Path.nth_msb Path.zero
  split <;> simp

theorem Path.nth_msb_pre (p : Path) (j n : Nat) :
    (p.pre j).nth_msb n = (decide (n < j) && p.nth_msb n) := by
  unfold Path.pre
  induction j with
  | zero => simp [Path.nth_msb_zero]
  | succ j ih =>
    rw [List.range_succ, List.foldl_append]
    simp only [List.foldl_cons, List.foldl_nil]
    rw [Path.nth_msb_set, ih]
    by_cases hnj : n = j
    · subst hnj
      by_cases h256 : n < 256
      · simp [h256]
      · simp [h256, Path.nth_msb_of_ge p n (by omega)]
    · have h1 : ¬ (n = j ∧ j < 256) := fun h => hnj h.1
      rw [if_neg h1]
      by_cases hlt : n < j
      · have : n < j + 1 := by omega
        simp [hlt, this]
      · have : ¬ n < j + 1 := by omega
        simp [hlt, this]

theorem Path.pre_eq_iff (p k : Path) (j : Nat) :
    p.pre j = k ↔ ∀ n, n < 256 → k.nth_msb n = (decide (n < j) && p.nth_msb n) := by
  constructor
  · intro h n _
    rw [← h, Path.nth_msb_pre]
  · intro h
    apply Path.ext_bits
    intro n hn
    rw [Path.nth_msb_pre, h n hn]

end SparseMerkleTree

namespace SparseMerkleTree

/-! ### Levels of the tree vector -/

theorem levelAt_of_le (tree : List Level) (d : Nat) (h : tree.length ≤ d) :
    levelAt tree d = Level.empty := by
  unfold levelAt
  rw [List.getD_eq_default _ _ h]

theorem levelAt_set (tree : List Level) (d e : Nat) (m : Level) :
    levelAt (tree.set d m) e = if e = d ∧ d < tree.length then m else levelAt tree e := by
  unfold levelAt
  by_cases hed : e = d
  · subst hed
    by_cases hlt : e < tree.length
    · simp [List.getD_eq_getElem?_getD, hlt]
    · simp only [List.getD_eq_getElem?_getD]
      rw [List.getElem?_eq_none (by simpa using Nat.le_of_not_lt hlt),
        List.getElem?_eq_none (Nat.le_of_not_lt hlt)]
      simp [hlt]
  · have : ¬ (e = d ∧ d < tree.length) := fun h => hed h.1
    rw [if_neg this]
    simp only [List.getD_eq_getElem?_getD]
    rw [List.getElem?_set_ne (fun h => hed h.symm)]

theorem length_ensure (tree : List Level) (l : Nat) :
    (EnsureHaveLevel tree l).length = max tree.length (l + 1) := by
  unfold EnsureHaveLevel
  split
  · simp; omega
  · omega

theorem levelAt_ensure (tree : List Level) (l e : Nat) :
    levelAt (EnsureHaveLevel tree l) e = levelAt tree e := by
  unfold EnsureHaveLevel
  split
  · unfold levelAt
    simp only [List.getD_eq_getElem?_getD]
    by_cases h : e < tree.length
    · rw [List.getElem?_append_left h]
    · rw [List.getElem?_append_right (by omega)]
      rw [List.getElem?_eq_none (Nat.le_of_not_lt h)]
      by_cases h2 : e - tree.length < l + 1 - tree.length
      · rw [List.getElem?_replicate]
        simp [h2]
      · rw [List.getElem?_eq_none (by simpa using Nat.le_of_not_lt h2)]
  · rfl

theorem ensure_of_lt (tree : List Level) (l : Nat) (h : l < tree.length) :
    EnsureHaveLevel tree l = tree := by
  unfold EnsureHaveLevel
  rw [if_neg (by omega)]

theorem levels_ext (a b : List Level) (hlen : a.length = b.length)
    (h : ∀ e, e < a.length → levelAt a e = levelAt b e) : a = b := by
  apply List.ext_getElem hlen
  intro n h1 h2
  have := h n h1
  unfold levelAt at this
  simpa [List.getD_eq_getElem?_getD, List.getElem?_eq_getElem h1, List.getElem?_eq_getElem h2]
    using this

theorem set_levelAt_self (tree : List Level) (d : Nat) (m : Level) (h : levelAt tree d = m) :
    tree.set d m = tree := by
  apply levels_ext
  · simp
  · intro e _
    rw [levelAt_set]
    split
    · rename_i h2; rw [h2.1, h]
    · rfl

end SparseMerkleTree

/-! ### The null-hash vector -/

theorem nullLoop_eq (hasher : TreeHasher) (xs : List Nat) (m : Nat) :
    xs.foldl (fun r _ => r ++ [hasher.HashChildren (r.getLastD "") (r.getLastD "")])
        ((List.range (m + 1)).map (nullChain hasher))
      = (List.range (m + xs.length + 1)).map (nullChain hasher) := by
  induction xs generalizing m with
  | nil => rfl
  | cons x xs ih =>
    rw [List.foldl_cons]
    have hstep : (List.range (m + 1)).map (nullChain hasher)
        ++ [hasher.HashChildren (((List.range (m + 1)).map (nullChain hasher)).getLastD "")
              (((List.range (m + 1)).map (nullChain hasher)).getLastD "")]
        = (List.range (m + 1 + 1)).map (nullChain hasher) := by
      have hl : ((List.range (m + 1)).map (nullChain hasher)).getLastD "" = nullChain hasher m := by
        rw [List.range_succ, List.map_append]
        simp
      rw [hl, List.range_succ (m + 1), List.map_append]
      rfl
    rw [hstep, ih (m + 1)]
    congr 2
    simp only [List.length_cons]
    omega

theorem computeNullHashes_eq (hasher : TreeHasher) :
    computeNullHashes hasher
      = ((List.range (hasher.DigestSize * 8 - 1 + 1)).map (nullChain hasher)).reverse := by
  unfold computeNullHashes
  have h0 : [hasher.HashLeaf ""] = (List.range (0 + 1)).map (nullChain hasher) := rfl
  rw [h0, nullLoop_eq]
  simp

theorem GetNullHashes_none (hasher : TreeHasher) :
    (GetNullHashes hasher none).1 = computeNullHashes hasher := rfl

theorem computeNullHashes_length (hasher : TreeHasher) :
    (computeNullHashes hasher).length = hasher.DigestSize * 8 - 1 + 1 := by
  rw [computeNullHashes_eq]
  simp

theorem computeNullHashes_get (hasher : TreeHasher) (d : Nat)
    (hd : d ≤ hasher.DigestSize * 8 - 1) :
    (computeNullHashes hasher).get? d = some (nullChain hasher (hasher.DigestSize * 8 - 1 - d)) := by
  rw [computeNullHashes_eq, List.get?_eq_getElem?]
  rw [List.getElem?_reverse (by simp; omega)]
  simp only [List.length_map, List.length_range]
  rw [List.getElem?_map, List.getElem?_range (by omega)]
  simp only [Option.map_some']
  congr 2

namespace SparseMerkleTree

theorem nullAt_compute (hasher : TreeHasher) (h32 : hasher.DigestSize = 32) (d : Nat)
    (hd : d ≤ 255) :
    nullAt (computeNullHashes hasher) d = .ok (nullChain hasher (255 - d)) := by
  unfold nullAt
  rw [computeNullHashes_get hasher d (by rw [h32]; omega), h32]

end SparseMerkleTree

namespace SparseMerkleTree

/-! ### Keys and prefixes -/

theorem Path.pre_succ (p : Path) (j : Nat) :
    p.pre (j + 1) = (p.pre j).set_nth_msb j (p.nth_msb j) := by
  unfold Path.pre
  rw [List.range_succ, List.foldl_append]
  rfl

theorem Path.pre_of_ge (p : Path) (j : Nat) (h : 256 ≤ j) : p.pre j = p := by
  rw [Path.pre_eq_iff]
  intro n hn
  have : n < j := by omega
  simp [this]

theorem Path.pre_pre (p : Path) (a b : Nat) : (p.pre a).pre b = p.pre (min a b) := by
  rw [Path.pre_eq_iff]
  intro n _
  rw [Path.nth_msb_pre, Path.nth_msb_pre]
  by_cases ha : n < a <;> by_cases hb : n < b <;> simp [ha, hb]

theorem Path.pre_idem (p : Path) (a : Nat) : (p.pre a).pre a = p.pre a := by
  rw [Path.pre_pre, Nat.min_self]

/-- A key of length `j` stays a key of any greater length. -/
theorem Path.key_mono (k : Path) (i j : Nat) (hk : k.pre i = k) (hij : i ≤ j) : k.pre j = k := by
  rw [← hk, Path.pre_pre, Nat.min_eq_left hij]

theorem Path.key_set (k : Path) (j : Nat) (v : Bool) (hk : k.pre j = k) :
    (k.set_nth_msb j v).pre (j + 1) = k.set_nth_msb j v := by
  rw [Path.pre_eq_iff] at hk ⊢
  intro n hn
  have h1 := hk n hn
  rw [Path.nth_msb_set]
  by_cases hnj : n = j
  · subst hnj; simp [hn]
  · have : ¬ (n = j ∧ j < 256) := fun h => hnj h.1
    rw [if_neg this, h1]
    by_cases hlt : n < j
    · have : n < j + 1 := by omega
      simp [hlt, this]
    · have : ¬ n < j + 1 := by omega
      simp [hlt, this]

theorem Path.key_bit (k : Path) (j n : Nat) (hk : k.pre j = k) (hn : j ≤ n) :
    k.nth_msb n = false := by
  rw [← hk, Path.nth_msb_pre]
  have : ¬ n < j := by omega
  simp [this]

theorem Path.pre_set_same (k : Path) (j : Nat) (v : Bool) (hk : k.pre j = k) :
    (k.set_nth_msb j v).pre j = k := by
  rw [Path.pre_eq_iff]
  intro n _
  rw [Path.nth_msb_set]
  by_cases hlt : n < j
  · have : ¬ (n = j ∧ j < 256) := by omega
    simp [hlt, this]
  · rw [Path.key_bit k j n hk (by omega)]
    simp [hlt]

theorem Path.set_set (k : Path) (j : Nat) (v w : Bool) :
    (k.set_nth_msb j v).set_nth_msb j w = k.set_nth_msb j w := by
  apply Path.ext_bits
  intro n _
  rw [Path.nth_msb_set, Path.nth_msb_set, Path.nth_msb_set]
  split <;> rfl

theorem Path.set_of_bit (k : Path) (j : Nat) (h : k.nth_msb j = v) :
    k.set_nth_msb j v = k := by
  apply Path.ext_bits
  intro n _
  rw [Path.nth_msb_set]
  split
  · rename_i h2; rw [h2.1, h]
  · rfl

/-- The key of `q` one level down is the key of `q` with the next bit of `q` written. -/
theorem Path.pre_succ_of_key (q k : Path) (j : Nat) (h : q.pre j = k) :
    q.pre (j + 1) = k.set_nth_msb j (q.nth_msb j) := by
  rw [Path.pre_succ, h]

theorem Path.pre_of_pre_succ (q k : Path) (j : Nat) (h : q.pre (j + 1) = k) :
    q.pre j = k.pre j := by
  rw [← h, Path.pre_pre]
  congr 1
  omega

theorem Path.bit_of_pre_succ (q k : Path) (j : Nat) (h : q.pre (j + 1) = k) :
    k.nth_msb j = q.nth_msb j := by
  rw [← h, Path.nth_msb_pre]
  simp

theorem Path.ne_of_bit_ne (p q : Path) (j : Nat) (h : p.nth_msb j ≠ q.nth_msb j) : p ≠ q :=
  fun e => h (by rw [e])

end SparseMerkleTree

namespace SparseMerkleTree

/-! ### The reference hash -/

theorem refHash_local (hasher : TreeHasher) (L L2 : Path → String) (n : Nat) :
    ∀ k : Path, n ≤ 256 → k.pre (256 - n) = k →
      (∀ q : Path, q.pre (256 - n) = k → L q = L2 q) →
      refHash hasher L n k = refHash hasher L2 n k := by
  induction n with
  | zero =>
    intro k _ hk h
    exact h k hk
  | succ n ih =>
    intro k hn hk h
    have hj : 256 - n = (255 - n) + 1 := by omega
    have hj2 : 256 - (n + 1) = 255 - n := by omega
    rw [hj2] at hk h
    unfold refHash
    rw [ih k (by omega) (by rw [hj]; exact Path.key_mono k _ _ hk (by omega))
        (fun q hq => h q (by rw [hj] at hq; rw [Path.pre_of_pre_succ q k _ hq, hk])),
      ih (k.set_nth_msb (255 - n) true) (by omega) (by rw [hj]; exact Path.key_set k _ _ hk)
        (fun q hq => h q (by
          rw [hj] at hq
          rw [Path.pre_of_pre_succ q _ _ hq, Path.pre_set_same k _ _ hk]))]

theorem refHash_null (hasher : TreeHasher) (n : Nat) (k : Path) :
    refHash hasher (fun _ => hasher.HashLeaf "") n k = nullChain hasher n := by
  induction n generalizing k with
  | zero => rfl
  | succ n ih =>
    unfold refHash nullChain
    rw [ih, ih]

theorem refHash_empty (hasher : TreeHasher) (L : Path → String) (n : Nat) (k : Path)
    (hn : n ≤ 256) (hk : k.pre (256 - n) = k)
    (h : ∀ q : Path, q.pre (256 - n) = k → L q = hasher.HashLeaf "") :
    refHash hasher L n k = nullChain hasher n := by
  rw [refHash_local hasher L (fun _ => hasher.HashLeaf "") n k hn hk h, refHash_null]

theorem refHash_single (hasher : TreeHasher) (L : Path → String) (q : Path) (n : Nat) :
    n ≤ 256 →
    (∀ q2 : Path, q2.pre (256 - n) = q.pre (256 - n) → q2 ≠ q → L q2 = hasher.HashLeaf "") →
    refHash hasher L n (q.pre (256 - n)) = foldPure hasher q (L q) n := by
  induction n with
  | zero =>
    intro _ _
    unfold refHash foldPure
    rw [Path.pre_of_ge q _ (by omega)]
  | succ n ih =>
    intro hn h
    have hj : 256 - n = (255 - n) + 1 := by omega
    have hj2 : 256 - (n + 1) = 255 - n := by omega
    have hlt : 255 - n < 256 := by omega
    rw [hj2] at h ⊢
    rw [hj] at ih
    have hkey : (q.pre (255 - n)).pre (255 - n) = q.pre (255 - n) := Path.pre_idem q _
    have hkbit : (q.pre (255 - n)).nth_msb (255 - n) = false :=
      Path.key_bit _ _ _ hkey (Nat.le_refl _)
    have ih2 := ih (by omega) (fun q2 hq2 hne =>
      h q2 (by rw [Path.pre_of_pre_succ q2 _ _ hq2, Path.pre_pre]; congr 1; omega) hne)
    unfold refHash foldPure
    cases hb : q.nth_msb (255 - n)
    · -- next bit 0: the leaf is in the left child
      have hq1 : q.pre (255 - n + 1) = q.pre (255 - n) := by
        rw [Path.pre_succ_of_key q _ _ rfl, hb]
        exact Path.set_of_bit _ _ hkbit
      rw [hq1] at ih2
      rw [ih2, if_pos rfl]
      congr 1
      apply refHash_empty hasher L n _ (by omega)
      · rw [hj]; exact Path.key_set _ _ _ hkey
      · intro q2 hq2
        rw [hj] at hq2
        apply h q2
        · rw [Path.pre_of_pre_succ q2 _ _ hq2, Path.pre_set_same _ _ _ hkey]
        · apply Path.ne_of_bit_ne q2 q (255 - n)
          rw [← Path.bit_of_pre_succ q2 _ _ hq2, Path.nth_msb_set, hb]
          simp [hlt]
    · -- next bit 1: the leaf is in the right child
      have hq1 : q.pre (255 - n + 1) = (q.pre (255 - n)).set_nth_msb (255 - n) true := by
        rw [Path.pre_succ_of_key q _ _ rfl, hb]
      rw [hq1] at ih2
      rw [ih2, if_neg (by simp)]
      congr 1
      apply refHash_empty hasher L n _ (by omega)
      · rw [hj]; exact Path.key_mono _ _ _ hkey (by omega)
      · intro q2 hq2
        rw [hj] at hq2
        apply h q2
        · rw [Path.pre_of_pre_succ q2 _ _ hq2, hkey]
        · apply Path.ne_of_bit_ne q2 q (255 - n)
          rw [← Path.bit_of_pre_succ q2 _ _ hq2, hkbit, hb]
          simp

theorem foldLeaf_eq (hasher : TreeHasher) (h32 : hasher.DigestSize = 32) (q : Path)
    (h : String) (c : Nat) :
    ∀ c0, c0 + c ≤ 256 →
      foldLeaf hasher (computeNullHashes hasher) q c (255 - c0) (foldPure hasher q h c0)
        = .ok (foldPure hasher q h (c0 + c)) := by
  induction c with
  | zero => intro c0 _; rfl
  | succ c ih =>
    intro c0 hc
    unfold foldLeaf
    rw [nullAt_compute hasher h32 _ (by omega)]
    simp only
    have e1 : 255 - (255 - c0) = c0 := by omega
    have e2 : 255 - c0 - 1 = 255 - (c0 + 1) := by omega
    have e3 : c0 + (c + 1) = c0 + 1 + c := by omega
    rw [e1, e2, e3, ← ih (c0 + 1) (by omega)]
    rfl

end SparseMerkleTree

namespace SparseMerkleTree

/-! ### Writes into the maps -/

theorem levelAt_some_lt (tree : List Level) (d : Nat) (k : IndexType) (node : TreeNode)
    (h : levelAt tree d k = some node) : d < tree.length := by
  by_contra hn
  rw [levelAt_of_le tree d (Nat.le_of_not_lt hn)] at h
  simp [Level.empty] at h

theorem Upd_modify (tree : List Level) (d : Nat) (k : IndexType) (f : TreeNode → TreeNode)
    (node : TreeNode) (h : levelAt tree d k = some node) :
    Upd tree (tree.set d ((levelAt tree d).modify k f)) d k (f node) := by
  have hlt := levelAt_some_lt tree d k node h
  refine ⟨by simp, ?_⟩
  intro e j
  rw [levelAt_set]
  by_cases hed : e = d
  · subst hed
    simp only [true_and, hlt, if_true, Level.modify]
    by_cases hj : j = k
    · subst hj; simp [h]
    · simp [hj]
  · have h1 : ¬ (e = d ∧ d < tree.length) := fun x => hed x.1
    have h2 : ¬ (e = d ∧ j = k) := fun x => hed x.1
    rw [if_neg h1, if_neg h2]

theorem Upd_emplace (tree : List Level) (d : Nat) (k : IndexType) (v : TreeNode)
    (hlt : d < tree.length) (h : levelAt tree d k = none) :
    ((levelAt tree d).emplace k v).2 = true ∧
      Upd tree (tree.set d ((levelAt tree d).emplace k v).1) d k v := by
  have he : (levelAt tree d).emplace k v
      = (fun j => if j = k then some v else levelAt tree d j, true) := by
    unfold Level.emplace
    rw [h]
  rw [he]
  refine ⟨rfl, by simp, ?_⟩
  intro e j
  rw [levelAt_set]
  by_cases hed : e = d
  · subst hed
    simp only [true_and, hlt, if_true]
  · have h1 : ¬ (e = d ∧ d < tree.length) := fun x => hed x.1
    have h2 : ¬ (e = d ∧ j = k) := fun x => hed x.1
    rw [if_neg h1, if_neg h2]

/-! ### Ancestors -/

theorem WF.ancestor {tree : List Level} (wf : WF tree) (n : Nat) :
    ∀ (e : Nat) (k : IndexType) (node : TreeNode), levelAt tree e k = some node →
      ∀ d, d + n = e → 0 < n →
      ∃ par, levelAt tree d (k.pre (d + 1)) = some par ∧ par.type_ = NodeType.INTERNAL := by
  induction n with
  | zero => intro e k node _ d _ h0; omega
  | succ n ih =>
    intro e k node hnode d hd _
    obtain ⟨e2, rfl⟩ : ∃ e2, e = e2 + 1 := ⟨d + n, by omega⟩
    obtain ⟨par, hpar, hint⟩ := wf.parent e2 k node hnode
    by_cases hn : n = 0
    · subst hn
      have : d = e2 := by omega
      subst this
      exact ⟨par, hpar, hint⟩
    · obtain ⟨par2, hpar2, hint2⟩ := ih e2 _ par hpar d (by omega) (by omega)
      rw [Path.pre_pre, Nat.min_eq_right (by omega)] at hpar2
      exact ⟨par2, hpar2, hint2⟩

theorem WF.present_above {tree : List Level} (wf : WF tree) (e : Nat) (k : IndexType)
    (node : TreeNode) (h : levelAt tree e k = some node) (d : Nat) (hd : d ≤ e) :
    ∃ par, levelAt tree d (k.pre (d + 1)) = some par ∧
      (d < e → par.type_ = NodeType.INTERNAL) := by
  by_cases hde : d = e
  · subst hde
    rw [wf.key d k node h]
    exact ⟨node, h, fun x => absurd x (Nat.lt_irrefl _)⟩
  · obtain ⟨par, h1, h2⟩ := wf.ancestor (e - d) e k node h d (by omega) (by omega)
    exact ⟨par, h1, fun _ => h2⟩

end SparseMerkleTree

namespace SparseMerkleTree

/-! ### Trees that differ in cached hashes only -/

theorem NodeSim.node_refl (x : TreeNode) : NodeSim x x := ⟨rfl, rfl, fun _ => rfl⟩

theorem NodeSim.node_symm {x y : TreeNode} (h : NodeSim x y) : NodeSim y x :=
  ⟨h.1.symm, h.2.1.symm, fun hl => (h.2.2 (h.1.trans hl)).symm⟩

theorem NodeSim.node_trans {x y z : TreeNode} (h : NodeSim x y) (g : NodeSim y z) : NodeSim x z :=
  ⟨h.1.trans g.1, h.2.1.trans g.2.1, fun hl => (h.2.2 hl).trans (g.2.2 (h.1.symm.trans hl))⟩

theorem SimO.opt_refl (x : Option TreeNode) : SimO x x := by
  cases x with
  | none => exact True.intro
  | some x => exact NodeSim.node_refl x

theorem SimO.opt_symm {x y : Option TreeNode} (h : SimO x y) : SimO y x := by
  cases x <;> cases y <;> simp only [SimO] at h ⊢
  exact NodeSim.node_symm h

theorem SimO.opt_trans {x y z : Option TreeNode} (h : SimO x y) (g : SimO y z) : SimO x z := by
  cases x <;> cases y <;> cases z <;> simp only [SimO] at h g ⊢
  exact NodeSim.node_trans h g

theorem SimO.of_some_right {x : Option TreeNode} {y : TreeNode} (h : SimO x (some y)) :
    ∃ x0, x = some x0 ∧ NodeSim x0 y := by
  cases x with
  | none => simp only [SimO] at h
  | some x0 => exact ⟨x0, rfl, h⟩

theorem SimO.of_some_left {x : TreeNode} {y : Option TreeNode} (h : SimO (some x) y) :
    ∃ y0, y = some y0 ∧ NodeSim x y0 := by
  cases y with
  | none => simp only [SimO] at h
  | some y0 => exact ⟨y0, rfl, h⟩

theorem SameSkel.skel_refl (a : List Level) : SameSkel a a := ⟨rfl, fun _ _ => SimO.opt_refl _⟩

theorem SameSkel.skel_symm {a b : List Level} (h : SameSkel a b) : SameSkel b a :=
  ⟨h.1.symm, fun e j => SimO.opt_symm (h.2 e j)⟩

theorem SameSkel.skel_trans {a b c : List Level} (h : SameSkel a b) (g : SameSkel b c) :
    SameSkel a c :=
  ⟨h.1.trans g.1, fun e j => SimO.opt_trans (h.2 e j) (g.2 e j)⟩

theorem SameSkel.get {a b : List Level} (h : SameSkel a b) {e : Nat} {j : IndexType}
    {y : TreeNode} (hy : levelAt b e j = some y) :
    ∃ x, levelAt a e j = some x ∧ NodeSim x y := by
  have := h.2 e j
  rw [hy] at this
  exact SimO.of_some_right this

theorem SameSkel.anc {a b : List Level} (h : SameSkel a b) {d : Nat} {k : IndexType}
    (ha : AncInternal a d k) : AncInternal b d k := by
  intro e he
  obtain ⟨par, hpar, hint⟩ := ha e he
  obtain ⟨y, hy, hsim⟩ := (SameSkel.skel_symm h).get hpar
  exact ⟨y, hy, hsim.1.trans hint⟩

theorem sim_get {a b : List Level} (h : ∀ e j, SimO (levelAt a e j) (levelAt b e j))
    {e : Nat} {j : IndexType} {y : TreeNode} (hy : levelAt b e j = some y) :
    ∃ x, levelAt a e j = some x ∧ NodeSim x y := by
  have := h e j
  rw [hy] at this
  exact SimO.of_some_right this

theorem sim_get_left {a b : List Level} (h : ∀ e j, SimO (levelAt a e j) (levelAt b e j))
    {e : Nat} {j : IndexType} {x : TreeNode} (hx : levelAt a e j = some x) :
    ∃ y, levelAt b e j = some y ∧ NodeSim x y := by
  have := h e j
  rw [hx] at this
  exact SimO.of_some_left this

theorem WF.wf_of_sim {a b : List Level} (wf : WF a)
    (h : ∀ e j, SimO (levelAt a e j) (levelAt b e j)) (hlen : b.length ≤ 256) : WF b := by
  constructor
  · exact hlen
  · intro d k node hn
    obtain ⟨x, hx, _⟩ := sim_get h hn
    exact wf.key d k x hx
  · intro d k node hn
    obtain ⟨x, hx, _⟩ := sim_get h hn
    obtain ⟨par, hpar, hint⟩ := wf.parent d k x hx
    obtain ⟨y, hy, hsim⟩ := sim_get_left h hpar
    exact ⟨y, hy, hsim.1.symm.trans hint⟩
  · intro d k node hn hl
    obtain ⟨x, hx, hsim⟩ := sim_get h hn
    obtain ⟨q, hq, hpre⟩ := wf.leaf d k x hx (hsim.1.trans hl)
    exact ⟨q, hsim.2.1 ▸ hq, hpre⟩
  · intro d k node hn hi
    obtain ⟨x, hx, hsim⟩ := sim_get h hn
    exact wf.internal d k x hx (hsim.1.trans hi)

theorem Sem.sem_of_sim {a b : List Level} {M : Path → Option String} (s : Sem a M)
    (h : ∀ e j, SimO (levelAt a e j) (levelAt b e j)) : Sem b M := by
  constructor
  · intro q hh
    rw [s.leaves q hh]
    constructor
    · rintro ⟨d, node, hn, hl, hhash, hp⟩
      obtain ⟨y, hy, hsim⟩ := sim_get_left h hn
      exact ⟨d, y, hy, hsim.1.symm.trans hl, (hsim.2.2 hl).symm.trans hhash,
        hsim.2.1.symm.trans hp⟩
    · rintro ⟨d, node, hn, hl, hhash, hp⟩
      obtain ⟨x, hx, hsim⟩ := sim_get h hn
      exact ⟨d, x, hx, hsim.1.trans hl, (hsim.2.2 (hsim.1.trans hl)).trans hhash,
        hsim.2.1.trans hp⟩
  · intro d k node hn
    obtain ⟨x, hx, _⟩ := sim_get h hn
    exact s.inhabited d k x hx

theorem WF.wf_of_sameSkel {a b : List Level} (wf : WF a) (h : SameSkel a b) : WF b :=
  wf.wf_of_sim h.2 (by rw [← h.1]; exact wf.len)

theorem Sem.sem_of_sameSkel {a b : List Level} {M : Path → Option String} (s : Sem a M)
    (h : SameSkel a b) : Sem b M :=
  s.sem_of_sim h.2

/-- Rewriting the hash of an INTERNAL node gives a similar node at every position. -/
theorem sim_of_upd {a b : List Level} {d : Nat} {k : IndexType} {node : TreeNode}
    {c : String} (hn : levelAt a d k = some node) (hi : node.type_ = NodeType.INTERNAL)
    (hu : ∀ e j, levelAt b e j
      = if e = d ∧ j = k then some { node with hash_ := c } else levelAt a e j) :
    ∀ e j, SimO (levelAt a e j) (levelAt b e j) := by
  intro e j
  rw [hu e j]
  by_cases h : e = d ∧ j = k
  · rw [if_pos h, h.1, h.2, hn]
    exact ⟨rfl, rfl, fun hl => by rw [hi] at hl; cases hl⟩
  · rw [if_neg h]
    exact SimO.opt_refl _

/-- Rewriting the hash of an INTERNAL node keeps the skeleton. -/
theorem SameSkel.of_upd {a b : List Level} {d : Nat} {k : IndexType} {node : TreeNode}
    {c : String} (hn : levelAt a d k = some node) (hi : node.type_ = NodeType.INTERNAL)
    (hu : Upd a b d k { node with hash_ := c }) : SameSkel a b :=
  ⟨hu.1.symm, sim_of_upd hn hi hu.2⟩

/-! ### Which leaves lie under a position -/

theorem leaf_below {tree : List Level} {M : Path → Option String} (sem : Sem tree M)
    {d : Nat} {k : IndexType} (anc : AncInternal tree d k) {q : Path} {h : String}
    (hM : M q = some h) (hq : q.pre (d + 1) = k) :
    ∃ e node, d ≤ e ∧ levelAt tree e (q.pre (e + 1)) = some node ∧
      node.type_ = NodeType.LEAF ∧ node.hash_ = h ∧ node.path_ = some q := by
  obtain ⟨e, node, hn, hl, hh, hp⟩ := (sem.leaves q h).1 hM
  refine ⟨e, node, ?_, hn, hl, hh, hp⟩
  by_contra hlt
  obtain ⟨par, hpar, hint⟩ := anc e (by omega)
  rw [← hq, Path.pre_pre, Nat.min_eq_right (by omega), hn] at hpar
  cases hpar
  rw [hl] at hint
  cases hint

theorem absent_below {tree : List Level} {M : Path → Option String} (wf : WF tree)
    (sem : Sem tree M) {d : Nat} {k : IndexType} (anc : AncInternal tree d k)
    (hnone : levelAt tree d k = none) (q : Path) (hq : q.pre (d + 1) = k) : M q = none := by
  cases hM : M q with
  | none => rfl
  | some h =>
    obtain ⟨e, node, hde, hn, _⟩ := leaf_below sem anc hM hq
    obtain ⟨par, hpar, _⟩ := wf.present_above e _ node hn d hde
    rw [Path.pre_pre, Nat.min_eq_right (by omega), hq, hnone] at hpar
    cases hpar

theorem only_leaf_below {tree : List Level} {M : Path → Option String} (wf : WF tree)
    (sem : Sem tree M) {d : Nat} {k : IndexType} (anc : AncInternal tree d k)
    {node : TreeNode} {q0 : Path} (hnode : levelAt tree d k = some node)
    (hl : node.type_ = NodeType.LEAF) (hp : node.path_ = some q0)
    (q : Path) (hq : q.pre (d + 1) = k) (hne : q ≠ q0) : M q = none := by
  cases hM : M q with
  | none => rfl
  | some h =>
    obtain ⟨e, node2, hde, hn, hl2, _, hp2⟩ := leaf_below sem anc hM hq
    obtain ⟨par, hpar, hint⟩ := wf.present_above e _ node2 hn d hde
    rw [Path.pre_pre, Nat.min_eq_right (by omega), hq, hnode] at hpar
    cases hpar
    by_cases hlt : d < e
    · have := hint hlt
      rw [hl] at this
      cases this
    · have hed : e = d := by omega
      subst hed
      rw [hq, hnode] at hn
      cases hn
      rw [hp] at hp2
      cases hp2
      exact absurd rfl hne

theorem leaf_in_map {tree : List Level} {M : Path → Option String} (wf : WF tree)
    (sem : Sem tree M) {d : Nat} {k : IndexType} {node : TreeNode} {q0 : Path}
    (hnode : levelAt tree d k = some node) (hl : node.type_ = NodeType.LEAF)
    (hp : node.path_ = some q0) : M q0 = some node.hash_ ∧ q0.pre (d + 1) = k := by
  obtain ⟨q, hq, hpre⟩ := wf.leaf d k node hnode hl
  rw [hp] at hq
  cases hq
  refine ⟨(sem.leaves q0 node.hash_).2 ⟨d, node, ?_, hl, rfl, hp⟩, hpre⟩
  rw [hpre]
  exact hnode

end SparseMerkleTree

namespace SparseMerkleTree

/-! ### What `CalculateSubtreeHash` returns -/

theorem AncInternal.child {tree : List Level} {d : Nat} {k : IndexType} {node : TreeNode}
    (anc : AncInternal tree d k) (hk : k.pre (d + 1) = k)
    (hnode : levelAt tree d k = some node) (hi : node.type_ = NodeType.INTERNAL) (v : Bool) :
    AncInternal tree (d + 1) (k.set_nth_msb (d + 1) v) := by
  intro e he
  have hpre : (k.set_nth_msb (d + 1) v).pre (e + 1) = k.pre (e + 1) := by
    have h1 : k.pre (d + 1 + 1) = k := Path.key_mono k _ _ hk (by omega)
    have h0 : k.pre (d + 1) = k := hk
    have h2 := Path.pre_set_same k (d + 1) v h0
    calc (k.set_nth_msb (d + 1) v).pre (e + 1)
        = ((k.set_nth_msb (d + 1) v).pre (d + 1)).pre (e + 1) := by
          rw [Path.pre_pre, Nat.min_eq_right (by omega)]
      _ = k.pre (e + 1) := by rw [h2]
  rw [hpre]
  by_cases hlt : e < d
  · exact anc e hlt
  · have : e = d := by omega
    subst this
    rw [hk]
    exact ⟨node, hnode, hi⟩

theorem CalculateSubtreeHash_spec (hasher : TreeHasher) (h32 : hasher.DigestSize = 32)
    (M : Path → Option String) (fuel : Nat) :
    ∀ (t : SparseMerkleTree) (d : Nat) (k : IndexType), Inv hasher t M →
      t.tree_.length + 1 ≤ fuel + d → 0 < fuel → d ≤ 255 → k.pre (d + 1) = k →
      AncInternal t.tree_ d k →
      ∃ t2, CalculateSubtreeHash hasher fuel t d k
            = .ok (refHash hasher (leafOf hasher M) (255 - d) k, t2) ∧
        Inv hasher t2 M ∧ SameSkel t.tree_ t2.tree_ ∧ t2.root_hash_ = t.root_hash_ := by
  induction fuel with
  | zero => intro t d k _ _ h0; omega
  | succ fuel ih =>
    intro t d k inv hfuel _ hd hk anc
    have hnullAt : nullAt t.null_hashes_ d = .ok (nullChain hasher (255 - d)) := by
      rw [inv.nulls]; exact nullAt_compute hasher h32 d hd
    have hn256 : 256 - (255 - d) = d + 1 := by omega
    -- the value for an absent node
    have habsent : levelAt t.tree_ d k = none →
        refHash hasher (leafOf hasher M) (255 - d) k = nullChain hasher (255 - d) := by
      intro hnone
      apply refHash_empty hasher _ _ _ (by omega) (by rw [hn256]; exact hk)
      intro q hq
      rw [hn256] at hq
      unfold leafOf
      rw [absent_below inv.wf inv.sem anc hnone q hq]
      rfl
    unfold CalculateSubtreeHash
    by_cases hlen : t.tree_.length ≤ d
    · rw [if_pos hlen, hnullAt]
      refine ⟨t, ?_, inv, SameSkel.skel_refl _, rfl⟩
      rw [habsent (by rw [levelAt_of_le _ _ hlen]; rfl)]
    · rw [if_neg hlen]
      cases hnode : levelAt t.tree_ d k with
      | none =>
        simp only [hnullAt]
        refine ⟨t, ?_, inv, SameSkel.skel_refl _, rfl⟩
        rw [habsent hnode]
      | some node =>
        simp only
        cases htype : node.type_ with
        | INTERNAL =>
          simp only
          by_cases hcache : node.hash_ ≠ ""
          · rw [if_pos hcache]
            refine ⟨t, ?_, inv, SameSkel.skel_refl _, rfl⟩
            rw [inv.cache d k node hnode htype hcache]
          · rw [if_neg hcache]
            have hd2 : d < 255 := inv.wf.internal d k node hnode htype
            have hkl : k.pre (d + 1 + 1) = k := Path.key_mono k _ _ hk (by omega)
            have ancl : AncInternal t.tree_ (d + 1) k := by
              have := anc.child hk hnode htype false
              rwa [Path.set_of_bit k (d + 1) (Path.key_bit k (d + 1) (d + 1) hk (Nat.le_refl _))]
                at this
            obtain ⟨t1, e1, inv1, skel1, root1⟩ :=
              ih t (d + 1) k inv (by omega) (by omega) (by omega) hkl ancl
            have hkr : (k.set_nth_msb (d + 1) true).pre (d + 1 + 1)
                = k.set_nth_msb (d + 1) true := Path.key_set k _ _ hk
            have ancr : AncInternal t1.tree_ (d + 1) (k.set_nth_msb (d + 1) true) :=
              skel1.anc (anc.child hk hnode htype true)
            obtain ⟨t2, e2, inv2, skel2, root2⟩ :=
              ih t1 (d + 1) (k.set_nth_msb (d + 1) true) inv1
                (by rw [← skel1.1]; omega) (by omega) (by omega) hkr ancr
            rw [e1]
            simp only
            rw [e2]
            simp only
            have hval : hasher.HashChildren (refHash hasher (leafOf hasher M) (255 - (d + 1)) k)
                (refHash hasher (leafOf hasher M) (255 - (d + 1)) (k.set_nth_msb (d + 1) true))
                = refHash hasher (leafOf hasher M) (255 - d) k := by
              have e : 255 - d = (255 - (d + 1)) + 1 := by omega
              have e3 : 255 - (255 - (d + 1)) = d + 1 := by omega
              rw [e]
              conv => rhs; unfold refHash
              rw [e3]
            rw [hval]
            obtain ⟨node2, hnode2, hsim⟩ := (SameSkel.skel_symm (skel1.skel_trans skel2)).get hnode
            have hint2 : node2.type_ = NodeType.INTERNAL := hsim.1.trans htype
            have hupd := Upd_modify t2.tree_ d k
              (fun x => { x with hash_ := refHash hasher (leafOf hasher M) (255 - d) k })
              node2 hnode2
            have skel3 := SameSkel.of_upd hnode2 hint2 hupd
            refine ⟨_, rfl, ?_, (skel1.skel_trans skel2).skel_trans skel3, ?_⟩
            · constructor
              · exact inv2.nulls
              · exact inv2.wf.wf_of_sameSkel skel3
              · exact inv2.sem.sem_of_sameSkel skel3
              · intro e j x hx hxi hxh
                simp only at hx
                rw [hupd.2 e j] at hx
                by_cases hpos : e = d ∧ j = k
                · rw [if_pos hpos] at hx
                  cases hx
                  rw [hpos.1, hpos.2]
                · rw [if_neg hpos] at hx
                  exact inv2.cache e j x hx hxi hxh
              · exact inv2.root
            · simp only
              rw [root2, root1]
        | LEAF =>
          simp only
          obtain ⟨q, hq, hqk⟩ := inv.wf.leaf d k node hnode htype
          rw [hq]
          simp only
          have hfold := foldLeaf_eq hasher h32 q node.hash_ (255 - d) 0 (by omega)
          have e0 : kDigestSizeBits - 1 - d = 255 - d := rfl
          have e1 : kDigestSizeBits - 1 = 255 - 0 := rfl
          rw [e0, e1, inv.nulls]
          have hf0 : foldPure hasher q node.hash_ 0 = node.hash_ := rfl
          rw [hf0] at hfold
          rw [hfold]
          simp only
          refine ⟨t, ?_, inv, SameSkel.skel_refl _, rfl⟩
          have hsingle := refHash_single hasher (leafOf hasher M) q (255 - d) (by omega)
            (by
              intro q2 hq2 hne
              rw [hn256, hqk] at hq2
              unfold leafOf
              rw [only_leaf_below inv.wf inv.sem anc hnode htype hq q2 hq2 hne]
              rfl)
          rw [hn256, hqk] at hsingle
          rw [hsingle]
          have hleaf : leafOf hasher M q = node.hash_ := by
            unfold leafOf
            rw [(leaf_in_map inv.wf inv.sem hnode htype hq).1]
            rfl
          rw [hleaf, Nat.zero_add]

end SparseMerkleTree

namespace SparseMerkleTree

/-! ### One iteration of the loop of `SetLeaf` -/

theorem path_leaf_pos {tree : List Level} {p : Path} {depth d : Nat} {x : TreeNode}
    (walked : AncInternal tree depth p) (hx : levelAt tree d (p.pre (d + 1)) = some x)
    (hl : x.type_ = NodeType.LEAF) : depth ≤ d := by
  by_contra hlt
  obtain ⟨par, hpar, hint⟩ := walked d (by omega)
  rw [hx] at hpar
  cases hpar
  rw [hl] at hint
  cases hint

theorem path_node_anc {tree : List Level} (wf : WF tree) {p : Path} (depth d : Nat)
    {x : TreeNode} (hx : levelAt tree d (p.pre (d + 1)) = some x) (hlt : depth < d) :
    ∃ par, levelAt tree depth (p.pre (depth + 1)) = some par ∧
      par.type_ = NodeType.INTERNAL := by
  obtain ⟨par, hpar, hint⟩ := wf.ancestor (d - depth) d _ x hx depth (by omega) (by omega)
  rw [Path.pre_pre, Nat.min_eq_right (by omega)] at hpar
  exact ⟨par, hpar, hint⟩

/-- The loop index after its bit for `depth` has been written is the key of the path. -/
theorem LoopInv.index_eq {hasher : TreeHasher} {M : Path → Option String} {p : Path}
    {depth : Nat} {idx : IndexType} {tree : List Level}
    (inv : LoopInv hasher M p depth idx tree) :
    idx.set_nth_msb depth (p.nth_msb depth) = p.pre (depth + 1) := by
  apply Path.ext_bits
  intro n hn
  rw [Path.nth_msb_set, Path.nth_msb_pre]
  by_cases h1 : n = depth
  · subst h1
    simp [hn]
  · have h2 : ¬ (n = depth ∧ depth < 256) := fun x => h1 x.1
    rw [if_neg h2]
    by_cases h3 : n < depth
    · rw [inv.idx_lo n h3]
      have : n < depth + 1 := by omega
      simp [this]
    · rw [inv.idx_hi n (by omega)]
      have : ¬ n < depth + 1 := by omega
      simp [this]

theorem refHash_update_off_path (hasher : TreeHasher) (M : Path → Option String) (p : Path)
    (h : String) (d : Nat) (j : IndexType) (hd : d ≤ 255) (hj : j.pre (d + 1) = j)
    (hoff : p.pre (d + 1) ≠ j) :
    refHash hasher (leafOf hasher (Function.update M p (some h))) (255 - d) j
      = refHash hasher (leafOf hasher M) (255 - d) j := by
  have hn256 : 256 - (255 - d) = d + 1 := by omega
  apply refHash_local hasher _ _ _ _ (by omega) (by rw [hn256]; exact hj)
  intro q hq
  rw [hn256] at hq
  have hne : q ≠ p := fun e => hoff (by rw [← e]; exact hq)
  unfold leafOf
  rw [Function.update_noteq hne]

theorem step_insert {hasher : TreeHasher} {M : Path → Option String} {p : Path} {depth : Nat}
    {idx : IndexType} {tree tree2 : List Level} (h : String)
    (inv : LoopInv hasher M p depth idx tree)
    (hnone : levelAt tree depth (p.pre (depth + 1)) = none) (hlen : tree2.length ≤ 256)
    (hU : ∀ e j, levelAt tree2 e j
      = if e = depth ∧ j = p.pre (depth + 1) then some (TreeNode.leaf p h)
        else levelAt tree e j) :
    Done hasher (Function.update M p (some h)) tree2 := by
  have hMp : M p = none := by
    apply absent_below inv.wf inv.sem (d := depth) (k := p.pre (depth + 1)) _ hnone p rfl
    intro e he
    rw [Path.pre_pre, Nat.min_eq_right (by omega)]
    exact inv.walked e he
  constructor
  · -- well-formedness
    constructor
    · exact hlen
    · intro d k node hn
      rw [hU] at hn
      by_cases hpos : d = depth ∧ k = p.pre (depth + 1)
      · rw [hpos.1, hpos.2, Path.pre_idem]
      · rw [if_neg hpos] at hn
        exact inv.wf.key d k node hn
    · intro d k node hn
      rw [hU] at hn
      by_cases hpos : d + 1 = depth ∧ k = p.pre (depth + 1)
      · obtain ⟨par, hpar, hint⟩ := inv.walked d (by omega)
        refine ⟨par, ?_, hint⟩
        rw [hU, if_neg (by omega), hpos.2, Path.pre_pre, Nat.min_eq_right (by omega)]
        exact hpar
      · rw [if_neg hpos] at hn
        obtain ⟨par, hpar, hint⟩ := inv.wf.parent d k node hn
        refine ⟨par, ?_, hint⟩
        rw [hU]
        by_cases hpos2 : d = depth ∧ k.pre (d + 1) = p.pre (depth + 1)
        · rw [hpos2.1] at hpar
          rw [hpos2.1] at hpos2
          rw [hpos2.2, hnone] at hpar
          cases hpar
        · rw [if_neg hpos2]
          exact hpar
    · intro d k node hn hl
      rw [hU] at hn
      by_cases hpos : d = depth ∧ k = p.pre (depth + 1)
      · rw [if_pos hpos] at hn
        cases hn
        exact ⟨p, rfl, by rw [hpos.1, hpos.2]⟩
      · rw [if_neg hpos] at hn
        exact inv.wf.leaf d k node hn hl
    · intro d k node hn hi
      rw [hU] at hn
      by_cases hpos : d = depth ∧ k = p.pre (depth + 1)
      · rw [if_pos hpos] at hn
        cases hn
        cases hi
      · rw [if_neg hpos] at hn
        exact inv.wf.internal d k node hn hi
  · -- the represented map
    constructor
    · intro q hh
      by_cases hqp : q = p
      · subst hqp
        rw [Function.update_same]
        constructor
        · intro e
          cases e
          refine ⟨depth, TreeNode.leaf q h, ?_, rfl, rfl, rfl⟩
          rw [hU, if_pos ⟨rfl, rfl⟩]
        · rintro ⟨d, node, hn, hl, hhash, hp⟩
          rw [hU] at hn
          by_cases hpos : d = depth ∧ q.pre (d + 1) = q.pre (depth + 1)
          · rw [if_pos hpos] at hn
            cases hn
            rw [← hhash]
            rfl
          · rw [if_neg hpos] at hn
            have := (inv.sem.leaves q hh).2 ⟨d, node, hn, hl, hhash, hp⟩
            rw [hMp] at this
            cases this
      · rw [Function.update_noteq hqp]
        rw [inv.sem.leaves q hh]
        constructor
        · rintro ⟨d, node, hn, hl, hhash, hp⟩
          refine ⟨d, node, ?_, hl, hhash, hp⟩
          rw [hU]
          by_cases hpos : d = depth ∧ q.pre (d + 1) = p.pre (depth + 1)
          · rw [hpos.1] at hn
            rw [hpos.1] at hpos
            rw [hpos.2, hnone] at hn
            cases hn
          · rw [if_neg hpos]
            exact hn
        · rintro ⟨d, node, hn, hl, hhash, hp⟩
          rw [hU] at hn
          by_cases hpos : d = depth ∧ q.pre (d + 1) = p.pre (depth + 1)
          · rw [if_pos hpos] at hn
            cases hn
            cases hp
            exact absurd rfl hqp
          · rw [if_neg hpos] at hn
            exact ⟨d, node, hn, hl, hhash, hp⟩
    · intro d k node hn
      rw [hU] at hn
      by_cases hpos : d = depth ∧ k = p.pre (depth + 1)
      · exact ⟨p, h, Function.update_same _ _ _, by rw [hpos.1, hpos.2]⟩
      · rw [if_neg hpos] at hn
        obtain ⟨q, h0, hq, hpre⟩ := inv.sem.inhabited d k node hn
        by_cases hqp : q = p
        · exact ⟨p, h, Function.update_same _ _ _, by rw [← hqp]; exact hpre⟩
        · exact ⟨q, h0, by rw [Function.update_noteq hqp]; exact hq, hpre⟩
  · -- cached hashes
    intro d k node hn hi hne
    rw [hU] at hn
    by_cases hpos : d = depth ∧ k = p.pre (depth + 1)
    · rw [if_pos hpos] at hn
      cases hn
      cases hi
    · rw [if_neg hpos] at hn
      obtain ⟨hval, hpath⟩ := inv.cache d k node hn hi hne
      rw [hval]
      symm
      apply refHash_update_off_path hasher M p h d k
        (Nat.le_of_lt (inv.wf.internal d k node hn hi)) (inv.wf.key d k node hn)
      intro hk
      have hdd := hpath hk.symm
      obtain ⟨par, hpar, _⟩ := inv.wf.present_above d k node hn depth hdd
      rw [← hk, Path.pre_pre, Nat.min_eq_right (by omega), hnone] at hpar
      cases hpar

end SparseMerkleTree

namespace SparseMerkleTree

theorem WF.of_shape {a b : List Level} (wf : WF a) (hlen : b.length ≤ 256)
    (hback : ∀ e j y, levelAt b e j = some y →
      ∃ x, levelAt a e j = some x ∧ x.type_ = y.type_ ∧ x.path_ = y.path_)
    (hfwd : ∀ e j x, levelAt a e j = some x →
      ∃ y, levelAt b e j = some y ∧ y.type_ = x.type_) : WF b := by
  constructor
  · exact hlen
  · intro d k node hn
    obtain ⟨x, hx, _⟩ := hback d k node hn
    exact wf.key d k x hx
  · intro d k node hn
    obtain ⟨x, hx, _⟩ := hback (d + 1) k node hn
    obtain ⟨par, hpar, hint⟩ := wf.parent d k x hx
    obtain ⟨y, hy, hty⟩ := hfwd d _ par hpar
    exact ⟨y, hy, hty.trans hint⟩
  · intro d k node hn hl
    obtain ⟨x, hx, hty, hpa⟩ := hback d k node hn
    obtain ⟨q, hq, hpre⟩ := wf.leaf d k x hx (hty.trans hl)
    exact ⟨q, hpa ▸ hq, hpre⟩
  · intro d k node hn hi
    obtain ⟨x, hx, hty, _⟩ := hback d k node hn
    exact wf.internal d k x hx (hty.trans hi)

theorem step_replace {hasher : TreeHasher} {M : Path → Option String} {p : Path}
    {depth : Nat} {idx : IndexType} {tree tree2 : List Level} {node : TreeNode} (h : String)
    (inv : LoopInv hasher M p depth idx tree)
    (hnode : levelAt tree depth (p.pre (depth + 1)) = some node)
    (hl : node.type_ = NodeType.LEAF) (hp : node.path_ = some p)
    (hlen : tree2.length ≤ 256)
    (hU : ∀ e j, levelAt tree2 e j
      = if e = depth ∧ j = p.pre (depth + 1) then some { node with hash_ := h }
        else levelAt tree e j) :
    Done hasher (Function.update M p (some h)) tree2 := by
  -- no other position of the path holds a leaf
  have hnoleaf : ∀ d x, levelAt tree d (p.pre (d + 1)) = some x → d ≠ depth →
      x.type_ ≠ NodeType.LEAF := by
    intro d x hx hne hxl
    have h1 := path_leaf_pos inv.walked hx hxl
    obtain ⟨par, hpar, hint⟩ := path_node_anc inv.wf depth d hx (by omega)
    rw [hnode] at hpar
    cases hpar
    rw [hl] at hint
    cases hint
  constructor
  · apply inv.wf.of_shape hlen
    · intro e j y hy
      rw [hU] at hy
      by_cases hpos : e = depth ∧ j = p.pre (depth + 1)
      · rw [if_pos hpos] at hy
        cases hy
        rw [hpos.1, hpos.2]
        exact ⟨node, hnode, rfl, rfl⟩
      · rw [if_neg hpos] at hy
        exact ⟨y, hy, rfl, rfl⟩
    · intro e j x hx
      rw [hU]
      by_cases hpos : e = depth ∧ j = p.pre (depth + 1)
      · rw [if_pos hpos]
        rw [hpos.1, hpos.2, hnode] at hx
        cases hx
        exact ⟨_, rfl, rfl⟩
      · rw [if_neg hpos]
        exact ⟨x, hx, rfl⟩
  · constructor
    · intro q hh
      by_cases hqp : q = p
      · subst hqp
        rw [Function.update_same]
        constructor
        · intro e
          cases e
          refine ⟨depth, { node with hash_ := h }, ?_, hl, rfl, hp⟩
          rw [hU, if_pos ⟨rfl, rfl⟩]
        · rintro ⟨d, node2, hn, hl2, hhash, hp2⟩
          rw [hU] at hn
          by_cases hpos : d = depth ∧ q.pre (d + 1) = q.pre (depth + 1)
          · rw [if_pos hpos] at hn
            cases hn
            rw [← hhash]
          · rw [if_neg hpos] at hn
            have hne : d ≠ depth := fun e => hpos ⟨e, by rw [e]⟩
            exact absurd hl2 (hnoleaf d node2 hn hne)
      · rw [Function.update_noteq hqp]
        rw [inv.sem.leaves q hh]
        constructor
        · rintro ⟨d, node2, hn, hl2, hhash, hp2⟩
          refine ⟨d, node2, ?_, hl2, hhash, hp2⟩
          rw [hU]
          by_cases hpos : d = depth ∧ q.pre (d + 1) = p.pre (depth + 1)
          · rw [hpos.1] at hn
            rw [hpos.1] at hpos
            rw [hpos.2, hnode] at hn
            cases hn
            rw [hp] at hp2
            cases hp2
            exact absurd rfl hqp
          · rw [if_neg hpos]
            exact hn
        · rintro ⟨d, node2, hn, hl2, hhash, hp2⟩
          rw [hU] at hn
          by_cases hpos : d = depth ∧ q.pre (d + 1) = p.pre (depth + 1)
          · rw [if_pos hpos] at hn
            cases hn
            simp only at hp2
            rw [hp] at hp2
            cases hp2
            exact absurd rfl hqp
          · rw [if_neg hpos] at hn
            exact ⟨d, node2, hn, hl2, hhash, hp2⟩
    · intro d k node2 hn
      rw [hU] at hn
      by_cases hpos : d = depth ∧ k = p.pre (depth + 1)
      · exact ⟨p, h, Function.update_same _ _ _, by rw [hpos.1, hpos.2]⟩
      · rw [if_neg hpos] at hn
        obtain ⟨q, h0, hq, hpre⟩ := inv.sem.inhabited d k node2 hn
        by_cases hqp : q = p
        · exact ⟨p, h, Function.update_same _ _ _, by rw [← hqp]; exact hpre⟩
        · exact ⟨q, h0, by rw [Function.update_noteq hqp]; exact hq, hpre⟩
  · intro d k node2 hn hi hne
    rw [hU] at hn
    by_cases hpos : d = depth ∧ k = p.pre (depth + 1)
    · rw [if_pos hpos] at hn
      cases hn
      simp only at hi
      rw [hl] at hi
      cases hi
    · rw [if_neg hpos] at hn
      obtain ⟨hval, hpath⟩ := inv.cache d k node2 hn hi hne
      rw [hval]
      symm
      apply refHash_update_off_path hasher M p h d k
        (Nat.le_of_lt (inv.wf.internal d k node2 hn hi)) (inv.wf.key d k node2 hn)
      intro hk
      have hdd := hpath hk.symm
      have hne2 : d ≠ depth := fun e => hpos ⟨e, by rw [← hk, e]⟩
      rw [← hk] at hn
      obtain ⟨par, hpar, hint⟩ := path_node_anc inv.wf depth d hn (by omega)
      rw [hnode] at hpar
      cases hpar
      rw [hl] at hint
      cases hint

theorem step_clear {hasher : TreeHasher} {M : Path → Option String} {p : Path}
    {depth : Nat} {idx : IndexType} {tree tree2 : List Level} {node : TreeNode}
    (inv : LoopInv hasher M p depth idx tree)
    (hnode : levelAt tree depth (p.pre (depth + 1)) = some node)
    (hi : node.type_ = NodeType.INTERNAL) (hlen : tree2.length ≤ 256)
    (hU : ∀ e j, levelAt tree2 e j
      = if e = depth ∧ j = p.pre (depth + 1) then some { node with hash_ := "" }
        else levelAt tree e j) :
    LoopInv hasher M p (depth + 1) (p.pre (depth + 1)) tree2 := by
  have hsim := sim_of_upd hnode hi hU
  constructor
  · exact inv.wf.wf_of_sim hsim hlen
  · exact inv.sem.sem_of_sim hsim
  · intro d k x hx hxi hxh
    rw [hU] at hx
    by_cases hpos : d = depth ∧ k = p.pre (depth + 1)
    · rw [if_pos hpos] at hx
      cases hx
      exact absurd rfl hxh
    · rw [if_neg hpos] at hx
      obtain ⟨hval, hpath⟩ := inv.cache d k x hx hxi hxh
      refine ⟨hval, fun hk => ?_⟩
      have := hpath hk
      have hne : d ≠ depth := fun e => hpos ⟨e, by rw [hk, e]⟩
      omega
  · intro e he
    by_cases hlt : e < depth
    · obtain ⟨par, hpar, hint⟩ := inv.walked e hlt
      refine ⟨par, ?_, hint⟩
      rw [hU, if_neg (by omega)]
      exact hpar
    · have : e = depth := by omega
      subst this
      exact ⟨{ node with hash_ := "" }, by rw [hU, if_pos ⟨rfl, rfl⟩], hi⟩
  · intro i hi2
    rw [Path.nth_msb_pre]
    simp [hi2]
  · intro i hi2
    rw [Path.nth_msb_pre]
    have : ¬ i < depth + 1 := by omega
    simp [this]

end SparseMerkleTree

namespace SparseMerkleTree

/-- The slot into which a colliding leaf is pushed is free. -/
theorem push_target_free {tree : List Level} (wf : WF tree) {depth : Nat} {k : IndexType}
    {node : TreeNode} (hnode : levelAt tree depth k = some node)
    (hl : node.type_ = NodeType.LEAF) (v : Bool) :
    levelAt tree (depth + 1) (k.set_nth_msb (depth + 1) v) = none := by
  cases hx : levelAt tree (depth + 1) (k.set_nth_msb (depth + 1) v) with
  | none => rfl
  | some x =>
    obtain ⟨par, hpar, hint⟩ := wf.parent depth _ x hx
    rw [Path.pre_set_same k (depth + 1) v (wf.key depth k node hnode), hnode] at hpar
    cases hpar
    rw [hl] at hint
    cases hint

theorem step_push {hasher : TreeHasher} {M : Path → Option String} {p q : Path}
    {depth : Nat} {idx : IndexType} {tree tree2 : List Level} {node : TreeNode}
    (inv : LoopInv hasher M p depth idx tree)
    (hnode : levelAt tree depth (p.pre (depth + 1)) = some node)
    (hl : node.type_ = NodeType.LEAF) (hq : node.path_ = some q) (hd : depth < 255)
    (hlen : tree2.length ≤ 256)
    (hU : ∀ e j, levelAt tree2 e j
      = if e = depth ∧ j = p.pre (depth + 1) then some ⟨NodeType.INTERNAL, "", none⟩
        else if e = depth + 1 ∧
            j = (p.pre (depth + 1)).set_nth_msb (depth + 1) (q.nth_msb (depth + 1))
          then some node
        else levelAt tree e j) :
    LoopInv hasher M p (depth + 1)
      ((p.pre (depth + 1)).set_nth_msb (depth + 1) (q.nth_msb (depth + 1))) tree2 := by
  have hkk : (p.pre (depth + 1)).pre (depth + 1) = p.pre (depth + 1) := Path.pre_idem _ _
  obtain ⟨hMq, hqk⟩ := leaf_in_map inv.wf inv.sem hnode hl hq
  have hk2 : q.pre (depth + 1 + 1)
      = (p.pre (depth + 1)).set_nth_msb (depth + 1) (q.nth_msb (depth + 1)) :=
    Path.pre_succ_of_key q _ _ hqk
  have hfree := push_target_free inv.wf hnode hl (q.nth_msb (depth + 1))
  generalize hk2def :
    (p.pre (depth + 1)).set_nth_msb (depth + 1) (q.nth_msb (depth + 1)) = k2 at hU hk2 hfree ⊢
  have hk2pre : k2.pre (depth + 1) = p.pre (depth + 1) := by
    rw [← hk2def]; exact Path.pre_set_same _ _ _ hkk
  have hk2key : k2.pre (depth + 1 + 1) = k2 := by
    rw [← hk2def]; exact Path.key_set _ _ _ hkk
  -- a node of the new tree away from the pushed leaf was there before
  have hold : ∀ e j x, levelAt tree2 e j = some x → ¬ (e = depth + 1 ∧ j = k2) →
      ∃ y, levelAt tree e j = some y ∧
        (¬ (e = depth ∧ j = p.pre (depth + 1)) → y = x) := by
    intro e j x hx hn2
    rw [hU] at hx
    by_cases hpos : e = depth ∧ j = p.pre (depth + 1)
    · rw [hpos.1, hpos.2]
      exact ⟨node, hnode, fun h => absurd ⟨rfl, rfl⟩ h⟩
    · rw [if_neg hpos, if_neg hn2] at hx
      exact ⟨x, hx, fun _ => rfl⟩
  constructor
  · constructor
    · exact hlen
    · intro d k x hx
      by_cases hpos2 : d = depth + 1 ∧ k = k2
      · rw [hpos2.1, hpos2.2]
        exact hk2key
      · obtain ⟨y, hy, _⟩ := hold d k x hx hpos2
        exact inv.wf.key d k y hy
    · intro d k x hx
      by_cases hpos2 : d + 1 = depth + 1 ∧ k = k2
      · have hdd : d = depth := by omega
        refine ⟨⟨NodeType.INTERNAL, "", none⟩, ?_, rfl⟩
        rw [hU, hpos2.2, hdd, hk2pre, if_pos ⟨rfl, rfl⟩]
      · obtain ⟨y, hy, _⟩ := hold (d + 1) k x hx hpos2
        obtain ⟨par, hpar, hint⟩ := inv.wf.parent d k y hy
        rw [hU]
        by_cases hpos : d = depth ∧ k.pre (d + 1) = p.pre (depth + 1)
        · rw [if_pos hpos]
          exact ⟨_, rfl, rfl⟩
        · rw [if_neg hpos]
          by_cases hpos3 : d = depth + 1 ∧ k.pre (d + 1) = k2
          · rw [hpos3.1] at hpar
            rw [hpos3.1] at hpos3
            rw [hpos3.2, hfree] at hpar
            cases hpar
          · rw [if_neg hpos3]
            exact ⟨par, hpar, hint⟩
    · intro d k x hx hxl
      by_cases hpos2 : d = depth + 1 ∧ k = k2
      · have hx2 := hx
        rw [hU, if_neg (by omega), if_pos hpos2] at hx2
        cases hx2
        refine ⟨q, hq, ?_⟩
        rw [hpos2.1, hpos2.2]
        exact hk2
      · obtain ⟨y, hy, hyx⟩ := hold d k x hx hpos2
        by_cases hpos : d = depth ∧ k = p.pre (depth + 1)
        · rw [hU, if_pos hpos] at hx
          cases hx
          cases hxl
        · rw [hyx hpos] at hy
          exact inv.wf.leaf d k x hy hxl
    · intro d k x hx hxi
      by_cases hpos2 : d = depth + 1 ∧ k = k2
      · have hx2 := hx
        rw [hU, if_neg (by omega), if_pos hpos2] at hx2
        cases hx2
        rw [hl] at hxi
        cases hxi
      · by_cases hpos : d = depth ∧ k = p.pre (depth + 1)
        · omega
        · obtain ⟨y, hy, hyx⟩ := hold d k x hx hpos2
          rw [hyx hpos] at hy
          exact inv.wf.internal d k x hy hxi
  · constructor
    · intro q2 hh
      rw [inv.sem.leaves q2 hh]
      constructor
      · rintro ⟨d, x, hx, hxl, hhash, hp⟩
        by_cases hpos : d = depth ∧ q2.pre (d + 1) = p.pre (depth + 1)
        · rw [hpos.1] at hx
          rw [hpos.1] at hpos
          rw [hpos.2, hnode] at hx
          cases hx
          rw [hq] at hp
          cases hp
          refine ⟨depth + 1, node, ?_, hxl, hhash, hq⟩
          rw [hU, if_neg (by omega), hk2, if_pos ⟨rfl, rfl⟩]
        · refine ⟨d, x, ?_, hxl, hhash, hp⟩
          rw [hU, if_neg hpos]
          by_cases hpos2 : d = depth + 1 ∧ q2.pre (d + 1) = k2
          · rw [hpos2.1] at hx
            rw [hpos2.1] at hpos2
            rw [hpos2.2, hfree] at hx
            cases hx
          · rw [if_neg hpos2]
            exact hx
      · rintro ⟨d, x, hx, hxl, hhash, hp⟩
        rw [hU] at hx
        by_cases hpos : d = depth ∧ q2.pre (d + 1) = p.pre (depth + 1)
        · rw [if_pos hpos] at hx
          cases hx
          cases hxl
        · rw [if_neg hpos] at hx
          by_cases hpos2 : d = depth + 1 ∧ q2.pre (d + 1) = k2
          · rw [if_pos hpos2] at hx
            cases hx
            rw [hq] at hp
            cases hp
            exact ⟨depth, node, by rw [hqk]; exact hnode, hxl, hhash, hq⟩
          · rw [if_neg hpos2] at hx
            exact ⟨d, x, hx, hxl, hhash, hp⟩
    · intro d k x hx
      by_cases hpos2 : d = depth + 1 ∧ k = k2
      · exact ⟨q, node.hash_, hMq, by rw [hpos2.1, hpos2.2]; exact hk2⟩
      · obtain ⟨y, hy, _⟩ := hold d k x hx hpos2
        exact inv.sem.inhabited d k y hy
  · intro d k x hx hxi hxh
    rw [hU] at hx
    by_cases hpos : d = depth ∧ k = p.pre (depth + 1)
    · rw [if_pos hpos] at hx
      cases hx
      exact absurd rfl hxh
    · rw [if_neg hpos] at hx
      by_cases hpos2 : d = depth + 1 ∧ k = k2
      · rw [if_pos hpos2] at hx
        cases hx
        rw [hl] at hxi
        cases hxi
      · rw [if_neg hpos2] at hx
        obtain ⟨hval, hpath⟩ := inv.cache d k x hx hxi hxh
        refine ⟨hval, fun hk => ?_⟩
        have := hpath hk
        have hne : d ≠ depth := fun e => hpos ⟨e, by rw [hk, e]⟩
        omega
  · intro e he
    by_cases hlt : e < depth
    · obtain ⟨par, hpar, hint⟩ := inv.walked e hlt
      refine ⟨par, ?_, hint⟩
      rw [hU, if_neg (by omega), if_neg (by omega)]
      exact hpar
    · have : e = depth := by omega
      subst this
      exact ⟨⟨NodeType.INTERNAL, "", none⟩, by rw [hU, if_pos ⟨rfl, rfl⟩], rfl⟩
  · intro i hi2
    rw [← hk2def, Path.nth_msb_set, if_neg (by omega), Path.nth_msb_pre]
    simp [hi2]
  · intro i hi2
    rw [← hk2def, Path.nth_msb_set, if_neg (by omega), Path.nth_msb_pre]
    have : ¬ i < depth + 1 := by omega
    simp [this]

end SparseMerkleTree

namespace SparseMerkleTree

/-! ### The loop of `SetLeaf` -/

theorem SetLeafLoop_spec (hasher : TreeHasher) (M : Path → Option String) (p : Path)
    (h : String) (n : Nat) :
    ∀ (depth : Nat) (idx : IndexType) (tree : List Level), n + depth = 256 →
      LoopInv hasher M p depth idx tree →
      ∃ tree2, SetLeafLoop p h n depth idx tree = .ok tree2 ∧
        Done hasher (Function.update M p (some h)) tree2 := by
  induction n with
  | zero =>
    intro depth idx tree hn inv
    obtain ⟨par, hpar, hint⟩ := inv.walked 255 (by omega)
    have := inv.wf.internal 255 _ par hpar hint
    omega
  | succ n ih =>
    intro depth idx tree hn inv
    have hd : depth ≤ 255 := by omega
    unfold SetLeafLoop
    simp only [inv.index_eq]
    have hlen1 : (EnsureHaveLevel tree depth).length ≤ 256 := by
      rw [length_ensure]; have := inv.wf.len; omega
    have hlt1 : depth < (EnsureHaveLevel tree depth).length := by
      rw [length_ensure]; omega
    have hlook1 : levelAt (EnsureHaveLevel tree depth) depth (p.pre (depth + 1))
        = levelAt tree depth (p.pre (depth + 1)) := by rw [levelAt_ensure]
    cases hnode : levelAt tree depth (p.pre (depth + 1)) with
    | none =>
      rw [hnode] at hlook1
      obtain ⟨hins, hupd⟩ := Upd_emplace _ depth (p.pre (depth + 1)) (TreeNode.leaf p h)
        hlt1 hlook1
      simp only [hlook1, hins, if_true]
      refine ⟨_, rfl, step_insert h inv hnode (by rw [hupd.1]; exact hlen1) ?_⟩
      intro e j
      rw [hupd.2 e j, levelAt_ensure]
    | some node =>
      rw [hnode] at hlook1
      simp only [hlook1]
      by_cases hi : node.type_ = NodeType.INTERNAL
      · rw [if_pos hi]
        have hupd := Upd_modify _ depth (p.pre (depth + 1))
          (fun x => { x with hash_ := "" }) node hlook1
        have inv2 := step_clear inv hnode hi (by rw [hupd.1]; exact hlen1)
          (fun e j => by rw [hupd.2 e j, levelAt_ensure])
        exact ih (depth + 1) _ _ (by omega) inv2
      · rw [if_neg hi]
        have hl : node.type_ = NodeType.LEAF := by
          cases ht : node.type_ with
          | INTERNAL => exact absurd ht hi
          | LEAF => rfl
        obtain ⟨q, hq, hqk⟩ := inv.wf.leaf depth _ node hnode hl
        rw [hq]
        simp only
        by_cases hqp : q = p
        · rw [if_pos hqp]
          have hupd := Upd_modify _ depth (p.pre (depth + 1))
            (fun x => { x with hash_ := h }) node hlook1
          refine ⟨_, rfl, step_replace h inv hnode hl (by rw [hq, hqp])
            (by rw [hupd.1]; exact hlen1) ?_⟩
          intro e j
          rw [hupd.2 e j, levelAt_ensure]
        · rw [if_neg hqp]
          have hd2 : depth < 255 := by
            by_contra hge
            have h255 : depth = 255 := by omega
            rw [h255, Path.pre_of_ge q _ (by omega), Path.pre_of_ge p _ (by omega)] at hqk
            exact hqp hqk
          have hdk : depth < kDigestSizeBits - 1 := hd2
          rw [if_pos hdk]
          have hfree := push_target_free inv.wf hnode hl (q.nth_msb (depth + 1))
          have hlen2 : (EnsureHaveLevel (EnsureHaveLevel tree depth) (depth + 1)).length ≤ 256 := by
            rw [length_ensure]; omega
          have hlt2 : depth + 1 < (EnsureHaveLevel (EnsureHaveLevel tree depth) (depth + 1)).length := by
            rw [length_ensure]; omega
          obtain ⟨hins, hupd⟩ := Upd_emplace
            (EnsureHaveLevel (EnsureHaveLevel tree depth) (depth + 1)) (depth + 1)
            ((p.pre (depth + 1)).set_nth_msb (depth + 1) (q.nth_msb (depth + 1))) node hlt2
            (by rw [levelAt_ensure, levelAt_ensure]; exact hfree)
          simp only [hins, if_true]
          have hnode2 : levelAt ((EnsureHaveLevel (EnsureHaveLevel tree depth) (depth + 1)).set
              (depth + 1) ((levelAt (EnsureHaveLevel (EnsureHaveLevel tree depth) (depth + 1))
                (depth + 1)).emplace
                  ((p.pre (depth + 1)).set_nth_msb (depth + 1) (q.nth_msb (depth + 1))) node).1)
              depth (p.pre (depth + 1)) = some node := by
            rw [hupd.2, if_neg (by omega), levelAt_ensure, levelAt_ensure]
            exact hnode
          have hupd2 := Upd_modify _ depth (p.pre (depth + 1))
            (fun _ => (⟨NodeType.INTERNAL, "", none⟩ : TreeNode)) node hnode2
          have inv2 := step_push inv hnode hl hq hd2
            (by rw [hupd2.1, hupd.1]; exact hlen2)
            (fun e j => by
              rw [hupd2.2 e j, hupd.2 e j, levelAt_ensure, levelAt_ensure])
          exact ih (depth + 1) _ _ (by omega) inv2

end SparseMerkleTree

namespace SparseMerkleTree

/-! ### `SetLeaf` and `CurrentRoot` on a tree that satisfies the invariant -/

theorem SetLeaf_spec (hasher : TreeHasher) (h32 : hasher.DigestSize = 32)
    (M : Path → Option String) (t : SparseMerkleTree) (inv : Inv hasher t M) (p : Path)
    (data : String) :
    ∃ t2, SetLeaf hasher t p data = .ok t2 ∧
      Inv hasher t2 (Function.update M p (some (hasher.HashLeaf data))) ∧
      t2.root_hash_ = "" := by
  have linv : LoopInv hasher M p 0 Path.zero t.tree_ := by
    constructor
    · exact inv.wf
    · exact inv.sem
    · intro d k node hn hi hne
      exact ⟨inv.cache d k node hn hi hne, fun _ => Nat.zero_le _⟩
    · intro e he
      omega
    · intro i hi
      omega
    · intro i _
      exact Path.nth_msb_zero i
  obtain ⟨tree2, hloop, hdone⟩ :=
    SetLeafLoop_spec hasher M p (hasher.HashLeaf data) 256 0 Path.zero t.tree_ rfl linv
  unfold SetLeaf
  have hsz : hasher.DigestSize = p.size := h32
  have hk : kDigestSizeBits = 256 := rfl
  rw [if_pos hsz, hk, hloop]
  refine ⟨_, rfl, ?_, rfl⟩
  constructor
  · exact inv.nulls
  · exact hdone.wf
  · exact hdone.sem
  · exact hdone.cache
  · intro hne
    exact absurd rfl hne

theorem Path.ofUInt64_zero : Path.ofUInt64 0 = Path.zero := by decide

theorem Path.ofUInt64_one_bit : (Path.ofUInt64 1).nth_msb 255 = true := by decide

theorem Path.zero_key (j : Nat) : Path.zero.pre j = Path.zero := by
  rw [Path.pre_eq_iff]
  intro n _
  rw [Path.nth_msb_zero]
  simp

/-- No node is stored at depth 0 under the index built from the integer 1. -/
theorem levelAt_zero_one {tree : List Level} (wf : WF tree) :
    levelAt tree 0 (Path.ofUInt64 1) = none := by
  cases hx : levelAt tree 0 (Path.ofUInt64 1) with
  | none => rfl
  | some x =>
    have hk := wf.key 0 _ x hx
    have hb := Path.key_bit _ 1 255 hk (by omega)
    rw [Path.ofUInt64_one_bit] at hb
    cases hb

theorem CalculateSubtreeHash_absent (hasher : TreeHasher) (h32 : hasher.DigestSize = 32)
    (fuel : Nat) (t : SparseMerkleTree) (d : Nat) (k : IndexType)
    (hnulls : t.null_hashes_ = computeNullHashes hasher) (hd : d ≤ 255)
    (hnone : levelAt t.tree_ d k = none) :
    CalculateSubtreeHash hasher (fuel + 1) t d k = .ok (nullChain hasher (255 - d), t) := by
  unfold CalculateSubtreeHash
  rw [hnulls, nullAt_compute hasher h32 d hd]
  split
  · rfl
  · simp only [hnone]

theorem CurrentRoot_spec (hasher : TreeHasher) (h32 : hasher.DigestSize = 32)
    (M : Path → Option String) (t : SparseMerkleTree) (inv : Inv hasher t M) :
    ∃ t2, CurrentRoot hasher t = .ok (rootValue hasher M, t2) ∧ Inv hasher t2 M ∧
      SameSkel t.tree_ t2.tree_ := by
  unfold CurrentRoot
  by_cases hroot : t.root_hash_ = ""
  · rw [if_pos hroot, Path.ofUInt64_zero]
    obtain ⟨t1, e1, inv1, skel1, _⟩ :=
      CalculateSubtreeHash_spec hasher h32 M (t.tree_.length + 1) t 0 Path.zero inv
        (by omega) (by omega) (by omega) (Path.zero_key _) (fun e he => absurd he (by omega))
    rw [e1]
    simp only
    rw [CalculateSubtreeHash_absent hasher h32 _ t1 0 _ inv1.nulls (by omega)
      (levelAt_zero_one inv1.wf)]
    simp only
    refine ⟨_, rfl, ?_, skel1⟩
    constructor
    · exact inv1.nulls
    · exact inv1.wf
    · exact inv1.sem
    · exact inv1.cache
    · intro _
      rfl
  · rw [if_neg hroot]
    exact ⟨t, by rw [inv.root hroot], inv, SameSkel.skel_refl _⟩

theorem fresh_inv (hasher : TreeHasher) : Inv hasher (fresh hasher) (fun _ => none) := by
  constructor
  · rfl
  · constructor
    · show ([] : List Level).length ≤ 256
      simp
    · intro d k node hn
      cases hn
    · intro d k node hn
      cases hn
    · intro d k node hn
      cases hn
    · intro d k node hn
      cases hn
  · constructor
    · intro q h
      constructor
      · intro e
        cases e
      · rintro ⟨d, node, hn, _⟩
        cases hn
    · intro d k node hn
      cases hn
  · intro d k node hn
    cases hn
  · intro hne
    exact absurd rfl hne

theorem Reachable.inv {hasher : TreeHasher} (h32 : hasher.DigestSize = 32)
    {t : SparseMerkleTree} (hr : Reachable hasher t) : ∃ M, Inv hasher t M := by
  induction hr with
  | fresh => exact ⟨_, fresh_inv hasher⟩
  | setLeaf t p d t2 _ hstep ih =>
    obtain ⟨M, inv⟩ := ih
    obtain ⟨t3, h3, inv3, _⟩ := SetLeaf_spec hasher h32 M t inv p d
    rw [h3] at hstep
    cases hstep
    exact ⟨_, inv3⟩
  | currentRoot t r t2 _ hstep ih =>
    obtain ⟨M, inv⟩ := ih
    obtain ⟨t3, h3, inv3, _⟩ := CurrentRoot_spec hasher h32 M t inv
    rw [h3] at hstep
    cases hstep
    exact ⟨_, inv3⟩

end SparseMerkleTree

namespace SparseMerkleTree

/-! ### Dropping the memoised values -/

theorem levelAt_clearCaches (t : SparseMerkleTree) (e : Nat) (j : IndexType) :
    levelAt (clearCaches t).tree_ e j
      = (levelAt t.tree_ e j).map
          (fun x => if x.type_ = NodeType.INTERNAL then { x with hash_ := "" } else x) := by
  unfold clearCaches levelAt
  simp only [List.getD_eq_getElem?_getD, List.getElem?_map]
  cases h : t.tree_[e]? with
  | none => rfl
  | some m => rfl

theorem clearCaches_sameSkel (t : SparseMerkleTree) :
    SameSkel t.tree_ (clearCaches t).tree_ := by
  refine ⟨by simp [clearCaches], ?_⟩
  intro e j
  rw [levelAt_clearCaches]
  cases h : levelAt t.tree_ e j with
  | none => exact True.intro
  | some x =>
    simp only [Option.map_some']
    by_cases hi : x.type_ = NodeType.INTERNAL
    · rw [if_pos hi]
      exact ⟨rfl, rfl, fun hl => by rw [hi] at hl; cases hl⟩
    · rw [if_neg hi]
      exact NodeSim.node_refl x

theorem clearCaches_inv {hasher : TreeHasher} {t : SparseMerkleTree}
    {M : Path → Option String} (inv : Inv hasher t M) : Inv hasher (clearCaches t) M := by
  constructor
  · exact inv.nulls
  · exact inv.wf.wf_of_sameSkel (clearCaches_sameSkel t)
  · exact inv.sem.sem_of_sameSkel (clearCaches_sameSkel t)
  · intro d k node hn hi hne
    rw [levelAt_clearCaches] at hn
    cases h : levelAt t.tree_ d k with
    | none => rw [h] at hn; cases hn
    | some x =>
      rw [h] at hn
      simp only [Option.map_some', Option.some.injEq] at hn
      by_cases hxi : x.type_ = NodeType.INTERNAL
      · rw [if_pos hxi] at hn
        rw [← hn] at hne
        exact absurd rfl hne
      · rw [if_neg hxi] at hn
        rw [hn] at hxi
        exact absurd hi hxi
  · intro hne
    exact absurd rfl hne

/-! ### Runs of `SetLeaf` calls -/

theorem lastData_append (ops : List (Path × String)) (p q : Path) (d : String) :
    lastData (ops ++ [(p, d)]) q = if p = q then some d else lastData ops q := by
  unfold lastData
  rw [List.reverse_append]
  simp only [List.reverse_cons, List.reverse_nil, List.nil_append, List.singleton_append,
    List.find?_cons]
  by_cases h : p = q
  · simp [h]
  · simp [h]

theorem lastData_mem (ops : List (Path × String)) (p : Path) (d : String)
    (h : lastData ops p = some d) : (p, d) ∈ ops := by
  unfold lastData at h
  cases hf : ops.reverse.find? (fun o => decide (o.1 = p)) with
  | none => rw [hf] at h; cases h
  | some o =>
    rw [hf] at h
    simp only [Option.map_some', Option.some.injEq] at h
    have hm := List.mem_of_find?_eq_some hf
    have hp := List.find?_some hf
    simp only [decide_eq_true_eq] at hp
    rw [List.mem_reverse] at hm
    rw [← hp, ← h]
    exact hm

theorem hashMap_append (hasher : TreeHasher) (ops : List (Path × String)) (p : Path)
    (d : String) :
    hashMap hasher (ops ++ [(p, d)])
      = Function.update (hashMap hasher ops) p (some (hasher.HashLeaf d)) := by
  funext q
  unfold hashMap
  rw [lastData_append]
  by_cases h : p = q
  · subst h
    simp
  · rw [if_neg h, Function.update_noteq (fun e => h e.symm)]

theorem SetLeaves_append (hasher : TreeHasher) (t : SparseMerkleTree)
    (ops : List (Path × String)) (o : Path × String) :
    SetLeaves hasher t (ops ++ [o])
      = (SetLeaves hasher t ops).bind (fun s => SetLeaf hasher s o.1 o.2) := by
  unfold SetLeaves
  rw [List.foldlM_append]
  cases h : List.foldlM (fun s o => SetLeaf hasher s o.1 o.2) t ops with
  | error e => rfl
  | ok s =>
    show List.foldlM (fun s o => SetLeaf hasher s o.1 o.2) s [o] = SetLeaf hasher s o.1 o.2
    rw [List.foldlM_cons]
    cases SetLeaf hasher s o.1 o.2 with
    | error e => rfl
    | ok s2 => rfl

theorem SetLeaves_inv (hasher : TreeHasher) (h32 : hasher.DigestSize = 32)
    (ops : List (Path × String)) :
    ∃ t, SetLeaves hasher (fresh hasher) ops = .ok t ∧ Inv hasher t (hashMap hasher ops) ∧
      Reachable hasher t := by
  induction ops using List.reverseRecOn with
  | nil =>
    refine ⟨fresh hasher, rfl, ?_, Reachable.fresh⟩
    have : hashMap hasher [] = fun _ => none := rfl
    rw [this]
    exact fresh_inv hasher
  | append_singleton ops o ih =>
    obtain ⟨t, ht, inv, hr⟩ := ih
    obtain ⟨t2, ht2, inv2, _⟩ := SetLeaf_spec hasher h32 _ t inv o.1 o.2
    refine ⟨t2, ?_, ?_, Reachable.setLeaf t o.1 o.2 t2 hr ht2⟩
    · rw [SetLeaves_append, ht]
      exact ht2
    · have : o = (o.1, o.2) := rfl
      rw [this, hashMap_append]
      exact inv2

theorem rootAfter_eq (hasher : TreeHasher) (h32 : hasher.DigestSize = 32)
    (ops : List (Path × String)) :
    rootAfter hasher ops = .ok (rootValue hasher (hashMap hasher ops)) := by
  obtain ⟨t, ht, inv, _⟩ := SetLeaves_inv hasher h32 ops
  obtain ⟨t2, ht2, _⟩ := CurrentRoot_spec hasher h32 _ t inv
  unfold rootAfter
  rw [ht]
  simp only
  rw [ht2]

end SparseMerkleTree

namespace SparseMerkleTree

/-! ### The loop of `SetLeaf`, case by case -/

theorem SetLeafLoop_none (p : Path) (h : String) (n depth : Nat) (idx : IndexType)
    (tree : List Level)
    (hnone : levelAt (EnsureHaveLevel tree depth) depth
      (idx.set_nth_msb depth (p.nth_msb depth)) = none) :
    SetLeafLoop p h (n + 1) depth idx tree
      = .ok ((EnsureHaveLevel tree depth).set depth
          (fun j => if j = idx.set_nth_msb depth (p.nth_msb depth)
            then some (TreeNode.leaf p h) else levelAt (EnsureHaveLevel tree depth) depth j)) := by
  unfold SetLeafLoop
  simp only [hnone, Level.emplace, if_true]

theorem SetLeafLoop_internal (p : Path) (h : String) (n depth : Nat) (idx : IndexType)
    (tree : List Level) (node : TreeNode)
    (hnode : levelAt (EnsureHaveLevel tree depth) depth
      (idx.set_nth_msb depth (p.nth_msb depth)) = some node)
    (hi : node.type_ = NodeType.INTERNAL) :
    SetLeafLoop p h (n + 1) depth idx tree
      = SetLeafLoop p h n (depth + 1) (idx.set_nth_msb depth (p.nth_msb depth))
          ((EnsureHaveLevel tree depth).set depth
            ((levelAt (EnsureHaveLevel tree depth) depth).modify
              (idx.set_nth_msb depth (p.nth_msb depth)) (fun x => { x with hash_ := "" }))) := by
  conv => lhs; unfold SetLeafLoop
  simp only [hnode, hi, if_true]

theorem SetLeafLoop_replace (p : Path) (h : String) (n depth : Nat) (idx : IndexType)
    (tree : List Level) (node : TreeNode)
    (hnode : levelAt (EnsureHaveLevel tree depth) depth
      (idx.set_nth_msb depth (p.nth_msb depth)) = some node)
    (hi : node.type_ ≠ NodeType.INTERNAL) (hp : node.path_ = some p) :
    SetLeafLoop p h (n + 1) depth idx tree
      = .ok ((EnsureHaveLevel tree depth).set depth
          ((levelAt (EnsureHaveLevel tree depth) depth).modify
            (idx.set_nth_msb depth (p.nth_msb depth)) (fun x => { x with hash_ := h }))) := by
  unfold SetLeafLoop
  simp only [hnode, hi, if_false, hp, if_true]

theorem SetLeafLoop_push (p : Path) (h : String) (n depth : Nat) (idx : IndexType)
    (tree : List Level) (node : TreeNode) (q : Path)
    (hnode : levelAt (EnsureHaveLevel tree depth) depth
      (idx.set_nth_msb depth (p.nth_msb depth)) = some node)
    (hi : node.type_ ≠ NodeType.INTERNAL) (hp : node.path_ = some q) (hqp : q ≠ p)
    (hd : depth < 255)
    (hfree : levelAt (EnsureHaveLevel (EnsureHaveLevel tree depth) (depth + 1)) (depth + 1)
      ((idx.set_nth_msb depth (p.nth_msb depth)).set_nth_msb (depth + 1)
        (q.nth_msb (depth + 1))) = none) :
    SetLeafLoop p h (n + 1) depth idx tree
      = SetLeafLoop p h n (depth + 1)
          ((idx.set_nth_msb depth (p.nth_msb depth)).set_nth_msb (depth + 1)
            (q.nth_msb (depth + 1)))
          (((EnsureHaveLevel (EnsureHaveLevel tree depth) (depth + 1)).set (depth + 1)
              (fun j => if j = (idx.set_nth_msb depth (p.nth_msb depth)).set_nth_msb (depth + 1)
                  (q.nth_msb (depth + 1)) then some node
                else levelAt (EnsureHaveLevel (EnsureHaveLevel tree depth) (depth + 1))
                  (depth + 1) j)).set depth
            ((levelAt ((EnsureHaveLevel (EnsureHaveLevel tree depth) (depth + 1)).set (depth + 1)
              (fun j => if j = (idx.set_nth_msb depth (p.nth_msb depth)).set_nth_msb (depth + 1)
                  (q.nth_msb (depth + 1)) then some node
                else levelAt (EnsureHaveLevel (EnsureHaveLevel tree depth) (depth + 1))
                  (depth + 1) j)) depth).modify
              (idx.set_nth_msb depth (p.nth_msb depth))
              (fun _ => ⟨NodeType.INTERNAL, "", none⟩))) := by
  conv => lhs; unfold SetLeafLoop
  have hdk : depth < kDigestSizeBits - 1 := hd
  simp only [hnode, hi, if_false, hp, hqp, hdk, if_true, Level.emplace, hfree]

theorem SetLeafLoop_push_blocked (p : Path) (h : String) (n depth : Nat) (idx : IndexType)
    (tree : List Level) (node : TreeNode) (q : Path) (x : TreeNode)
    (hnode : levelAt (EnsureHaveLevel tree depth) depth
      (idx.set_nth_msb depth (p.nth_msb depth)) = some node)
    (hi : node.type_ ≠ NodeType.INTERNAL) (hp : node.path_ = some q) (hqp : q ≠ p)
    (hd : depth < 255)
    (hfree : levelAt (EnsureHaveLevel (EnsureHaveLevel tree depth) (depth + 1)) (depth + 1)
      ((idx.set_nth_msb depth (p.nth_msb depth)).set_nth_msb (depth + 1)
        (q.nth_msb (depth + 1))) = some x) :
    SetLeafLoop p h (n + 1) depth idx tree = .error Fatal.emplace_pushed_failed := by
  unfold SetLeafLoop
  have hdk : depth < kDigestSizeBits - 1 := hd
  simp only [hnode, hi, if_false, hp, hqp, hdk, if_true, Level.emplace, hfree]
  rfl

theorem SetLeafLoop_depth_limit (p : Path) (h : String) (n depth : Nat) (idx : IndexType)
    (tree : List Level) (node : TreeNode) (q : Path)
    (hnode : levelAt (EnsureHaveLevel tree depth) depth
      (idx.set_nth_msb depth (p.nth_msb depth)) = some node)
    (hi : node.type_ ≠ NodeType.INTERNAL) (hp : node.path_ = some q) (hqp : q ≠ p)
    (hd : ¬ depth < 255) :
    SetLeafLoop p h (n + 1) depth idx tree = .error Fatal.depth_limit := by
  unfold SetLeafLoop
  have hdk : ¬ depth < kDigestSizeBits - 1 := hd
  simp only [hnode, hi, if_false, hp, hqp, hdk]

theorem SetLeafLoop_null_path (p : Path) (h : String) (n depth : Nat) (idx : IndexType)
    (tree : List Level) (node : TreeNode)
    (hnode : levelAt (EnsureHaveLevel tree depth) depth
      (idx.set_nth_msb depth (p.nth_msb depth)) = some node)
    (hi : node.type_ ≠ NodeType.INTERNAL) (hp : node.path_ = none) :
    SetLeafLoop p h (n + 1) depth idx tree = .error Fatal.null_path := by
  unfold SetLeafLoop
  simp only [hnode, hi, if_false, hp]

end SparseMerkleTree

namespace SparseMerkleTree

/-! ### Setting the same path twice -/

theorem levelAt_set_self (tree : List Level) (d : Nat) (m : Level) (h : d < tree.length) :
    levelAt (tree.set d m) d = m := by
  rw [levelAt_set, if_pos ⟨rfl, h⟩]

theorem levelAt_set_ne (tree : List Level) (d e : Nat) (m : Level) (h : e ≠ d) :
    levelAt (tree.set d m) e = levelAt tree e := by
  rw [levelAt_set, if_neg (fun x => h x.1)]

theorem lt_length_ensure (tree : List Level) (l : Nat) : l < (EnsureHaveLevel tree l).length := by
  rw [length_ensure]; omega

theorem le_length_ensure (tree : List Level) (l : Nat) :
    tree.length ≤ (EnsureHaveLevel tree l).length := by
  rw [length_ensure]; omega

/-- The loop of `SetLeaf` started at `depth` leaves the levels above `depth` alone and only
grows the vector of levels. -/
theorem SetLeafLoop_frame (p : Path) (h : String) (n : Nat) :
    ∀ (depth : Nat) (idx : IndexType) (tree T : List Level),
      SetLeafLoop p h n depth idx tree = .ok T →
      tree.length ≤ T.length ∧ depth < T.length ∧
        ∀ e, e < depth → levelAt T e = levelAt tree e := by
  induction n with
  | zero =>
    intro depth idx tree T hT
    unfold SetLeafLoop at hT
    cases hT
  | succ n ih =>
    intro depth idx tree T hT
    have hl0 := le_length_ensure tree depth
    have hl1 := lt_length_ensure tree depth
    cases hnode : levelAt (EnsureHaveLevel tree depth) depth
        (idx.set_nth_msb depth (p.nth_msb depth)) with
    | none =>
      rw [SetLeafLoop_none p h n depth idx tree hnode] at hT
      cases hT
      refine ⟨by simpa using hl0, by simpa using hl1, ?_⟩
      intro e he
      rw [levelAt_set_ne _ _ _ _ (by omega), levelAt_ensure]
    | some node =>
      by_cases hi : node.type_ = NodeType.INTERNAL
      · rw [SetLeafLoop_internal p h n depth idx tree node hnode hi] at hT
        obtain ⟨h1, h2, h3⟩ := ih _ _ _ _ hT
        simp only [List.length_set] at h1
        refine ⟨by omega, by omega, ?_⟩
        intro e he
        rw [h3 e (by omega), levelAt_set_ne _ _ _ _ (by omega), levelAt_ensure]
      · cases hp : node.path_ with
        | none =>
          rw [SetLeafLoop_null_path p h n depth idx tree node hnode hi hp] at hT
          cases hT
        | some q =>
          by_cases hqp : q = p
          · rw [hqp] at hp
            rw [SetLeafLoop_replace p h n depth idx tree node hnode hi hp] at hT
            cases hT
            refine ⟨by simpa using hl0, by simpa using hl1, ?_⟩
            intro e he
            rw [levelAt_set_ne _ _ _ _ (by omega), levelAt_ensure]
          · by_cases hd : depth < 255
            · cases hfree : levelAt (EnsureHaveLevel (EnsureHaveLevel tree depth) (depth + 1))
                  (depth + 1) ((idx.set_nth_msb depth (p.nth_msb depth)).set_nth_msb (depth + 1)
                    (q.nth_msb (depth + 1))) with
              | none =>
                rw [SetLeafLoop_push p h n depth idx tree node q hnode hi hp hqp hd hfree] at hT
                obtain ⟨h1, h2, h3⟩ := ih _ _ _ _ hT
                simp only [List.length_set] at h1
                have hl2 := le_length_ensure (EnsureHaveLevel tree depth) (depth + 1)
                refine ⟨by omega, by omega, ?_⟩
                intro e he
                rw [h3 e (by omega), levelAt_set_ne _ _ _ _ (by omega),
                  levelAt_set_ne _ _ _ _ (by omega), levelAt_ensure, levelAt_ensure]
              | some x =>
                rw [SetLeafLoop_push_blocked p h n depth idx tree node q x hnode hi hp hqp hd
                  hfree] at hT
                cases hT
            · rw [SetLeafLoop_depth_limit p h n depth idx tree node q hnode hi hp hqp hd] at hT
              cases hT

/-- The bit of the loop index at the current depth is overwritten before it is read. -/
theorem SetLeafLoop_index_bit (p : Path) (h : String) (n depth : Nat) (idx : IndexType)
    (v : Bool) (tree : List Level) :
    SetLeafLoop p h n depth (idx.set_nth_msb depth v) tree = SetLeafLoop p h n depth idx tree := by
  cases n with
  | zero => rfl
  | succ n =>
    unfold SetLeafLoop
    simp only [Path.set_set]

theorem modify_modify (m : Level) (k : IndexType) (f g : TreeNode → TreeNode) :
    (m.modify k f).modify k g = m.modify k (fun x => g (f x)) := by
  funext j
  unfold Level.modify
  by_cases hj : j = k
  · simp only [hj, if_true, Option.map_map]
    rfl
  · simp only [hj, if_false]

end SparseMerkleTree

namespace SparseMerkleTree

/-- Running the loop for the same path on its own result is the same as running it on
the tree it started from: the second run walks the nodes the first one left behind and
ends by replacing the hash of the leaf. -/
theorem SetLeafLoop_again (p : Path) (h h2 : String) (n : Nat) :
    ∀ (depth : Nat) (idx : IndexType) (tree T : List Level),
      SetLeafLoop p h n depth idx tree = .ok T →
      SetLeafLoop p h2 n depth idx T = SetLeafLoop p h2 n depth idx tree := by
  induction n with
  | zero =>
    intro depth idx tree T hT
    unfold SetLeafLoop at hT
    cases hT
  | succ n ih =>
    intro depth idx tree T hT
    obtain ⟨_, hTlen, _⟩ := SetLeafLoop_frame p h (n + 1) depth idx tree T hT
    have hensT : EnsureHaveLevel T depth = T := ensure_of_lt T depth hTlen
    have hl1 := lt_length_ensure tree depth
    cases hnode : levelAt (EnsureHaveLevel tree depth) depth
        (idx.set_nth_msb depth (p.nth_msb depth)) with
    | none =>
      rw [SetLeafLoop_none p h n depth idx tree hnode] at hT
      cases hT
      rw [SetLeafLoop_none p h2 n depth idx tree hnode]
      have hnodeT : levelAt (EnsureHaveLevel ((EnsureHaveLevel tree depth).set depth
            (fun j => if j = idx.set_nth_msb depth (p.nth_msb depth)
              then some (TreeNode.leaf p h)
              else levelAt (EnsureHaveLevel tree depth) depth j)) depth) depth
          (idx.set_nth_msb depth (p.nth_msb depth)) = some (TreeNode.leaf p h) := by
        rw [hensT, levelAt_set_self _ _ _ hl1]
        simp
      rw [SetLeafLoop_replace p h2 n depth idx _ (TreeNode.leaf p h) hnodeT
        (by simp [TreeNode.leaf]) rfl]
      rw [hensT, levelAt_set_self _ _ _ hl1, List.set_set]
      congr 2
      funext j
      unfold Level.modify
      by_cases hj : j = idx.set_nth_msb depth (p.nth_msb depth)
      · simp [hj, TreeNode.leaf]
      · simp [hj]
    | some node =>
      by_cases hi : node.type_ = NodeType.INTERNAL
      · rw [SetLeafLoop_internal p h n depth idx tree node hnode hi] at hT
        rw [SetLeafLoop_internal p h2 n depth idx tree node hnode hi]
        obtain ⟨_, _, hframe⟩ := SetLeafLoop_frame p h n _ _ _ T hT
        have hlvl : levelAt T depth
            = (levelAt (EnsureHaveLevel tree depth) depth).modify
                (idx.set_nth_msb depth (p.nth_msb depth)) (fun x => { x with hash_ := "" }) := by
          rw [hframe depth (by omega), levelAt_set_self _ _ _ hl1]
        have hnodeT : levelAt (EnsureHaveLevel T depth) depth
            (idx.set_nth_msb depth (p.nth_msb depth)) = some { node with hash_ := "" } := by
          rw [hensT, hlvl]
          unfold Level.modify
          rw [if_pos rfl, hnode]
          rfl
        rw [SetLeafLoop_internal p h2 n depth idx T _ hnodeT hi]
        rw [hensT]
        have hsame : T.set depth ((levelAt T depth).modify
            (idx.set_nth_msb depth (p.nth_msb depth)) (fun x => { x with hash_ := "" })) = T := by
          apply set_levelAt_self
          rw [hlvl, modify_modify]
        rw [hsame]
        exact ih _ _ _ T hT
      · cases hp : node.path_ with
        | none =>
          rw [SetLeafLoop_null_path p h n depth idx tree node hnode hi hp] at hT
          cases hT
        | some q =>
          by_cases hqp : q = p
          · rw [hqp] at hp
            rw [SetLeafLoop_replace p h n depth idx tree node hnode hi hp] at hT
            cases hT
            rw [SetLeafLoop_replace p h2 n depth idx tree node hnode hi hp]
            have hnodeT : levelAt (EnsureHaveLevel ((EnsureHaveLevel tree depth).set depth
                  ((levelAt (EnsureHaveLevel tree depth) depth).modify
                    (idx.set_nth_msb depth (p.nth_msb depth)) (fun x => { x with hash_ := h })))
                  depth) depth
                (idx.set_nth_msb depth (p.nth_msb depth)) = some { node with hash_ := h } := by
              rw [hensT, levelAt_set_self _ _ _ hl1]
              unfold Level.modify
              rw [if_pos rfl, hnode]
              rfl
            rw [SetLeafLoop_replace p h2 n depth idx _ _ hnodeT hi hp]
            rw [hensT, levelAt_set_self _ _ _ hl1, List.set_set, modify_modify]
          · by_cases hd : depth < 255
            · cases hfree : levelAt (EnsureHaveLevel (EnsureHaveLevel tree depth) (depth + 1))
                  (depth + 1) ((idx.set_nth_msb depth (p.nth_msb depth)).set_nth_msb (depth + 1)
                    (q.nth_msb (depth + 1))) with
              | none =>
                rw [SetLeafLoop_push p h n depth idx tree node q hnode hi hp hqp hd hfree] at hT
                rw [SetLeafLoop_push p h2 n depth idx tree node q hnode hi hp hqp hd hfree]
                obtain ⟨_, _, hframe⟩ := SetLeafLoop_frame p h n _ _ _ T hT
                have hl2 : depth < (EnsureHaveLevel (EnsureHaveLevel tree depth)
                    (depth + 1)).length := by
                  have := le_length_ensure (EnsureHaveLevel tree depth) (depth + 1)
                  omega
                have hlvl : levelAt T depth
                    = (levelAt (EnsureHaveLevel tree depth) depth).modify
                        (idx.set_nth_msb depth (p.nth_msb depth))
                        (fun _ => ⟨NodeType.INTERNAL, "", none⟩) := by
                  rw [hframe depth (by omega), levelAt_set_self _ _ _ (by simpa using hl2),
                    levelAt_set_ne _ _ _ _ (by omega), levelAt_ensure]
                have hnodeT : levelAt (EnsureHaveLevel T depth) depth
                    (idx.set_nth_msb depth (p.nth_msb depth))
                    = some ⟨NodeType.INTERNAL, "", none⟩ := by
                  rw [hensT, hlvl]
                  unfold Level.modify
                  rw [if_pos rfl, hnode]
                  rfl
                rw [SetLeafLoop_internal p h2 n depth idx T _ hnodeT rfl]
                rw [hensT]
                have hsame : T.set depth ((levelAt T depth).modify
                    (idx.set_nth_msb depth (p.nth_msb depth))
                    (fun x => { x with hash_ := "" })) = T := by
                  apply set_levelAt_self
                  rw [hlvl, modify_modify]
                rw [hsame, ← ih _ _ _ T hT, SetLeafLoop_index_bit]
              | some x =>
                rw [SetLeafLoop_push_blocked p h n depth idx tree node q x hnode hi hp hqp hd
                  hfree] at hT
                cases hT
            · rw [SetLeafLoop_depth_limit p h n depth idx tree node q hnode hi hp hqp hd] at hT
              cases hT

/-- Two `SetLeaf` calls on one path leave the state that the second call alone leaves. -/
theorem SetLeaf_twice (hasher : TreeHasher) (t t1 : SparseMerkleTree) (p : Path)
    (d d2 : String) (h1 : SetLeaf hasher t p d = .ok t1) :
    SetLeaf hasher t1 p d2 = SetLeaf hasher t p d2 := by
  unfold SetLeaf at h1 ⊢
  by_cases hsz : hasher.DigestSize = p.size
  · rw [if_pos hsz] at h1 ⊢
    rw [if_pos hsz]
    cases hloop : SetLeafLoop p (hasher.HashLeaf d) kDigestSizeBits 0 Path.zero t.tree_ with
    | error e => rw [hloop] at h1; cases h1
    | ok T =>
      rw [hloop] at h1
      simp only [Except.ok.injEq] at h1
      subst h1
      simp only
      rw [SetLeafLoop_again p _ (hasher.HashLeaf d2) _ _ _ _ T hloop]
  · rw [if_neg hsz] at h1
    cases h1

end SparseMerkleTree

namespace SparseMerkleTree

/-! ### The recursion bound of the embedding is never reached -/

theorem foldLeaf_error (hasher : TreeHasher) (nulls : List String) (q : Path) (c : Nat) :
    ∀ (i : Nat) (ret : String) (e : Fatal), foldLeaf hasher nulls q c i ret = .error e →
      e = Fatal.null_hash_out_of_range := by
  induction c with
  | zero =>
    intro i ret e h
    unfold foldLeaf at h
    cases h
  | succ c ih =>
    intro i ret e h
    unfold foldLeaf nullAt at h
    cases hn : nulls.get? i with
    | none =>
      rw [hn] at h
      simp only [Except.error.injEq] at h
      exact h.symm
    | some nh =>
      rw [hn] at h
      exact ih _ _ e h

/-- In any state whatsoever, with a budget above `tree_.size() - depth` the embedded
`CalculateSubtreeHash` never stops for lack of budget, and it leaves the number of levels
unchanged. -/
theorem CalculateSubtreeHash_budget (hasher : TreeHasher) (fuel : Nat) :
    ∀ (t : SparseMerkleTree) (d : Nat) (k : IndexType), t.tree_.length + 1 ≤ fuel + d →
      0 < fuel →
      CalculateSubtreeHash hasher fuel t d k ≠ .error Fatal.recursion_budget ∧
        ∀ r, CalculateSubtreeHash hasher fuel t d k = .ok r →
          r.2.tree_.length = t.tree_.length := by
  induction fuel with
  | zero => intro t d k _ h0; omega
  | succ fuel ih =>
    intro t d k hfuel _
    unfold CalculateSubtreeHash
    by_cases hlen : t.tree_.length ≤ d
    · rw [if_pos hlen]
      unfold nullAt
      cases t.null_hashes_.get? d with
      | none => exact ⟨by simp, by simp⟩
      | some h =>
        refine ⟨by simp, ?_⟩
        intro r hr
        cases hr
        rfl
    · rw [if_neg hlen]
      cases hnode : levelAt t.tree_ d k with
      | none =>
        simp only
        unfold nullAt
        cases t.null_hashes_.get? d with
        | none => exact ⟨by simp, by simp⟩
        | some h =>
          refine ⟨by simp, ?_⟩
          intro r hr
          cases hr
          rfl
      | some node =>
        simp only
        cases htype : node.type_ with
        | INTERNAL =>
          simp only
          by_cases hcache : node.hash_ ≠ ""
          · rw [if_pos hcache]
            refine ⟨by simp, ?_⟩
            intro r hr
            cases hr
            rfl
          · rw [if_neg hcache]
            obtain ⟨hb1, hl1⟩ := ih t (d + 1) k (by omega) (by omega)
            cases h1 : CalculateSubtreeHash hasher fuel t (d + 1) k with
            | error e =>
              simp only
              refine ⟨?_, by simp⟩
              intro he
              cases he
              exact hb1 h1
            | ok r1 =>
              obtain ⟨left, t1⟩ := r1
              have hlen1 : t1.tree_.length = t.tree_.length := hl1 _ h1
              simp only
              obtain ⟨hb2, hl2⟩ := ih t1 (d + 1) (k.set_nth_msb (d + 1) true)
                (by rw [hlen1]; omega) (by omega)
              cases h2 : CalculateSubtreeHash hasher fuel t1 (d + 1)
                  (k.set_nth_msb (d + 1) true) with
              | error e =>
                simp only
                refine ⟨?_, by simp⟩
                intro he
                cases he
                exact hb2 h2
              | ok r2 =>
                obtain ⟨right, t2⟩ := r2
                have hlen2 : t2.tree_.length = t1.tree_.length := hl2 _ h2
                simp only
                refine ⟨by simp, ?_⟩
                intro r hr
                cases hr
                simp only [List.length_set]
                rw [hlen2, hlen1]
        | LEAF =>
          simp only
          cases node.path_ with
          | none => exact ⟨by simp, by simp⟩
          | some q =>
            simp only
            cases hf : foldLeaf hasher t.null_hashes_ q (kDigestSizeBits - 1 - d)
                (kDigestSizeBits - 1) node.hash_ with
            | error e =>
              simp only
              refine ⟨?_, by simp⟩
              rw [foldLeaf_error hasher _ q _ _ _ e hf]
              simp
            | ok ret =>
              simp only
              refine ⟨by simp, ?_⟩
              intro r hr
              cases hr
              rfl

/-- In any state whatsoever the embedded `CurrentRoot` does not stop for lack of recursion
budget: the budget it passes is never a restriction. -/
theorem CurrentRoot_budget (hasher : TreeHasher) (t : SparseMerkleTree) :
    CurrentRoot hasher t ≠ .error Fatal.recursion_budget := by
  unfold CurrentRoot
  by_cases hroot : t.root_hash_ = ""
  · rw [if_pos hroot]
    obtain ⟨hb1, _⟩ := CalculateSubtreeHash_budget hasher (t.tree_.length + 1) t 0
      (Path.ofUInt64 0) (by omega) (by omega)
    cases h1 : CalculateSubtreeHash hasher (t.tree_.length + 1) t 0 (Path.ofUInt64 0) with
    | error e =>
      simp only
      intro he
      cases he
      exact hb1 h1
    | ok r1 =>
      obtain ⟨left, t1⟩ := r1
      simp only
      obtain ⟨hb2, _⟩ := CalculateSubtreeHash_budget hasher (t1.tree_.length + 1) t1 0
        (Path.ofUInt64 1) (by omega) (by omega)
      cases h2 : CalculateSubtreeHash hasher (t1.tree_.length + 1) t1 0 (Path.ofUInt64 1) with
      | error e =>
        simp only
        intro he
        cases he
        exact hb2 h2
      | ok r2 =>
        obtain ⟨right, t2⟩ := r2
        simp
  · rw [if_neg hroot]
    simp

end SparseMerkleTree

namespace HttpHandler

theorem wrap64_id (x : Int) (h1 : -(2 ^ 63) ≤ x) (h2 : x < 2 ^ 63) : wrap64 x = x := by
  unfold wrap64
  rw [Int.emod_eq_of_lt (by omega) (by omega)]
  omega

/-- What the loop of `BlockingGetEntries` appends: the entries of a run of the scan whose
sequence numbers count up from `i`. -/
theorem entriesLoop_ok (include_scts : Bool) (end_ : Int) (hend : end_ < 2 ^ 63 - 1) :
    ∀ (it : List LoggedEntry) (i : Int) (acc out : List JsonValue), -(2 ^ 63) ≤ i →
      entriesLoop include_scts end_ it i acc = .ok out →
      ∃ k, k ≤ it.length ∧
        out = acc ++ (it.take k).map (entryObject include_scts) ∧
        (it.take k).map LoggedEntry.sequence_number = (List.range k).map (fun (j : Nat) => i + (j : Int)) := by
  intro it
  induction it with
  | nil =>
    intro i acc out _ h
    unfold entriesLoop at h
    cases h
    exact ⟨0, by simp, by simp, by simp⟩
  | cons entry it ih =>
    intro i acc out hi h
    unfold entriesLoop at h
    by_cases hie : i ≤ end_
    · rw [if_pos hie] at h
      by_cases hseq : entry.sequence_number ≠ i
      · rw [if_pos hseq] at h
        cases h
        exact ⟨0, by simp, by simp, by simp⟩
      · rw [if_neg hseq] at h
        have hseq2 : entry.sequence_number = i := by
          by_contra hc; exact hseq hc
        cases hl : entry.leaf_input with
        | none => simp [hl] at h
        | some leaf_input =>
          cases he : entry.extra_data with
          | none => simp [hl, he] at h
          | some extra_data =>
            cases hs : (if include_scts then entry.sct_data else some "") with
            | none => simp [hl, he, hs] at h
            | some sct_data =>
              simp only [hl, he, hs] at h
              rw [wrap64_id (i + 1) (by omega) (by omega)] at h
              obtain ⟨k, hk, hout, hseqs⟩ := ih (i + 1) _ out (by omega) h
              refine ⟨k + 1, by simp; omega, ?_, ?_⟩
              · rw [hout, List.take_succ_cons, List.map_cons, List.append_assoc]
                have hobj : JsonValue.object (entryJson include_scts leaf_input extra_data sct_data)
                    = entryObject include_scts entry := by
                  unfold entryObject
                  rw [hl, he]
                  cases include_scts
                  · simp only [Bool.false_eq_true, if_false, Option.some.injEq] at hs
                    simp only [Bool.false_eq_true, if_false, Option.getD_some, hs]
                  · simp only [if_true] at hs
                    simp only [if_true, hs, Option.getD_some]
                rw [hobj]
                rfl
              · rw [List.take_succ_cons, List.map_cons, hseqs, hseq2, List.range_succ_eq_map]
                simp only [List.map_cons, List.map_map, Nat.cast_zero, add_zero]
                congr 1
                apply List.map_congr_left
                intro j _
                simp only [Function.comp_apply, Nat.cast_succ]
                omega
    · rw [if_neg hie] at h
      cases h
      exact ⟨0, by simp, by simp, by simp⟩

end HttpHandler

/-! ## The claims -/

namespace SparseMerkleTree

theorem flag_children_right (x : String) : flagHasher.HashChildren x "1" = "1" := by
  unfold flagHasher
  simp

theorem flag_children_left (x : String) : flagHasher.HashChildren "1" x = "1" := by
  unfold flagHasher
  simp

theorem flag_fold_one (q : Path) (n : Nat) : foldPure flagHasher q "1" n = "1" := by
  induction n with
  | zero => rfl
  | succ n ih =>
    unfold foldPure
    rw [ih]
    split
    · exact flag_children_left _
    · exact flag_children_right _

theorem lastData_single (p q : Path) (d : String) (h : q ≠ p) : lastData [(p, d)] q = none := by
  have e : [(p, d)] = [] ++ [(p, d)] := rfl
  rw [e, lastData_append, if_neg (fun e => h e.symm)]
  rfl

theorem lastData_single_self (p : Path) (d : String) : lastData [(p, d)] p = some d := by
  have e : [(p, d)] = [] ++ [(p, d)] := rfl
  rw [e, lastData_append, if_pos rfl]

/-- A tree built later in the same process (the static null-hash cache already filled by
the same hasher) is the same object as the first one. -/
theorem fresh_again (hasher : TreeHasher) :
    (create hasher (create hasher none).2).1 = fresh hasher := rfl

/-- After a single `SetLeaf` on a path whose first bit is 0, `CurrentRoot` is the leaf hash
folded up all 256 levels with the null hashes. -/
theorem single_leaf_root_of_low_path (hasher : TreeHasher) (h32 : hasher.DigestSize = 32)
    (p : Path) (d : String) (hbit : p.nth_msb 0 = false) :
    rootAfter hasher [(p, d)] = .ok (foldPure hasher p (hasher.HashLeaf d) 256) := by
  rw [rootAfter_eq hasher h32]
  have hp1 : p.pre (256 - 255) = Path.zero := by
    show p.pre (0 + 1) = Path.zero
    rw [Path.pre_succ, hbit]
    exact Path.set_of_bit _ _ (Path.nth_msb_zero 0)
  have hsingle := refHash_single hasher (leafOf hasher (hashMap hasher [(p, d)])) p 255
    (by omega) (by
      intro q2 _ hne
      unfold leafOf hashMap
      rw [lastData_single _ _ _ hne]
      rfl)
  rw [hp1] at hsingle
  have hleaf : leafOf hasher (hashMap hasher [(p, d)]) p = hasher.HashLeaf d := by
    unfold leafOf hashMap
    rw [lastData_single_self]
    rfl
  unfold rootValue
  rw [hsingle, hleaf]
  have hb : p.nth_msb (255 - 255) = false := hbit
  conv => rhs; unfold foldPure
  rw [if_pos hb]

/-- After a single `SetLeaf` on a path whose first bit is 1, `CurrentRoot` is the root of
the empty tree: the leaf is not seen. -/
theorem single_leaf_root_of_high_path (hasher : TreeHasher) (h32 : hasher.DigestSize = 32)
    (p : Path) (d : String) (hbit : p.nth_msb 0 = true) :
    rootAfter hasher [(p, d)] = rootAfter hasher [] := by
  rw [rootAfter_eq hasher h32, rootAfter_eq hasher h32]
  have key : refHash hasher (leafOf hasher (hashMap hasher [(p, d)])) 255 Path.zero
      = refHash hasher (leafOf hasher (hashMap hasher [])) 255 Path.zero := by
    apply refHash_local hasher _ _ 255 Path.zero (by omega) (Path.zero_key _)
    intro q hq
    have hq0 : q.nth_msb 0 = false := by
      have := Path.bit_of_pre_succ q Path.zero 0 hq
      rw [Path.nth_msb_zero] at this
      exact this.symm
    have hne : q ≠ p := by
      apply Path.ne_of_bit_ne q p 0
      rw [hq0, hbit]
      simp
    unfold leafOf hashMap
    rw [lastData_single _ _ _ hne]
    rfl
  unfold rootValue
  rw [key]

/-- Claim C2 (the code at a failing input): after `SetLeaf(highPath, "x")` on a fresh tree
`CurrentRoot` returns the digest of the empty tree, while the reference root of the map
that holds "x" at that path is a different digest. -/
theorem C2_code_at_failing_input :
    rootAfter flagHasher [(highPath, "x")] = .ok "0" ∧
      rootAfter flagHasher [] = .ok "0" ∧
      referenceRoot flagHasher [(highPath, "x")] = "1" := by
  refine ⟨by decide!, by decide!, ?_⟩
  unfold referenceRoot refHash
  have hk : Path.zero.set_nth_msb (255 - 255) true = highPath.pre (256 - 255) := by decide
  rw [hk, refHash_single flagHasher _ highPath 255 (by omega)]
  · show flagHasher.HashChildren _
      (foldPure flagHasher highPath
        (flagHasher.HashLeaf ((lastData [(highPath, "x")] highPath).getD "")) 255) = "1"
    rw [lastData_single_self]
    have : flagHasher.HashLeaf ((some "x" : Option String).getD "") = "1" := by decide
    rw [this, flag_fold_one]
    exact flag_children_right _
  · intro q2 _ hne
    show flagHasher.HashLeaf ((lastData [(highPath, "x")] q2).getD "") = flagHasher.HashLeaf ""
    rw [lastData_single _ _ _ hne]
    rfl

/-- Claim C3: on every reachable tree state, `SetLeaf(p, d)` followed by `SetLeaf(p, d2)`
leaves exactly the state (levels, nodes, hashes, cleared caches, cleared root) that
`SetLeaf(p, d2)` alone leaves. -/
theorem C3_set_leaf_twice_same_state (hasher : TreeHasher) (h32 : hasher.DigestSize = 32)
    (t : SparseMerkleTree) (hr : Reachable hasher t) (p : Path) (d d2 : String) :
    ∃ t1 t2, SetLeaf hasher t p d = .ok t1 ∧ SetLeaf hasher t1 p d2 = .ok t2 ∧
      SetLeaf hasher t p d2 = .ok t2 := by
  obtain ⟨M, inv⟩ := hr.inv h32
  obtain ⟨t1, h1, _, _⟩ := SetLeaf_spec hasher h32 M t inv p d
  obtain ⟨t2, h2, _, _⟩ := SetLeaf_spec hasher h32 M t inv p d2
  exact ⟨t1, t2, h1, by rw [SetLeaf_twice hasher t t1 p d d2 h1]; exact h2, h2⟩

theorem C3_witness :
    ∃ t1 t2, SetLeaf flagHasher (fresh flagHasher) highPath "a" = .ok t1 ∧
      SetLeaf flagHasher t1 highPath "b" = .ok t2 ∧
      SetLeaf flagHasher (fresh flagHasher) highPath "b" = .ok t2 :=
  C3_set_leaf_twice_same_state flagHasher rfl (fresh flagHasher) Reachable.fresh highPath "a" "b"

/-- On the first tree of a process (the static pointer of `GetNullHashes` still unset),
with no leaves set and a digest width of 32 bytes, `CurrentRoot` returns
`HashChildren(n0, n0)` for `n0` the entry 0 of the vector of `GetNullHashes`, and that
value is the 256-fold self-hash chain of `HashLeaf("")`. -/
theorem empty_tree_root_first (hasher : TreeHasher) (h32 : hasher.DigestSize = 32) :
    ∃ n0 t2, (GetNullHashes hasher none).1.get? 0 = some n0 ∧
      CurrentRoot hasher (fresh hasher) = .ok (hasher.HashChildren n0 n0, t2) ∧
      hasher.HashChildren n0 n0 = nullChain hasher 256 := by
  obtain ⟨t2, h2, _, _⟩ := CurrentRoot_spec hasher h32 _ (fresh hasher) (fresh_inv hasher)
  have hn0 : (GetNullHashes hasher none).1.get? 0 = some (nullChain hasher 255) := by
    rw [GetNullHashes_none, computeNullHashes_get hasher 0 (by omega), h32]
  have hroot : rootValue hasher (fun _ => none)
      = hasher.HashChildren (nullChain hasher 255) (nullChain hasher 255) := by
    unfold rootValue
    rw [refHash_empty hasher (leafOf hasher (fun _ => none)) 255 Path.zero (by omega)
      (Path.zero_key _) (fun _ _ => rfl)]
  rw [hroot] at h2
  exact ⟨nullChain hasher 255, t2, hn0, h2, rfl⟩

/-- Claim C5 (the code at a failing input): for the path whose first bit is 1 and the data
"x", `CurrentRoot` after the single `SetLeaf` returns the digest of the empty tree, not
the fold of `HashLeaf("x")` with the null hashes that the claim describes. -/
theorem C5_code_at_failing_input :
    rootAfter flagHasher [(highPath, "x")] = .ok "0" ∧
      singleLeafFold flagHasher highPath "x" = "1" := by
  exact ⟨by decide!, by decide!⟩

end SparseMerkleTree

/-- Claim C6 (as stated, refuted at a concrete hasher): for the digest width 32 the vector
of `GetNullHashes` does not have `32 * 8 + 1` entries. -/
theorem C6_counterexample :
    ¬ ((GetNullHashes SparseMerkleTree.flagHasher none).1.length
        = SparseMerkleTree.flagHasher.DigestSize * 8 + 1) := by
  rw [GetNullHashes_none, computeNullHashes_length]
  have h32 : SparseMerkleTree.flagHasher.DigestSize = 32 := rfl
  rw [h32]
  omega

/-- Claim C6 (amended): for a hasher of digest width `W >= 1` bytes the vector built by
`GetNullHashes` has exactly `W*8` entries, its last entry (index `W*8 - 1`) is
`HashLeaf("")`, and every entry `d` with `d + 1 < W*8` is `HashChildren` of entry `d + 1`
with itself. -/
theorem C6_null_hashes_shape (hasher : TreeHasher) (hW : 1 ≤ hasher.DigestSize) :
    (GetNullHashes hasher none).1.length = hasher.DigestSize * 8 ∧
      (GetNullHashes hasher none).1.get? (hasher.DigestSize * 8 - 1)
        = some (hasher.HashLeaf "") ∧
      ∀ d, d + 1 < hasher.DigestSize * 8 →
        ∃ x, (GetNullHashes hasher none).1.get? (d + 1) = some x ∧
          (GetNullHashes hasher none).1.get? d = some (hasher.HashChildren x x) := by
  rw [GetNullHashes_none]
  refine ⟨?_, ?_, ?_⟩
  · rw [computeNullHashes_length]
    omega
  · rw [computeNullHashes_get hasher _ (Nat.le_refl _), Nat.sub_self]
    rfl
  · intro d hd
    refine ⟨nullChain hasher (hasher.DigestSize * 8 - 1 - (d + 1)), ?_, ?_⟩
    · exact computeNullHashes_get hasher (d + 1) (by omega)
    · rw [computeNullHashes_get hasher d (by omega)]
      have e : hasher.DigestSize * 8 - 1 - d = (hasher.DigestSize * 8 - 1 - (d + 1)) + 1 := by
        omega
      rw [e]
      rfl

theorem C6_witness :
    (GetNullHashes SparseMerkleTree.flagHasher none).1.length
        = SparseMerkleTree.flagHasher.DigestSize * 8 ∧
      (GetNullHashes SparseMerkleTree.flagHasher none).1.get?
          (SparseMerkleTree.flagHasher.DigestSize * 8 - 1)
        = some (SparseMerkleTree.flagHasher.HashLeaf "") ∧
      ∀ d, d + 1 < SparseMerkleTree.flagHasher.DigestSize * 8 →
        ∃ x, (GetNullHashes SparseMerkleTree.flagHasher none).1.get? (d + 1) = some x ∧
          (GetNullHashes SparseMerkleTree.flagHasher none).1.get? d
            = some (SparseMerkleTree.flagHasher.HashChildren x x) :=
  C6_null_hashes_shape SparseMerkleTree.flagHasher (by decide)

namespace SparseMerkleTree

/-- In every state reached from the first tree of a process, `CurrentRoot` returns the
digest it returns on the same node map with every memoised value dropped; a non-empty
`root_hash_` is that digest, and a non-empty hash cached on an INTERNAL node is what
`CalculateSubtreeHash` computes for that node once the caches are dropped. -/
theorem recomputation_on_cleared_caches (hasher : TreeHasher) (h32 : hasher.DigestSize = 32)
    (t : SparseMerkleTree) (hr : Reachable hasher t) :
    ∃ r t1 t2, CurrentRoot hasher t = .ok (r, t1) ∧
      CurrentRoot hasher (clearCaches t) = .ok (r, t2) ∧
      (t.root_hash_ ≠ "" → t.root_hash_ = r) ∧
      ∀ d k node, levelAt t.tree_ d k = some node → node.type_ = NodeType.INTERNAL →
        node.hash_ ≠ "" →
        ∃ t3, CalculateSubtreeHash hasher ((clearCaches t).tree_.length + 1) (clearCaches t) d k
          = .ok (node.hash_, t3) := by
  obtain ⟨M, inv⟩ := hr.inv h32
  obtain ⟨t1, h1, _, _⟩ := CurrentRoot_spec hasher h32 M t inv
  obtain ⟨t2, h2, _, _⟩ := CurrentRoot_spec hasher h32 M (clearCaches t) (clearCaches_inv inv)
  refine ⟨_, t1, t2, h1, h2, inv.root, ?_⟩
  intro d k node hn hi hne
  have hd := inv.wf.internal d k node hn hi
  have anc : AncInternal t.tree_ d k := fun e he =>
    inv.wf.ancestor (d - e) d k node hn e (by omega) (by omega)
  obtain ⟨t3, h3, _, _, _⟩ := CalculateSubtreeHash_spec hasher h32 M
    ((clearCaches t).tree_.length + 1) (clearCaches t) d k (clearCaches_inv inv) (by omega)
    (by omega) (by omega) (inv.wf.key d k node hn) ((clearCaches_sameSkel t).anc anc)
  exact ⟨t3, by rw [h3, inv.cache d k node hn hi hne]⟩

/-- With a digest width of 32 bytes, in every state reached from the first tree of a
process no call reaches a fatal branch: every `SetLeaf` returns (the depth check of the
collision branch holds, both `emplace` calls insert, the loop does not fall through), and
`CurrentRoot` returns, so `CalculateSubtreeHash` does not read the null-hash vector out of
range. -/
theorem no_fatal_branch_first (hasher : TreeHasher) (h32 : hasher.DigestSize = 32)
    (t : SparseMerkleTree) (hr : Reachable hasher t) :
    (∀ p d, ∃ t2, SetLeaf hasher t p d = .ok t2) ∧
      ∃ r t2, CurrentRoot hasher t = .ok (r, t2) := by
  obtain ⟨M, inv⟩ := hr.inv h32
  constructor
  · intro p d
    obtain ⟨t2, h2, _, _⟩ := SetLeaf_spec hasher h32 M t inv p d
    exact ⟨t2, h2⟩
  · obtain ⟨t2, h2, _, _⟩ := CurrentRoot_spec hasher h32 M t inv
    exact ⟨_, t2, h2⟩

end SparseMerkleTree

namespace HttpHandler

/-- Claim C9: `AddEntryReply` answers status OK or ALREADY_EXISTS with HTTP 200 and the
JSON object built from the SCT (sct_version 0, id, timestamp, extensions "", signature),
the same in both cases; RESOURCE_EXHAUSTED with HTTP 503 and the status's message; any
other status with HTTP 400 and the status's message. -/
theorem C9_add_entry_reply_mapping (add_status : util.Status)
    (sct : SignedCertificateTimestamp) :
    ((add_status.code = util.Code.OK ∨ add_status.code = util.Code.ALREADY_EXISTS) →
        AddEntryReply add_status sct
          = [Reply.SendJsonReply 200
              [("sct_version", JsonValue.int 0), ("id", JsonValue.base64 sct.key_id),
               ("timestamp", JsonValue.int sct.timestamp), ("extensions", JsonValue.str ""),
               ("signature", JsonValue.signature sct.signature)]]) ∧
      (add_status.code = util.Code.RESOURCE_EXHAUSTED →
        AddEntryReply add_status sct = [Reply.SendError 503 add_status.error_message]) ∧
      (add_status.code ≠ util.Code.OK → add_status.code ≠ util.Code.ALREADY_EXISTS →
        add_status.code ≠ util.Code.RESOURCE_EXHAUSTED →
        AddEntryReply add_status sct = [Reply.SendError 400 add_status.error_message]) := by
  refine ⟨?_, ?_, ?_⟩
  · rintro (h | h) <;>
      simp [AddEntryReply, util.Status.ok, util.Status.CanonicalCode, h, HTTP_OK]
  · intro h
    simp [AddEntryReply, util.Status.ok, util.Status.CanonicalCode, h, HTTP_SERVUNAVAIL]
  · intro h1 h2 h3
    simp [AddEntryReply, util.Status.ok, util.Status.CanonicalCode, h1, h2, h3, HTTP_BADREQUEST]

theorem entriesLoop_error (include_scts : Bool) (end_ : Int) :
    ∀ (it : List LoggedEntry) (i : Int) (acc : List JsonValue) (sent : List Reply),
      entriesLoop include_scts end_ it i acc = .error sent →
      sent = [Reply.SendError HTTP_INTERNAL "Serialization failed."] := by
  intro it
  induction it with
  | nil =>
    intro i acc sent h
    unfold entriesLoop at h
    cases h
  | cons entry it ih =>
    intro i acc sent h
    unfold entriesLoop at h
    split at h
    · split at h
      · cases h
      · split at h
        · exact ih _ _ _ h
        · cases h
          rfl
    · cases h

/-- Claim C10: for every scan result and every signed 64-bit start and end (end below the
largest value, so that the loop counter cannot overflow), a 200 reply of get-entries
carries the first `k >= 1` entries of the scan, and their sequence numbers are exactly
`start, start + 1, ..., start + k - 1` in that order. -/
theorem C10_get_entries_contiguous (ScanEntries : Int → List LoggedEntry) (start end_ : Int)
    (include_scts : Bool) (body : JsonObject) (hstart : -(2 ^ 63) ≤ start)
    (hend : end_ < 2 ^ 63 - 1)
    (h200 : Reply.SendJsonReply HTTP_OK body
      ∈ BlockingGetEntries ScanEntries start end_ include_scts) :
    ∃ k, 1 ≤ k ∧ k ≤ (ScanEntries start).length ∧
      body = [("entries",
        JsonValue.array (((ScanEntries start).take k).map (entryObject include_scts)))] ∧
      ((ScanEntries start).take k).map LoggedEntry.sequence_number
        = (List.range k).map (fun (j : Nat) => start + (j : Int)) := by
  unfold BlockingGetEntries at h200
  cases hloop : entriesLoop include_scts end_ (ScanEntries start) start [] with
  | error sent =>
    rw [hloop] at h200
    simp only at h200
    rw [entriesLoop_error include_scts end_ _ _ _ sent hloop] at h200
    simp at h200
  | ok out =>
    rw [hloop] at h200
    simp only at h200
    obtain ⟨k, hk, hout, hseq⟩ :=
      entriesLoop_ok include_scts end_ hend (ScanEntries start) start [] out hstart hloop
    rw [List.nil_append] at hout
    by_cases hlen : out.length < 1
    · rw [if_pos hlen] at h200
      simp at h200
    · rw [if_neg hlen] at h200
      simp only [List.mem_singleton, Reply.SendJsonReply.injEq, true_and] at h200
      refine ⟨k, ?_, hk, by rw [h200, hout], hseq⟩
      by_contra hk0
      have : k = 0 := by omega
      rw [this] at hout
      rw [hout] at hlen
      simp at hlen

theorem C10_witness :
    ∃ k, 1 ≤ k ∧
      k ≤ ((fun _ => [⟨5, some "a", some "b", none⟩, ⟨6, some "c", some "d", none⟩,
          ⟨9, some "e", some "f", none⟩] : Int → List LoggedEntry) 5).length ∧
      [("entries", JsonValue.array
          [entryObject false ⟨5, some "a", some "b", none⟩,
           entryObject false ⟨6, some "c", some "d", none⟩])]
        = [("entries", JsonValue.array
            ((((fun _ => [⟨5, some "a", some "b", none⟩, ⟨6, some "c", some "d", none⟩,
              ⟨9, some "e", some "f", none⟩] : Int → List LoggedEntry) 5).take k).map
                (entryObject false)))] ∧
      (((fun _ => [⟨5, some "a", some "b", none⟩, ⟨6, some "c", some "d", none⟩,
          ⟨9, some "e", some "f", none⟩] : Int → List LoggedEntry) 5).take k).map
            LoggedEntry.sequence_number
        = (List.range k).map (fun (j : Nat) => (5 : Int) + (j : Int)) :=
  C10_get_entries_contiguous
    (fun _ => [⟨5, some "a", some "b", none⟩, ⟨6, some "c", some "d", none⟩,
      ⟨9, some "e", some "f", none⟩]) 5 100 false _ (by decide) (by decide)
    (List.mem_singleton.2 rfl)

end HttpHandler

namespace HttpHandler

theorem contiguousRun_cons_eq (i : Int) (entry : LoggedEntry) (it : List LoggedEntry)
    (h : entry.sequence_number = i) :
    contiguousRun i (entry :: it) = entry :: contiguousRun (i + 1) it := by
  simp [contiguousRun, h]

theorem contiguousRun_cons_ne (i : Int) (entry : LoggedEntry) (it : List LoggedEntry)
    (h : entry.sequence_number ≠ i) :
    contiguousRun i (entry :: it) = [] := by
  simp [contiguousRun, h]

/-- When every entry of the scan serialises, the loop of `BlockingGetEntries` appends the
objects of the longest run counting up from `i`, cut to `end_ - i + 1` entries. -/
theorem entriesLoop_run (include_scts : Bool) (end_ : Int) (hend : end_ < 2 ^ 63 - 1) :
    ∀ (it : List LoggedEntry) (i : Int) (acc : List JsonValue), -(2 ^ 63) ≤ i →
      (∀ x ∈ it, x.leaf_input ≠ none ∧ x.extra_data ≠ none ∧
        (include_scts = true → x.sct_data ≠ none)) →
      entriesLoop include_scts end_ it i acc =
        .ok (acc ++ ((contiguousRun i it).take (end_ - i + 1).toNat).map
          (entryObject include_scts)) := by
  intro it
  induction it with
  | nil =>
    intro i acc _ _
    unfold entriesLoop
    simp [contiguousRun]
  | cons entry it ih =>
    intro i acc hi hser
    unfold entriesLoop
    by_cases hie : i ≤ end_
    · rw [if_pos hie]
      by_cases hseq : entry.sequence_number = i
      · rw [if_neg (not_not.2 hseq)]
        obtain ⟨h1, h2, h3⟩ := hser entry (List.mem_cons_self _ _)
        obtain ⟨leaf_input, hl⟩ := Option.ne_none_iff_exists'.1 h1
        obtain ⟨extra_data, he⟩ := Option.ne_none_iff_exists'.1 h2
        have hs : ∃ sct_data, (if include_scts then entry.sct_data else some "")
            = some sct_data := by
          cases include_scts
          · exact ⟨"", rfl⟩
          · obtain ⟨s, hs⟩ := Option.ne_none_iff_exists'.1 (h3 rfl)
            exact ⟨s, by simp [hs]⟩
        obtain ⟨sct_data, hs⟩ := hs
        simp only [hl, he, hs]
        rw [wrap64_id (i + 1) (by omega) (by omega),
          ih (i + 1) _ (by omega) (fun x hx => hser x (List.mem_cons_of_mem _ hx)),
          contiguousRun_cons_eq i entry it hseq]
        have hn : (end_ - i + 1).toNat = (end_ - (i + 1) + 1).toNat + 1 := by omega
        rw [hn, List.take_succ_cons, List.map_cons, List.append_assoc]
        have hobj : JsonValue.object (entryJson include_scts leaf_input extra_data sct_data)
            = entryObject include_scts entry := by
          unfold entryObject
          rw [hl, he]
          cases include_scts
          · simp only [Bool.false_eq_true, if_false, Option.some.injEq] at hs
            simp only [Bool.false_eq_true, if_false, Option.getD_some, hs]
          · simp only [if_true] at hs
            simp only [if_true, hs, Option.getD_some]
        rw [hobj]
        rfl
      · rw [if_pos hseq, contiguousRun_cons_ne i entry it hseq]
        simp
    · rw [if_neg hie]
      have hn : (end_ - i + 1).toNat = 0 := by omega
      rw [hn]
      simp

/-- A scan whose entries carry the sequence numbers `s, s + 1, ...` is its own longest
run from `s`. -/
theorem contiguousRun_range (f : Nat → LoggedEntry) (hf : ∀ i, (f i).sequence_number = (i : Int)) :
    ∀ (n s : Nat), contiguousRun (s : Int) ((List.range' s n).map f) = (List.range' s n).map f := by
  intro n
  induction n with
  | zero => intro s; simp [contiguousRun]
  | succ n ih =>
    intro s
    rw [List.range'_succ, List.map_cons, contiguousRun_cons_eq _ _ _ (hf s)]
    have := ih (s + 1)
    rw [Nat.cast_succ] at this
    rw [this]

theorem exampleHandler_db (n : Nat) :
    (exampleHandler n).db_ 0 = (List.range' 0 n).map (fun (i : Nat) =>
      ({ sequence_number := (i : Int), leaf_input := some "leaf", extra_data := some "extra",
         sct_data := none } : LoggedEntry)) := by
  simp [exampleHandler, List.range_eq_range']

theorem exampleHandler_run (n : Nat) :
    contiguousRun 0 ((exampleHandler n).db_ 0) = (exampleHandler n).db_ 0 := by
  rw [exampleHandler_db]
  exact contiguousRun_range _ (fun _ => rfl) n 0

theorem exampleHandler_length (n : Nat) : ((exampleHandler n).db_ 0).length = n := by
  rw [exampleHandler_db]
  simp

theorem exampleHandler_serialises (n : Nat) :
    ∀ x ∈ (exampleHandler n).db_ 0, x.leaf_input ≠ none ∧ x.extra_data ≠ none ∧
      (false = true → x.sct_data ≠ none) := by
  intro x hx
  rw [exampleHandler_db] at hx
  obtain ⟨i, _, rfl⟩ := List.mem_map.1 hx
  simp

/-- The reply of `BlockingGetEntries` when every entry of the scan serialises. -/
theorem BlockingGetEntries_run (ScanEntries : Int → List LoggedEntry) (start end_ : Int)
    (include_scts : Bool) (hstart : -(2 ^ 63) ≤ start) (hend : end_ < 2 ^ 63 - 1)
    (hser : ∀ x ∈ ScanEntries start, x.leaf_input ≠ none ∧ x.extra_data ≠ none ∧
      (include_scts = true → x.sct_data ≠ none)) :
    BlockingGetEntries ScanEntries start end_ include_scts =
      if ((contiguousRun start (ScanEntries start)).take (end_ - start + 1).toNat).length < 1
      then [Reply.SendError HTTP_BADREQUEST "Entry not found."]
      else [Reply.SendJsonReply HTTP_OK [("entries", JsonValue.array
        (((contiguousRun start (ScanEntries start)).take (end_ - start + 1).toNat).map
          (entryObject include_scts)))]] := by
  unfold BlockingGetEntries
  rw [entriesLoop_run include_scts end_ hend (ScanEntries start) start [] hstart hser]
  simp only [List.nil_append, List.length_map]

end HttpHandler

namespace CertificateHttpHandler

theorem ExtractChainLoop_loads (lib : Library) :
    ∀ (pre rest : List JsonDoc) (chain : List String),
      (∀ y ∈ pre, itemLoads lib y = true) →
      ExtractChainLoop lib (pre ++ rest) chain
        = ExtractChainLoop lib rest (chain ++ pre.map (itemDer lib)) := by
  intro pre
  induction pre with
  | nil => intro rest chain _; simp
  | cons y pre ih =>
    intro rest chain h
    have hy := h y (List.mem_cons_self _ _)
    cases y with
    | string s =>
      simp only [itemLoads, isJsonString, itemDer, Bool.true_and] at hy
      rw [List.cons_append, ExtractChainLoop]
      simp only [hy, Bool.not_true, Bool.false_eq_true, if_false]
      rw [ih rest _ (fun z hz => h z (List.mem_cons_of_mem _ hz))]
      simp [itemDer]
    | null => simp [itemLoads, isJsonString] at hy
    | boolean b => simp [itemLoads, isJsonString] at hy
    | number t => simp [itemLoads, isJsonString] at hy
    | array a => simp [itemLoads, isJsonString] at hy
    | object o => simp [itemLoads, isJsonString] at hy

theorem ExtractChainLoop_not_string (lib : Library) (x : JsonDoc) (rest : List JsonDoc)
    (chain : List String) (hx : isJsonString x = false) :
    ExtractChainLoop lib (x :: rest) chain
      = (false, [Reply.SendError HTTP_BADREQUEST "Unable to parse provided JSON."], chain) := by
  cases x with
  | string s => simp [isJsonString] at hx
  | null => rfl
  | boolean b => rfl
  | number t => rfl
  | array a => rfl
  | object o => rfl

theorem ExtractChainLoop_not_loaded (lib : Library) (x : JsonDoc) (rest : List JsonDoc)
    (chain : List String) (hx : isJsonString x = true)
    (hl : lib.IsLoaded (itemDer lib x) = false) :
    ExtractChainLoop lib (x :: rest) chain
      = (false, [Reply.SendError HTTP_BADREQUEST "Unable to parse provided chain."], chain) := by
  cases x with
  | string s =>
    simp only [itemDer] at hl
    rw [ExtractChainLoop]
    simp [hl]
  | null => simp [isJsonString] at hx
  | boolean b => simp [isJsonString] at hx
  | number t => simp [isJsonString] at hx
  | array a => simp [isJsonString] at hx
  | object o => simp [isJsonString] at hx

/-- The checks of `ExtractChain` on the body of a POST request. -/
theorem ExtractChain_post (lib : Library) (req : Request)
    (hpost : req.command = evhttp_cmd_type.EVHTTP_REQ_POST) :
    ExtractChain lib req =
      match req.body.bind (JsonDoc.arrayMember "chain") with
      | none => (false, [Reply.SendError HTTP_BADREQUEST "Unable to parse provided JSON."], [])
      | some json_chain => ExtractChainLoop lib json_chain [] := by
  unfold ExtractChain
  simp only [hpost, ne_eq, not_true_eq_false, if_false]
  cases hb : req.body with
  | none => rfl
  | some d =>
    cases d with
    | object members =>
      simp only [Option.some_bind]
    | null => rfl
    | boolean b => rfl
    | number t => rfl
    | string s => rfl
    | array a => rfl

theorem AddChain_false (lib : Library) (req : Request) (sent : Reply) (chain : List String)
    (h : ExtractChain lib req = (false, [sent], chain)) :
    AddChain lib req = [Call.Send sent] := by
  simp [AddChain, h]

theorem AddPreChain_false (lib : Library) (req : Request) (sent : Reply) (chain : List String)
    (h : ExtractChain lib req = (false, [sent], chain)) :
    AddPreChain lib req = [Call.Send sent] := by
  simp [AddPreChain, h]

end CertificateHttpHandler

namespace HttpHandler

theorem lookup_mem {β : Type} : ∀ (l : List (String × β)) (k : String) (v : β),
    l.lookup k = some v → (k, v) ∈ l := by
  intro l
  induction l with
  | nil => intro k v h; simp [List.lookup] at h
  | cons a l ih =>
    intro k v h
    obtain ⟨a1, a2⟩ := a
    by_cases hk : k = a1
    · subst hk
      simp [List.lookup] at h
      subst h
      exact List.mem_cons_self _ _
    · have hb : (k == a1) = false := by simpa using hk
      simp only [List.lookup, hb] at h
      exact List.mem_cons_of_mem _ (ih k v h)

/-- The callback that `AddProxyWrappedHandler` binds to a path. -/
theorem AddProxyWrappedHandler_eq (server : HttpServer) (path : String)
    (local_handler : BoundCallback) (h : server.any (fun e => e.1 == path) = false) :
    AddProxyWrappedHandler server path local_handler
      = some (server ++ [(path, fun this =>
          ProxyInterceptor this (StatsHandlerInterceptor path (local_handler this)))]) := by
  simp [AddProxyWrappedHandler, HttpServer.AddHandler, h]

/-- The dispatch table `Add` fills, starting from the empty one. -/
theorem Add_eq (flags : Flags) (lib : Library) (this : CertificateHttpHandler) :
    Add flags lib this [] = some (
      [("/ct/v1/get-entries", fun this =>
          ProxyInterceptor this (StatsHandlerInterceptor "/ct/v1/get-entries"
            (GetEntries flags this))),
       ("/ct/v1/get-proof-by-hash", fun this =>
          ProxyInterceptor this (StatsHandlerInterceptor "/ct/v1/get-proof-by-hash"
            (GetProof lib this))),
       ("/ct/v1/get-sth", fun this =>
          ProxyInterceptor this (StatsHandlerInterceptor "/ct/v1/get-sth" (GetSTH this))),
       ("/ct/v1/get-sth-consistency", fun this =>
          ProxyInterceptor this (StatsHandlerInterceptor "/ct/v1/get-sth-consistency"
            (GetConsistency this)))]
      ++ (if this.cert_checker_.isSome then
            [("/ct/v1/get-roots", fun this =>
              ProxyInterceptor this (StatsHandlerInterceptor "/ct/v1/get-roots"
                (fun req => (CertificateHttpHandler.GetRoots this req).getD [])))]
          else [])
      ++ (if this.frontend_.isSome then
            [("/ct/v1/add-chain", fun this =>
              ProxyInterceptor this (StatsHandlerInterceptor "/ct/v1/add-chain"
                (CertificateHttpHandler.AddChain lib))),
             ("/ct/v1/add-pre-chain", fun this =>
              ProxyInterceptor this (StatsHandlerInterceptor "/ct/v1/add-pre-chain"
                (CertificateHttpHandler.AddPreChain lib)))]
          else [])) := by
  unfold Add CertificateHttpHandler.AddHandlers
  cases hc : this.cert_checker_ <;> cases hf : this.frontend_ <;>
    simp only [Option.isSome, Bool.false_eq_true, if_false, if_true] <;> rfl

/-- Every callback in the table that `Add` fills hands the request to the proxy when the
node is stale. -/
theorem Add_stale (flags : Flags) (lib : Library) (this : CertificateHttpHandler)
    (server : HttpServer) (h : Add flags lib this [] = some server)
    (that : CertificateHttpHandler) (req : Request) (hs : that.node_is_stale_ = true) :
    ∀ e ∈ server, e.2 that req = [Call.PoolAdd (PoolTask.ProxyRequest req)] := by
  rw [Add_eq] at h
  cases h
  cases hc : this.cert_checker_ <;> cases hf : this.frontend_ <;>
    simp [ProxyInterceptor, IsNodeStale, hs]

end HttpHandler

namespace CertificateHttpHandler

theorem ExtractChainLoop_error (lib : Library) :
    ∀ (items : List JsonDoc) (chain : List String),
      (ExtractChainLoop lib items chain).1 = false →
      ∃ message chain2, ExtractChainLoop lib items chain
        = (false, [Reply.SendError HTTP_BADREQUEST message], chain2) := by
  intro items
  induction items with
  | nil => intro chain h; simp [ExtractChainLoop] at h
  | cons x items ih =>
    intro chain h
    by_cases hx : isJsonString x = true
    · by_cases hl : lib.IsLoaded (itemDer lib x) = true
      · have hload : itemLoads lib x = true := by simp [itemLoads, hx, hl]
        have hstep := ExtractChainLoop_loads lib [x] items chain
          (fun y hy => by rw [List.mem_singleton.1 hy]; exact hload)
        rw [List.singleton_append] at hstep
        rw [hstep] at h ⊢
        exact ih _ h
      · exact ⟨_, chain, ExtractChainLoop_not_loaded lib x items chain hx
          (by simpa using hl)⟩
    · exact ⟨_, chain, ExtractChainLoop_not_string lib x items chain (by simpa using hx)⟩

/-- A POST request from which `ExtractChain` extracts no chain gets a single 400. -/
theorem ExtractChain_error (lib : Library) (req : Request)
    (hpost : req.command = evhttp_cmd_type.EVHTTP_REQ_POST)
    (h : (ExtractChain lib req).1 = false) :
    ∃ message chain, ExtractChain lib req
      = (false, [Reply.SendError HTTP_BADREQUEST message], chain) := by
  rw [ExtractChain_post lib req hpost] at h ⊢
  cases hb : req.body.bind (JsonDoc.arrayMember "chain") with
  | none => exact ⟨_, [], rfl⟩
  | some items =>
    rw [hb] at h
    exact ExtractChainLoop_error lib items [] h

end CertificateHttpHandler

namespace HttpHandler

/-- On a node that is not stale, a path bound to the wrapped local handler runs the local
handler inside the latency scope of the path. -/
theorem serve_fresh (flags : Flags) (lib : Library) (this : CertificateHttpHandler)
    (req : Request) (hs : this.node_is_stale_ = false) (path : String)
    (local_handler : BoundCallback)
    (hl : (Add flags lib this []).bind (fun server => server.lookup path)
      = some (fun that =>
          ProxyInterceptor that (StatsHandlerInterceptor path (local_handler that)))) :
    serve flags lib this path req
      = some ([Call.ScopedLatencyBegin path] ++ local_handler this req
          ++ [Call.ScopedLatencyEnd path]) := by
  unfold serve
  cases hadd : Add flags lib this [] with
  | none => rw [hadd] at hl; cases hl
  | some server =>
    rw [hadd] at hl
    simp only [Option.some_bind] at hl ⊢
    simp [dispatch, hl, ProxyInterceptor, IsNodeStale, hs, StatsHandlerInterceptor]

theorem serve_lookup_entries (flags : Flags) (lib : Library) (this : CertificateHttpHandler) :
    (Add flags lib this []).bind (fun server => server.lookup "/ct/v1/get-entries")
      = some (fun that => ProxyInterceptor that
          (StatsHandlerInterceptor "/ct/v1/get-entries" (GetEntries flags that))) := by
  rw [Add_eq]
  rfl

theorem serve_lookup_proof (flags : Flags) (lib : Library) (this : CertificateHttpHandler) :
    (Add flags lib this []).bind (fun server => server.lookup "/ct/v1/get-proof-by-hash")
      = some (fun that => ProxyInterceptor that
          (StatsHandlerInterceptor "/ct/v1/get-proof-by-hash" (GetProof lib that))) := by
  rw [Add_eq]
  rfl

theorem serve_lookup_sth (flags : Flags) (lib : Library) (this : CertificateHttpHandler) :
    (Add flags lib this []).bind (fun server => server.lookup "/ct/v1/get-sth")
      = some (fun that => ProxyInterceptor that
          (StatsHandlerInterceptor "/ct/v1/get-sth" (GetSTH that))) := by
  rw [Add_eq]
  rfl

theorem serve_lookup_consistency (flags : Flags) (lib : Library)
    (this : CertificateHttpHandler) :
    (Add flags lib this []).bind (fun server => server.lookup "/ct/v1/get-sth-consistency")
      = some (fun that => ProxyInterceptor that
          (StatsHandlerInterceptor "/ct/v1/get-sth-consistency" (GetConsistency that))) := by
  rw [Add_eq]
  rfl

theorem serve_lookup_roots (flags : Flags) (lib : Library) (this : CertificateHttpHandler)
    (c : CertChecker) (hc : this.cert_checker_ = some c) :
    (Add flags lib this []).bind (fun server => server.lookup "/ct/v1/get-roots")
      = some (fun that => ProxyInterceptor that
          (StatsHandlerInterceptor "/ct/v1/get-roots"
            (fun req => (CertificateHttpHandler.GetRoots that req).getD []))) := by
  rw [Add_eq, hc]
  rfl

theorem serve_lookup_add_chain (flags : Flags) (lib : Library)
    (this : CertificateHttpHandler) (u : Unit) (hf : this.frontend_ = some u) :
    (Add flags lib this []).bind (fun server => server.lookup "/ct/v1/add-chain")
      = some (fun that => ProxyInterceptor that
          (StatsHandlerInterceptor "/ct/v1/add-chain" (CertificateHttpHandler.AddChain lib))) := by
  rw [Add_eq, hf]
  cases hc : this.cert_checker_ <;> rfl

theorem serve_lookup_add_pre_chain (flags : Flags) (lib : Library)
    (this : CertificateHttpHandler) (u : Unit) (hf : this.frontend_ = some u) :
    (Add flags lib this []).bind (fun server => server.lookup "/ct/v1/add-pre-chain")
      = some (fun that => ProxyInterceptor that
          (StatsHandlerInterceptor "/ct/v1/add-pre-chain"
            (CertificateHttpHandler.AddPreChain lib))) := by
  rw [Add_eq, hf]
  cases hc : this.cert_checker_ <;> rfl

end HttpHandler

namespace HttpHandler

/-- Claim C11 (the code at a failing input): with the default flag value 1000, a get-entries
request for `start=0`, `end=5000` against a log holding the entries `0 .. 1999` is answered
with the 1001 entries `0 .. 1000`, one more than `max_leaf_entries_per_response`. -/
theorem C11_code_at_failing_input :
    GetEntries FLAGS_default (exampleHandler 2000)
        (exampleRequest evhttp_cmd_type.EVHTTP_REQ_GET "start" "end" 0 5000)
      = [Call.ScanEntries 0,
         Call.Send (Reply.SendJsonReply HTTP_OK [("entries", JsonValue.array
          ((((exampleHandler 2000).db_ 0).take 1001).map (entryObject false)))])] ∧
    ((((exampleHandler 2000).db_ 0).take 1001).map (entryObject false)).length = 1001 ∧
    ¬ ((1001 : Int) ≤ FLAGS_default.max_leaf_entries_per_response) := by
  refine ⟨?_, ?_, by decide⟩
  · have hcl : GetEntries FLAGS_default (exampleHandler 2000)
          (exampleRequest evhttp_cmd_type.EVHTTP_REQ_GET "start" "end" 0 5000)
        = BlockingGetEntriesCalls (exampleHandler 2000) 0 1000 false := by
      simp [GetEntries, exampleRequest, FLAGS_default, wrap64]
    rw [hcl, BlockingGetEntriesCalls,
      BlockingGetEntries_run _ 0 1000 false (by decide) (by decide)
        (exampleHandler_serialises 2000),
      exampleHandler_run]
    have hlen : ¬ ((((exampleHandler 2000).db_ 0).take (1000 - 0 + 1 : Int).toNat).length < 1) := by
      rw [List.length_take, exampleHandler_length]
      decide
    rw [if_neg hlen]
    rfl
  · rw [List.length_map, List.length_take, exampleHandler_length]
    rfl

/-- Claim C12: when every entry of the scan opened at an accepted `start` serialises,
get-entries with the clamped end `e` (at least `start`, below the largest 64-bit value)
opens the scan and replies with the longest run of the scan whose `j`-th entry has sequence
number `start + j`, cut to `e - start + 1` entries: HTTP 400 "Entry not found." when that
run is empty, which happens exactly when the scan is empty or its first entry does not
carry `start`, and HTTP 200 with the run otherwise. -/
theorem C12_get_entries_longest_run (this : CertificateHttpHandler) (start e : Int)
    (include_scts : Bool) (hstart : 0 ≤ start) (hle : start ≤ e) (he : e < 2 ^ 63 - 1)
    (hser : ∀ x ∈ this.db_ start, x.leaf_input ≠ none ∧ x.extra_data ≠ none ∧
      (include_scts = true → x.sct_data ≠ none)) :
    (((contiguousRun start (this.db_ start)).take (e - start + 1).toNat = []) ↔
      (this.db_ start = [] ∨
        ∃ x rest, this.db_ start = x :: rest ∧ x.sequence_number ≠ start)) ∧
    ((contiguousRun start (this.db_ start)).take (e - start + 1).toNat = [] →
      BlockingGetEntriesCalls this start e include_scts =
        [Call.ScanEntries start,
         Call.Send (Reply.SendError HTTP_BADREQUEST "Entry not found.")]) ∧
    ((contiguousRun start (this.db_ start)).take (e - start + 1).toNat ≠ [] →
      BlockingGetEntriesCalls this start e include_scts =
        [Call.ScanEntries start,
         Call.Send (Reply.SendJsonReply HTTP_OK [("entries", JsonValue.array
          (((contiguousRun start (this.db_ start)).take (e - start + 1).toNat).map
            (entryObject include_scts)))])]) := by
  have hrun := BlockingGetEntries_run this.db_ start e include_scts (by omega) he hser
  have hn : (e - start + 1).toNat = (e - start).toNat + 1 := by omega
  refine ⟨?_, ?_, ?_⟩
  · rw [hn]
    cases hdb : this.db_ start with
    | nil => simp [contiguousRun]
    | cons x rest =>
      by_cases hx : x.sequence_number = start
      · rw [contiguousRun_cons_eq _ _ _ hx]
        simp [hx]
      · rw [contiguousRun_cons_ne _ _ _ hx]
        simp [hx]
  · intro hnil
    rw [BlockingGetEntriesCalls, hrun, hnil]
    rfl
  · intro hne
    rw [BlockingGetEntriesCalls, hrun, if_neg]
    · rfl
    · intro hlt
      exact hne (List.length_eq_zero.1 (by omega))

/-- Claim C12 at the scenario of the specification: `start=0`, `end=10000`, a log holding
the entries `0 .. 499` and the default flag value 1000 give the scan and a 200 reply that
carries the 500 entries of the log. -/
theorem C12_witness :
    GetEntries FLAGS_default (exampleHandler 500)
        (exampleRequest evhttp_cmd_type.EVHTTP_REQ_GET "start" "end" 0 10000)
      = [Call.ScanEntries 0,
         Call.Send (Reply.SendJsonReply HTTP_OK [("entries", JsonValue.array
          (((exampleHandler 500).db_ 0).map (entryObject false)))])] ∧
    ((exampleHandler 500).db_ 0).map LoggedEntry.sequence_number
      = (List.range 500).map (fun (i : Nat) => (i : Int)) := by
  have hcl : GetEntries FLAGS_default (exampleHandler 500)
        (exampleRequest evhttp_cmd_type.EVHTTP_REQ_GET "start" "end" 0 10000)
      = BlockingGetEntriesCalls (exampleHandler 500) 0 1000 false := by
    simp [GetEntries, exampleRequest, FLAGS_default, wrap64]
  have htake : (contiguousRun 0 ((exampleHandler 500).db_ 0)).take (1000 - 0 + 1 : Int).toNat
      = (exampleHandler 500).db_ 0 := by
    rw [exampleHandler_run]
    apply List.take_of_length_le
    rw [exampleHandler_length]
    decide
  have hne : (contiguousRun 0 ((exampleHandler 500).db_ 0)).take (1000 - 0 + 1 : Int).toNat
      ≠ [] := by
    rw [htake]
    intro h
    have := exampleHandler_length 500
    rw [h] at this
    exact absurd this (by decide)
  refine ⟨?_, ?_⟩
  · rw [hcl, (C12_get_entries_longest_run (exampleHandler 500) 0 1000 false (by decide)
      (by decide) (by decide) (exampleHandler_serialises 500)).2.2 hne, htake]
  · rw [exampleHandler_db, List.map_map, List.range_eq_range']
    rfl

/-- Claim C13: for a GET request to get-entries (parameters `start`, `end`) and to
get-sth-consistency (parameters `first`, `second`): a negative lower parameter gives the
single call HTTP 400 naming the lower parameter; otherwise an upper parameter below the
lower one gives the single call HTTP 400 naming the upper parameter; and whenever the
database scan resp. `ConsistencyProof` is called, it is called at the parsed parameters,
which satisfy `0 <= lo <= hi`. -/
theorem C13_range_parameters_validated (flags : Flags) (this : CertificateHttpHandler)
    (req : Request) (hget : req.command = evhttp_cmd_type.EVHTTP_REQ_GET) :
    (req.query.GetIntParam "start" < 0 →
      GetEntries flags this req = [Call.Send (Reply.SendError HTTP_BADREQUEST
        "Missing or invalid \"start\" parameter.")]) ∧
    (0 ≤ req.query.GetIntParam "start" →
      req.query.GetIntParam "end" < req.query.GetIntParam "start" →
      GetEntries flags this req = [Call.Send (Reply.SendError HTTP_BADREQUEST
        "Missing or invalid \"end\" parameter.")]) ∧
    (∀ s, Call.ScanEntries s ∈ GetEntries flags this req →
      s = req.query.GetIntParam "start" ∧ 0 ≤ req.query.GetIntParam "start" ∧
        req.query.GetIntParam "start" ≤ req.query.GetIntParam "end") ∧
    (∀ a b, Call.ConsistencyProof a b ∉ GetEntries flags this req) ∧
    (req.query.GetIntParam "first" < 0 →
      GetConsistency this req = [Call.Send (Reply.SendError HTTP_BADREQUEST
        "Missing or invalid \"first\" parameter.")]) ∧
    (0 ≤ req.query.GetIntParam "first" →
      req.query.GetIntParam "second" < req.query.GetIntParam "first" →
      GetConsistency this req = [Call.Send (Reply.SendError HTTP_BADREQUEST
        "Missing or invalid \"second\" parameter.")]) ∧
    (∀ a b, Call.ConsistencyProof a b ∈ GetConsistency this req →
      a = req.query.GetIntParam "first" ∧ b = req.query.GetIntParam "second" ∧
        0 ≤ a ∧ a ≤ b) ∧
    (∀ s, Call.ScanEntries s ∉ GetConsistency this req) := by
  refine ⟨?_, ?_, ?_, ?_, ?_, ?_, ?_, ?_⟩
  · intro h
    simp [GetEntries, hget, h]
  · intro h1 h2
    simp [GetEntries, hget, not_lt.2 h1, h2]
  · intro s hs
    unfold GetEntries at hs
    simp only [hget, ne_eq, not_true_eq_false, if_false] at hs
    by_cases h1 : req.query.GetIntParam "start" < 0
    · simp [h1] at hs
    · by_cases h2 : req.query.GetIntParam "end" < req.query.GetIntParam "start"
      · simp [h1, h2] at hs
      · simp [h1, h2, BlockingGetEntriesCalls] at hs
        exact ⟨hs, by omega, by omega⟩
  · intro a b hs
    unfold GetEntries at hs
    simp only [hget, ne_eq, not_true_eq_false, if_false] at hs
    by_cases h1 : req.query.GetIntParam "start" < 0
    · simp [h1] at hs
    · by_cases h2 : req.query.GetIntParam "end" < req.query.GetIntParam "start"
      · simp [h1, h2] at hs
      · simp [h1, h2, BlockingGetEntriesCalls] at hs
  · intro h
    simp [GetConsistency, hget, h]
  · intro h1 h2
    simp [GetConsistency, hget, not_lt.2 h1, h2]
  · intro a b hs
    unfold GetConsistency at hs
    simp only [hget, ne_eq, not_true_eq_false, if_false] at hs
    by_cases h1 : req.query.GetIntParam "first" < 0
    · simp [h1] at hs
    · by_cases h2 : req.query.GetIntParam "second" < req.query.GetIntParam "first"
      · simp [h1, h2] at hs
      · simp [h1, h2] at hs
        obtain ⟨ha, hb⟩ := hs
        subst ha hb
        exact ⟨rfl, rfl, by omega, by omega⟩
  · intro s hs
    unfold GetConsistency at hs
    simp only [hget, ne_eq, not_true_eq_false, if_false] at hs
    by_cases h1 : req.query.GetIntParam "first" < 0
    · simp [h1] at hs
    · by_cases h2 : req.query.GetIntParam "second" < req.query.GetIntParam "first"
      · simp [h1, h2] at hs
      · simp [h1, h2] at hs

end HttpHandler

namespace HttpHandler

/-- Witness of C13: a GET get-entries request with `start = -1` is answered with the single
call HTTP 400 naming `start`. -/
theorem C13_witness :
    GetEntries FLAGS_default (exampleHandler 3)
        (exampleRequest evhttp_cmd_type.EVHTTP_REQ_GET "start" "end" (-1) 5)
      = [Call.Send (Reply.SendError HTTP_BADREQUEST
          "Missing or invalid \"start\" parameter.")] :=
  (C13_range_parameters_validated FLAGS_default (exampleHandler 3)
    (exampleRequest evhttp_cmd_type.EVHTTP_REQ_GET "start" "end" (-1) 5) rfl).1 (by decide)

/-- Claim C14: for a GET get-proof-by-hash request whose `hash` parameter decodes to a
non-empty string: a negative `tree_size` gives the single call HTTP 400 naming `tree_size`;
a `tree_size` above the tree size of the current STH gives the same reply after the STH
was read; in both cases `AuditProof` is not called. Whenever `AuditProof` is called, it is
called at the decoded hash and the parsed `tree_size`, which satisfies
`0 <= tree_size <= STH.tree_size`; when it then returns anything other than OK the reply
is HTTP 400 "Couldn't find hash.". -/
theorem C14_tree_size_validated (lib : Library) (this : CertificateHttpHandler)
    (req : Request) (b64_hash : String)
    (hget : req.command = evhttp_cmd_type.EVHTTP_REQ_GET)
    (hparam : req.query.GetParam "hash" = some b64_hash)
    (hhash : lib.FromBase64 b64_hash ≠ "") :
    (req.query.GetIntParam "tree_size" < 0 →
      GetProof lib this req = [Call.Send (Reply.SendError HTTP_BADREQUEST
        "Missing or invalid \"tree_size\" parameter.")]) ∧
    (0 ≤ req.query.GetIntParam "tree_size" →
      req.query.GetIntParam "tree_size" > this.log_lookup_.GetSTH.tree_size →
      GetProof lib this req = [Call.GetSTH, Call.Send (Reply.SendError HTTP_BADREQUEST
        "Missing or invalid \"tree_size\" parameter.")]) ∧
    (∀ h n, Call.AuditProof h n ∈ GetProof lib this req →
      h = lib.FromBase64 b64_hash ∧ n = req.query.GetIntParam "tree_size" ∧
        0 ≤ n ∧ n ≤ this.log_lookup_.GetSTH.tree_size) ∧
    (0 ≤ req.query.GetIntParam "tree_size" →
      req.query.GetIntParam "tree_size" ≤ this.log_lookup_.GetSTH.tree_size →
      this.log_lookup_.AuditProof (lib.FromBase64 b64_hash)
        (req.query.GetIntParam "tree_size") = none →
      GetProof lib this req =
        [Call.GetSTH,
         Call.AuditProof (lib.FromBase64 b64_hash) (req.query.GetIntParam "tree_size"),
         Call.Send (Reply.SendError HTTP_BADREQUEST "Couldn\x27t find hash.")]) := by
  refine ⟨?_, ?_, ?_, ?_⟩
  · intro h
    simp [GetProof, hget, hparam, hhash, h]
  · intro h1 h2
    simp [GetProof, hget, hparam, hhash, not_lt.2 h1, h2]
  · intro h n hs
    unfold GetProof at hs
    simp only [hget, ne_eq, not_true_eq_false, if_false, hparam, hhash] at hs
    by_cases h1 : req.query.GetIntParam "tree_size" < 0
    · simp [h1] at hs
    · by_cases h2 : req.query.GetIntParam "tree_size" > this.log_lookup_.GetSTH.tree_size
      · simp [h1, h2] at hs
      · rw [if_neg h1, if_neg h2] at hs
        cases ha : this.log_lookup_.AuditProof (lib.FromBase64 b64_hash)
            (req.query.GetIntParam "tree_size") with
        | none =>
          simp [ha] at hs
          obtain ⟨e1, e2⟩ := hs
          subst e1 e2
          exact ⟨rfl, rfl, by omega, by omega⟩
        | some proof =>
          simp [ha] at hs
          obtain ⟨e1, e2⟩ := hs
          subst e1 e2
          exact ⟨rfl, rfl, by omega, by omega⟩
  · intro h1 h2 h3
    simp [GetProof, hget, hparam, hhash, not_lt.2 h1, not_lt.2 h2, h3]

/-- Witness of C14: with the tree size 3 in the STH, a request for `tree_size = 7` and a
hash that decodes to a non-empty string is answered with HTTP 400 naming `tree_size`. -/
theorem C14_witness :
    GetProof exampleLibrary (exampleHandler 3)
        { command := evhttp_cmd_type.EVHTTP_REQ_GET,
          query := { GetParam := fun _ => some "aGFzaA==",
                     GetIntParam := fun _ => 7,
                     GetBoolParam := fun _ => false },
          body := none }
      = [Call.GetSTH, Call.Send (Reply.SendError HTTP_BADREQUEST
          "Missing or invalid \"tree_size\" parameter.")] :=
  (C14_tree_size_validated exampleLibrary (exampleHandler 3)
    { command := evhttp_cmd_type.EVHTTP_REQ_GET,
      query := { GetParam := fun _ => some "aGFzaA==",
                 GetIntParam := fun _ => 7,
                 GetBoolParam := fun _ => false },
      body := none } "aGFzaA==" rfl rfl (by decide)).2.1 (by decide) (by decide)

end HttpHandler

namespace CertificateHttpHandler

/-- Claim C15 (as stated, refuted at a concrete input): for the POST body
`{"chain": ["", 7]}` some element of the chain is not a JSON string, yet `ExtractChain`
does not send "Unable to parse provided JSON.": the first element, a string whose bytes do
not load, is met first and the reply is "Unable to parse provided chain.". -/
theorem C15_counterexample :
    (∃ x ∈ [JsonDoc.string "", JsonDoc.number "7"], isJsonString x = false) ∧
    ExtractChain HttpHandler.exampleLibrary
        { command := evhttp_cmd_type.EVHTTP_REQ_POST,
          query := { GetParam := fun _ => none, GetIntParam := fun _ => -1,
                     GetBoolParam := fun _ => false },
          body := some (JsonDoc.object
            [("chain", JsonDoc.array [JsonDoc.string "", JsonDoc.number "7"])]) }
      = (false, [Reply.SendError HTTP_BADREQUEST "Unable to parse provided chain."], []) ∧
    Reply.SendError HTTP_BADREQUEST "Unable to parse provided chain."
      ≠ Reply.SendError HTTP_BADREQUEST "Unable to parse provided JSON." := by
  refine ⟨⟨JsonDoc.number "7", by simp, rfl⟩, rfl, ?_⟩
  intro h
  exact absurd (Reply.SendError.inj h).2 (by decide)

/-- Claim C15 (amended): `ExtractChain` checks, in this order, the method (not POST: false
after the single error 405), the body (not a JSON object with an array member "chain":
false after the single error 400 "Unable to parse provided JSON."), and then the elements
of the array one by one in request order: at the first element that is not a JSON string it
returns false after the single error 400 "Unable to parse provided JSON.", at the first
element that is a string whose decoded bytes do not load as a certificate it returns false
after the single error 400 "Unable to parse provided chain.". In all these cases `AddChain`
and `AddPreChain` make that one reply and add nothing to the pool. When every element is a
string that loads, it returns true, sends nothing, the chain holds the certificate of each
element in request order, and `AddChain` / `AddPreChain` add exactly one task with it. -/
theorem C15_extract_chain_cases (lib : Library) (req : Request) :
    (req.command ≠ evhttp_cmd_type.EVHTTP_REQ_POST →
      ExtractChain lib req
          = (false, [Reply.SendError HTTP_BADMETHOD "Method not allowed."], []) ∧
        AddChain lib req
          = [Call.Send (Reply.SendError HTTP_BADMETHOD "Method not allowed.")] ∧
        AddPreChain lib req
          = [Call.Send (Reply.SendError HTTP_BADMETHOD "Method not allowed.")]) ∧
    (req.command = evhttp_cmd_type.EVHTTP_REQ_POST →
      req.body.bind (JsonDoc.arrayMember "chain") = none →
      ExtractChain lib req
          = (false, [Reply.SendError HTTP_BADREQUEST "Unable to parse provided JSON."], []) ∧
        AddChain lib req
          = [Call.Send (Reply.SendError HTTP_BADREQUEST "Unable to parse provided JSON.")] ∧
        AddPreChain lib req
          = [Call.Send (Reply.SendError HTTP_BADREQUEST "Unable to parse provided JSON.")]) ∧
    (∀ pre x rest, req.command = evhttp_cmd_type.EVHTTP_REQ_POST →
      req.body.bind (JsonDoc.arrayMember "chain") = some (pre ++ x :: rest) →
      (∀ y ∈ pre, itemLoads lib y = true) → isJsonString x = false →
      ExtractChain lib req
          = (false, [Reply.SendError HTTP_BADREQUEST "Unable to parse provided JSON."],
              pre.map (itemDer lib)) ∧
        AddChain lib req
          = [Call.Send (Reply.SendError HTTP_BADREQUEST "Unable to parse provided JSON.")] ∧
        AddPreChain lib req
          = [Call.Send (Reply.SendError HTTP_BADREQUEST "Unable to parse provided JSON.")]) ∧
    (∀ pre x rest, req.command = evhttp_cmd_type.EVHTTP_REQ_POST →
      req.body.bind (JsonDoc.arrayMember "chain") = some (pre ++ x :: rest) →
      (∀ y ∈ pre, itemLoads lib y = true) → isJsonString x = true →
      lib.IsLoaded (itemDer lib x) = false →
      ExtractChain lib req
          = (false, [Reply.SendError HTTP_BADREQUEST "Unable to parse provided chain."],
              pre.map (itemDer lib)) ∧
        AddChain lib req
          = [Call.Send (Reply.SendError HTTP_BADREQUEST "Unable to parse provided chain.")] ∧
        AddPreChain lib req
          = [Call.Send (Reply.SendError HTTP_BADREQUEST "Unable to parse provided chain.")]) ∧
    (∀ items, req.command = evhttp_cmd_type.EVHTTP_REQ_POST →
      req.body.bind (JsonDoc.arrayMember "chain") = some items →
      (∀ y ∈ items, itemLoads lib y = true) →
      ExtractChain lib req = (true, [], items.map (itemDer lib)) ∧
        AddChain lib req
          = [Call.PoolAdd (PoolTask.BlockingAddChain req (items.map (itemDer lib)))] ∧
        AddPreChain lib req
          = [Call.PoolAdd (PoolTask.BlockingAddPreChain req (items.map (itemDer lib)))]) := by
  refine ⟨?_, ?_, ?_, ?_, ?_⟩
  · intro h
    have he : ExtractChain lib req
        = (false, [Reply.SendError HTTP_BADMETHOD "Method not allowed."], []) := by
      simp [ExtractChain, h]
    exact ⟨he, AddChain_false lib req _ _ he, AddPreChain_false lib req _ _ he⟩
  · intro hpost hb
    have he : ExtractChain lib req
        = (false, [Reply.SendError HTTP_BADREQUEST "Unable to parse provided JSON."], []) := by
      rw [ExtractChain_post lib req hpost, hb]
    exact ⟨he, AddChain_false lib req _ _ he, AddPreChain_false lib req _ _ he⟩
  · intro pre x rest hpost hb hpre hx
    have he : ExtractChain lib req
        = (false, [Reply.SendError HTTP_BADREQUEST "Unable to parse provided JSON."],
            pre.map (itemDer lib)) := by
      rw [ExtractChain_post lib req hpost, hb]
      simp only
      rw [ExtractChainLoop_loads lib pre (x :: rest) [] hpre,
        ExtractChainLoop_not_string lib x rest _ hx, List.nil_append]
    exact ⟨he, AddChain_false lib req _ _ he, AddPreChain_false lib req _ _ he⟩
  · intro pre x rest hpost hb hpre hx hl
    have he : ExtractChain lib req
        = (false, [Reply.SendError HTTP_BADREQUEST "Unable to parse provided chain."],
            pre.map (itemDer lib)) := by
      rw [ExtractChain_post lib req hpost, hb]
      simp only
      rw [ExtractChainLoop_loads lib pre (x :: rest) [] hpre,
        ExtractChainLoop_not_loaded lib x rest _ hx hl, List.nil_append]
    exact ⟨he, AddChain_false lib req _ _ he, AddPreChain_false lib req _ _ he⟩
  · intro items hpost hb hall
    have he : ExtractChain lib req = (true, [], items.map (itemDer lib)) := by
      rw [ExtractChain_post lib req hpost, hb]
      simp only
      have := ExtractChainLoop_loads lib items [] [] hall
      rw [List.append_nil, List.nil_append] at this
      rw [this]
      rfl
    refine ⟨he, ?_, ?_⟩
    · simp [AddChain, he]
    · simp [AddPreChain, he]

end CertificateHttpHandler

namespace HttpHandler

/-- Claim C16 (as stated, refuted at a concrete input): on a stale node a get-entries
request with the method POST and no valid parameter is handed to the proxy on the pool;
it is not answered with 405, although the local handler would answer it so. -/
theorem C16_counterexample :
    serve FLAGS_default exampleLibrary { exampleHandler 0 with node_is_stale_ := true }
        "/ct/v1/get-entries"
        (exampleRequest evhttp_cmd_type.EVHTTP_REQ_POST "start" "end" (-1) (-1))
      = some [Call.PoolAdd (PoolTask.ProxyRequest
          (exampleRequest evhttp_cmd_type.EVHTTP_REQ_POST "start" "end" (-1) (-1)))] ∧
    GetEntries FLAGS_default { exampleHandler 0 with node_is_stale_ := true }
        (exampleRequest evhttp_cmd_type.EVHTTP_REQ_POST "start" "end" (-1) (-1))
      = [Call.Send (Reply.SendError HTTP_BADMETHOD "Method not allowed.")] :=
  ⟨rfl, rfl⟩

/-- Claim C16 (amended): a request for a registered path follows the order StalenessCheck,
then either ProxyForward or (MethodCheck, ParamParse, LocalHandle). When the node is stale
the request for any registered path is handed to the proxy on the pool whatever its method
and parameters, and nothing else is done. When the node is not stale, each of the seven
paths runs its local handler inside the latency scope of the path (get-roots when the cert
checker is not null, add-chain and add-pre-chain when the frontend is not null); the local
handler answers a disallowed method with 405 and nothing else, and otherwise invalid
parameters with 400: `start` and `end` of get-entries, `hash` and `tree_size` of
get-proof-by-hash, `first` and `second` of get-sth-consistency, and a body from which
`ExtractChain` extracts no chain for add-chain and add-pre-chain. -/
theorem C16_staleness_checked_first (flags : Flags) (lib : Library)
    (this : CertificateHttpHandler) (req : Request) :
    (∀ path, (serve flags lib this path req).isSome → this.node_is_stale_ = true →
      serve flags lib this path req = some [Call.PoolAdd (PoolTask.ProxyRequest req)]) ∧
    (this.node_is_stale_ = false →
      serve flags lib this "/ct/v1/get-entries" req
        = some ([Call.ScopedLatencyBegin "/ct/v1/get-entries"] ++ GetEntries flags this req
            ++ [Call.ScopedLatencyEnd "/ct/v1/get-entries"]) ∧
      serve flags lib this "/ct/v1/get-proof-by-hash" req
        = some ([Call.ScopedLatencyBegin "/ct/v1/get-proof-by-hash"] ++ GetProof lib this req
            ++ [Call.ScopedLatencyEnd "/ct/v1/get-proof-by-hash"]) ∧
      serve flags lib this "/ct/v1/get-sth" req
        = some ([Call.ScopedLatencyBegin "/ct/v1/get-sth"] ++ GetSTH this req
            ++ [Call.ScopedLatencyEnd "/ct/v1/get-sth"]) ∧
      serve flags lib this "/ct/v1/get-sth-consistency" req
        = some ([Call.ScopedLatencyBegin "/ct/v1/get-sth-consistency"]
            ++ GetConsistency this req
            ++ [Call.ScopedLatencyEnd "/ct/v1/get-sth-consistency"]) ∧
      (this.cert_checker_ ≠ none →
        ∃ calls, CertificateHttpHandler.GetRoots this req = some calls ∧
          serve flags lib this "/ct/v1/get-roots" req
            = some ([Call.ScopedLatencyBegin "/ct/v1/get-roots"] ++ calls
                ++ [Call.ScopedLatencyEnd "/ct/v1/get-roots"])) ∧
      (this.frontend_ ≠ none →
        serve flags lib this "/ct/v1/add-chain" req
          = some ([Call.ScopedLatencyBegin "/ct/v1/add-chain"]
              ++ CertificateHttpHandler.AddChain lib req
              ++ [Call.ScopedLatencyEnd "/ct/v1/add-chain"]) ∧
        serve flags lib this "/ct/v1/add-pre-chain" req
          = some ([Call.ScopedLatencyBegin "/ct/v1/add-pre-chain"]
              ++ CertificateHttpHandler.AddPreChain lib req
              ++ [Call.ScopedLatencyEnd "/ct/v1/add-pre-chain"]))) ∧
    (req.command ≠ evhttp_cmd_type.EVHTTP_REQ_GET →
      GetEntries flags this req
          = [Call.Send (Reply.SendError HTTP_BADMETHOD "Method not allowed.")] ∧
      GetProof lib this req
          = [Call.Send (Reply.SendError HTTP_BADMETHOD "Method not allowed.")] ∧
      GetSTH this req
          = [Call.Send (Reply.SendError HTTP_BADMETHOD "Method not allowed.")] ∧
      GetConsistency this req
          = [Call.Send (Reply.SendError HTTP_BADMETHOD "Method not allowed.")] ∧
      CertificateHttpHandler.GetRoots this req
          = some [Call.Send (Reply.SendError HTTP_BADMETHOD "Method not allowed.")]) ∧
    (req.command ≠ evhttp_cmd_type.EVHTTP_REQ_POST →
      CertificateHttpHandler.AddChain lib req
          = [Call.Send (Reply.SendError HTTP_BADMETHOD "Method not allowed.")] ∧
      CertificateHttpHandler.AddPreChain lib req
          = [Call.Send (Reply.SendError HTTP_BADMETHOD "Method not allowed.")]) ∧
    (req.command = evhttp_cmd_type.EVHTTP_REQ_GET →
      (req.query.GetIntParam "start" < 0 →
        GetEntries flags this req = [Call.Send (Reply.SendError HTTP_BADREQUEST
          "Missing or invalid \"start\" parameter.")]) ∧
      (0 ≤ req.query.GetIntParam "start" →
        req.query.GetIntParam "end" < req.query.GetIntParam "start" →
        GetEntries flags this req = [Call.Send (Reply.SendError HTTP_BADREQUEST
          "Missing or invalid \"end\" parameter.")]) ∧
      (req.query.GetParam "hash" = none →
        GetProof lib this req = [Call.Send (Reply.SendError HTTP_BADREQUEST
          "Missing or invalid \"hash\" parameter.")]) ∧
      (∀ b64_hash, req.query.GetParam "hash" = some b64_hash →
        lib.FromBase64 b64_hash = "" →
        GetProof lib this req = [Call.Send (Reply.SendError HTTP_BADREQUEST
          "Invalid \"hash\" parameter.")]) ∧
      (∀ b64_hash, req.query.GetParam "hash" = some b64_hash →
        lib.FromBase64 b64_hash ≠ "" → req.query.GetIntParam "tree_size" < 0 →
        GetProof lib this req = [Call.Send (Reply.SendError HTTP_BADREQUEST
          "Missing or invalid \"tree_size\" parameter.")]) ∧
      (∀ b64_hash, req.query.GetParam "hash" = some b64_hash →
        lib.FromBase64 b64_hash ≠ "" → 0 ≤ req.query.GetIntParam "tree_size" →
        req.query.GetIntParam "tree_size" > this.log_lookup_.GetSTH.tree_size →
        GetProof lib this req = [Call.GetSTH, Call.Send (Reply.SendError HTTP_BADREQUEST
          "Missing or invalid \"tree_size\" parameter.")]) ∧
      (req.query.GetIntParam "first" < 0 →
        GetConsistency this req = [Call.Send (Reply.SendError HTTP_BADREQUEST
          "Missing or invalid \"first\" parameter.")]) ∧
      (0 ≤ req.query.GetIntParam "first" →
        req.query.GetIntParam "second" < req.query.GetIntParam "first" →
        GetConsistency this req = [Call.Send (Reply.SendError HTTP_BADREQUEST
          "Missing or invalid \"second\" parameter.")])) ∧
    (req.command = evhttp_cmd_type.EVHTTP_REQ_POST →
      (CertificateHttpHandler.ExtractChain lib req).1 = false →
      ∃ message,
        CertificateHttpHandler.AddChain lib req
          = [Call.Send (Reply.SendError HTTP_BADREQUEST message)] ∧
        CertificateHttpHandler.AddPreChain lib req
          = [Call.Send (Reply.SendError HTTP_BADREQUEST message)]) := by
  refine ⟨?_, ?_, ?_, ?_, ?_, ?_⟩
  · intro path hsome hs
    unfold serve at hsome ⊢
    rw [Add_eq] at hsome ⊢
    simp only [Option.some_bind, dispatch] at hsome ⊢
    cases hl : List.lookup path _ with
    | none => rw [hl] at hsome; simp at hsome
    | some cb =>
      have hcb := Add_stale flags lib this _ (Add_eq flags lib this) this req hs (path, cb)
        (lookup_mem _ _ _ hl)
      simp only [Option.map_some']
      exact congrArg some hcb
  · intro hs
    refine ⟨serve_fresh flags lib this req hs _ _ (serve_lookup_entries flags lib this),
      serve_fresh flags lib this req hs _ _ (serve_lookup_proof flags lib this),
      serve_fresh flags lib this req hs _ _ (serve_lookup_sth flags lib this),
      serve_fresh flags lib this req hs _ _ (serve_lookup_consistency flags lib this), ?_, ?_⟩
    · intro hc
      cases hcc : this.cert_checker_ with
      | none => exact absurd hcc hc
      | some c =>
        have hr : ∃ calls, CertificateHttpHandler.GetRoots this req = some calls := by
          unfold CertificateHttpHandler.GetRoots
          by_cases hm : req.command ≠ evhttp_cmd_type.EVHTTP_REQ_GET
          · exact ⟨_, if_pos hm⟩
          · rw [if_neg hm, hcc]
            exact ⟨_, rfl⟩
        obtain ⟨calls, hcalls⟩ := hr
        refine ⟨calls, hcalls, ?_⟩
        rw [serve_fresh flags lib this req hs _ _ (serve_lookup_roots flags lib this c hcc)]
        simp only [hcalls, Option.getD_some]
    · intro hf
      cases hff : this.frontend_ with
      | none => exact absurd hff hf
      | some u =>
        exact ⟨serve_fresh flags lib this req hs _ _ (serve_lookup_add_chain flags lib this u hff),
          serve_fresh flags lib this req hs _ _
            (serve_lookup_add_pre_chain flags lib this u hff)⟩
  · intro h
    refine ⟨?_, ?_, ?_, ?_, ?_⟩
    · simp [GetEntries, h]
    · simp [GetProof, h]
    · simp [GetSTH, h]
    · simp [GetConsistency, h]
    · simp [CertificateHttpHandler.GetRoots, h]
  · intro h
    exact ⟨by simp [CertificateHttpHandler.AddChain, CertificateHttpHandler.ExtractChain, h],
      by simp [CertificateHttpHandler.AddPreChain, CertificateHttpHandler.ExtractChain, h]⟩
  · intro hget
    refine ⟨?_, ?_, ?_, ?_, ?_, ?_, ?_, ?_⟩
    · intro h
      simp [GetEntries, hget, h]
    · intro h1 h2
      simp [GetEntries, hget, not_lt.2 h1, h2]
    · intro h
      simp [GetProof, hget, h]
    · intro b h1 h2
      simp [GetProof, hget, h1, h2]
    · intro b h1 h2 h3
      simp [GetProof, hget, h1, h2, h3]
    · intro b h1 h2 h3 h4
      simp [GetProof, hget, h1, h2, not_lt.2 h3, h4]
    · intro h
      simp [GetConsistency, hget, h]
    · intro h1 h2
      simp [GetConsistency, hget, not_lt.2 h1, h2]
  · intro hpost hfalse
    obtain ⟨message, chain, hm⟩ :=
      CertificateHttpHandler.ExtractChain_error lib req hpost hfalse
    exact ⟨message, CertificateHttpHandler.AddChain_false lib req _ chain hm,
      CertificateHttpHandler.AddPreChain_false lib req _ chain hm⟩

/-- Claim C17: each of the local handlers GetEntries, GetProof, GetSTH, GetConsistency and
GetRoots answers a request whose method is not GET with the single call HTTP 405 "Method
not allowed.", so no scan, lookup or cert checker call is made and the reply does not
depend on the query; AddChain and AddPreChain answer a request whose method is not POST
with the single call HTTP 405 and add nothing to the pool. -/
theorem C17_wrong_method_rejected (flags : Flags) (lib : Library)
    (this : CertificateHttpHandler) (req : Request) :
    (req.command ≠ evhttp_cmd_type.EVHTTP_REQ_GET →
      GetEntries flags this req
          = [Call.Send (Reply.SendError HTTP_BADMETHOD "Method not allowed.")] ∧
      GetProof lib this req
          = [Call.Send (Reply.SendError HTTP_BADMETHOD "Method not allowed.")] ∧
      GetSTH this req
          = [Call.Send (Reply.SendError HTTP_BADMETHOD "Method not allowed.")] ∧
      GetConsistency this req
          = [Call.Send (Reply.SendError HTTP_BADMETHOD "Method not allowed.")] ∧
      CertificateHttpHandler.GetRoots this req
          = some [Call.Send (Reply.SendError HTTP_BADMETHOD "Method not allowed.")]) ∧
    (req.command ≠ evhttp_cmd_type.EVHTTP_REQ_POST →
      CertificateHttpHandler.AddChain lib req
          = [Call.Send (Reply.SendError HTTP_BADMETHOD "Method not allowed.")] ∧
      CertificateHttpHandler.AddPreChain lib req
          = [Call.Send (Reply.SendError HTTP_BADMETHOD "Method not allowed.")]) := by
  refine ⟨fun h => ⟨?_, ?_, ?_, ?_, ?_⟩, fun h => ⟨?_, ?_⟩⟩
  · simp [GetEntries, h]
  · simp [GetProof, h]
  · simp [GetSTH, h]
  · simp [GetConsistency, h]
  · simp [CertificateHttpHandler.GetRoots, h]
  · simp [CertificateHttpHandler.AddChain, CertificateHttpHandler.ExtractChain, h]
  · simp [CertificateHttpHandler.AddPreChain, CertificateHttpHandler.ExtractChain, h]

/-- Claim C18: the calls of `ProxyInterceptor` are decided by `node_is_stale_` alone. When
it is true the only call is one `pool_->Add` of `Proxy::ProxyRequest` for the request, and
no call of the local handler appears; when it is false the calls are exactly those of one
invocation of the local handler on the request, the interceptor adding none of its own.
Two handler objects with the same flag make the same calls. -/
theorem C18_proxy_decision (this : CertificateHttpHandler) (local_handler : HandlerCallback)
    (request : Request) :
    (this.node_is_stale_ = true →
      ProxyInterceptor this local_handler request
        = [Call.PoolAdd (PoolTask.ProxyRequest request)]) ∧
    (this.node_is_stale_ = false →
      ProxyInterceptor this local_handler request = local_handler request) ∧
    (∀ that : CertificateHttpHandler, that.node_is_stale_ = this.node_is_stale_ →
      ProxyInterceptor that local_handler request
        = ProxyInterceptor this local_handler request) := by
  refine ⟨?_, ?_, ?_⟩
  · intro h
    simp [ProxyInterceptor, IsNodeStale, h]
  · intro h
    simp [ProxyInterceptor, IsNodeStale, h]
  · intro that h
    simp [ProxyInterceptor, IsNodeStale, h]

/-- Claim C19: `UpdateNodeStaleness` run while the task is inactive makes no call (no
controller query, no delay) and leaves the handler object, so `node_is_stale_`, unchanged;
run while the task is active it sets `node_is_stale_` to the answer of the controller and
makes exactly the calls `NodeIsStale` and one `Delay` of `staleness_check_delay_secs`
seconds. Hence in the chain of callbacks, while the task stays inactive no call is made,
the flag keeps its value and the number of pending callbacks only goes down by the number
of callbacks run. -/
theorem C19_staleness_interlock (flags : Flags) (this : CertificateHttpHandler) :
    (this.IsActive = false → UpdateNodeStaleness flags this = (this, [])) ∧
    (this.IsActive = true →
      UpdateNodeStaleness flags this
        = ({ this with node_is_stale_ := this.controller_NodeIsStale },
            [Call.NodeIsStale, Call.Delay flags.staleness_check_delay_secs])) ∧
    (∀ (world : List (Bool × Bool)) (pending : Nat), (∀ w ∈ world, w.1 = false) →
      (runStalenessTask flags world this pending).2.2 = [] ∧
      (runStalenessTask flags world this pending).1.node_is_stale_ = this.node_is_stale_ ∧
      (runStalenessTask flags world this pending).2.1 = pending - world.length) := by
  refine ⟨?_, ?_, ?_⟩
  · intro h
    simp [UpdateNodeStaleness, h]
  · intro h
    simp [UpdateNodeStaleness, h]
  · intro world
    induction world generalizing this with
    | nil => intro pending _; simp [runStalenessTask]
    | cons w world ih =>
      intro pending hw
      obtain ⟨active, answer⟩ := w
      have ha : active = false := hw (active, answer) (List.mem_cons_self _ _)
      subst ha
      cases pending with
      | zero => simp [runStalenessTask]
      | succ pending =>
        have ih2 := ih { this with IsActive := false, controller_NodeIsStale := answer }
          pending (fun x hx => hw x (List.mem_cons_of_mem _ hx))
        simp only [runStalenessTask, UpdateNodeStaleness, Bool.not_false, if_true,
          List.filter_nil, List.length_nil, Nat.add_zero, List.nil_append]
        refine ⟨ih2.1, ih2.2.1, ?_⟩
        rw [ih2.2.2, List.length_cons]
        omega

/-- Claim C20: `Add` on an empty dispatch table succeeds and registers, in this order,
get-entries, get-proof-by-hash, get-sth and get-sth-consistency, then get-roots when the
cert checker is not null, then add-chain and add-pre-chain when the frontend is not null;
so the four read paths are always registered, add-chain and add-pre-chain are registered
if and only if the frontend is not null, and get-roots if and only if the cert checker is
not null. -/
theorem C20_registered_paths (flags : Flags) (lib : Library) (this : CertificateHttpHandler) :
    ∃ server, Add flags lib this [] = some server ∧
      registeredPaths server
        = ["/ct/v1/get-entries", "/ct/v1/get-proof-by-hash", "/ct/v1/get-sth",
            "/ct/v1/get-sth-consistency"]
          ++ (if this.cert_checker_.isSome then ["/ct/v1/get-roots"] else [])
          ++ (if this.frontend_.isSome then ["/ct/v1/add-chain", "/ct/v1/add-pre-chain"]
              else []) ∧
      "/ct/v1/get-entries" ∈ registeredPaths server ∧
      "/ct/v1/get-proof-by-hash" ∈ registeredPaths server ∧
      "/ct/v1/get-sth" ∈ registeredPaths server ∧
      "/ct/v1/get-sth-consistency" ∈ registeredPaths server ∧
      ("/ct/v1/add-chain" ∈ registeredPaths server ↔ this.frontend_ ≠ none) ∧
      ("/ct/v1/add-pre-chain" ∈ registeredPaths server ↔ this.frontend_ ≠ none) ∧
      ("/ct/v1/get-roots" ∈ registeredPaths server ↔ this.cert_checker_ ≠ none) := by
  refine ⟨_, Add_eq flags lib this, ?_⟩
  cases hc : this.cert_checker_ <;> cases hf : this.frontend_ <;>
    simp [registeredPaths]

end HttpHandler

namespace HttpHandler

/-- The loop of `BlockingGetEntries` walks over a run of in-sequence entries that
serialise, appending their objects. -/
theorem entriesLoop_skip (include_scts : Bool) (end_ : Int) (hend : end_ < 2 ^ 63) :
    ∀ (run it : List LoggedEntry) (i : Int) (acc : List JsonValue), -(2 ^ 63) ≤ i →
      i + run.length ≤ end_ →
      (∀ j (hj : j < run.length), (run.get ⟨j, hj⟩).sequence_number = i + j) →
      (∀ y ∈ run, serialises include_scts y = true) →
      entriesLoop include_scts end_ (run ++ it) i acc =
        entriesLoop include_scts end_ it (i + run.length)
          (acc ++ run.map (entryObject include_scts)) := by
  intro run
  induction run with
  | nil => intro it i acc _ _ _ _; simp
  | cons y run ih =>
    intro it i acc hi hlen hseq hser
    have hy := hser y (List.mem_cons_self _ _)
    have hseq0 : y.sequence_number = i := by
      have := hseq 0 (by simp)
      simpa using this
    simp only [List.length_cons, Nat.cast_succ] at hlen
    have hie : i ≤ end_ := by omega
    simp only [serialises, Bool.and_eq_true, Option.isSome_iff_exists, Bool.or_eq_true,
      Bool.not_eq_true'] at hy
    obtain ⟨⟨⟨leaf_input, hl⟩, ⟨extra_data, he⟩⟩, h3⟩ := hy
    have hs : ∃ sct_data, (if include_scts then y.sct_data else some "")
        = some sct_data := by
      cases include_scts
      · exact ⟨"", rfl⟩
      · rcases h3 with h3 | ⟨s, hs⟩
        · cases h3
        · exact ⟨s, by simp [hs]⟩
    obtain ⟨sct_data, hs⟩ := hs
    rw [List.cons_append, entriesLoop, if_pos hie, if_neg (not_not.2 hseq0)]
    simp only [hl, he, hs]
    rw [wrap64_id (i + 1) (by omega) (by omega),
      ih it (i + 1) _ (by omega) (by omega)
        (fun j hj => by
          have := hseq (j + 1) (by simp; omega)
          simp only [List.get_eq_getElem, List.getElem_cons_succ] at this
          simp only [List.get_eq_getElem]
          rw [this]
          push_cast
          ring)
        (fun z hz => hser z (List.mem_cons_of_mem _ hz))]
    have hobj : JsonValue.object (entryJson include_scts leaf_input extra_data sct_data)
        = entryObject include_scts y := by
      unfold entryObject
      rw [hl, he]
      cases include_scts
      · simp only [Bool.false_eq_true, if_false, Option.some.injEq] at hs
        simp only [Bool.false_eq_true, if_false, Option.getD_some, hs]
      · simp only [if_true] at hs
        simp only [if_true, hs, Option.getD_some]
    rw [hobj, List.map_cons, List.append_assoc, List.length_cons]
    congr 1
    · push_cast
      ring

/-- An in-sequence entry within the range that does not serialise ends the loop of
`BlockingGetEntries` with the reply 500. -/
theorem entriesLoop_fail (include_scts : Bool) (end_ : Int) (x : LoggedEntry)
    (it : List LoggedEntry) (i : Int) (acc : List JsonValue) (hie : i ≤ end_)
    (hseq : x.sequence_number = i) (hfail : serialises include_scts x = false) :
    entriesLoop include_scts end_ (x :: it) i acc
      = .error [Reply.SendError HTTP_INTERNAL "Serialization failed."] := by
  rw [entriesLoop, if_pos hie, if_neg (not_not.2 hseq)]
  cases hl : x.leaf_input with
  | none => rfl
  | some leaf_input =>
    cases he : x.extra_data with
    | none => rfl
    | some extra_data =>
      cases include_scts with
      | false => simp [serialises, hl, he] at hfail
      | true =>
        cases hs : x.sct_data with
        | none => rfl
        | some s => simp [serialises, hl, he, hs] at hfail

/-- Without `include_scts` the loop of `BlockingGetEntries` ends normally whenever the
leaf input and the extra data of every entry serialise. -/
theorem entriesLoop_no_sct (end_ : Int) :
    ∀ (it : List LoggedEntry) (i : Int) (acc : List JsonValue),
      (∀ y ∈ it, y.leaf_input ≠ none ∧ y.extra_data ≠ none) →
      ∃ out, entriesLoop false end_ it i acc = .ok out := by
  intro it
  induction it with
  | nil => intro i acc _; exact ⟨acc, by simp [entriesLoop]⟩
  | cons y it ih =>
    intro i acc h
    obtain ⟨h1, h2⟩ := h y (List.mem_cons_self _ _)
    obtain ⟨leaf_input, hl⟩ := Option.ne_none_iff_exists'.1 h1
    obtain ⟨extra_data, he⟩ := Option.ne_none_iff_exists'.1 h2
    rw [entriesLoop]
    by_cases hie : i ≤ end_
    · rw [if_pos hie]
      by_cases hseq : y.sequence_number ≠ i
      · rw [if_pos hseq]; exact ⟨acc, rfl⟩
      · rw [if_neg hseq]
        simp only [hl, he, Bool.false_eq_true, if_false]
        exact ih _ _ (fun z hz => h z (List.mem_cons_of_mem _ hz))
    · rw [if_neg hie]; exact ⟨acc, rfl⟩

/-- `BlockingGetEntries` makes exactly one reply. -/
theorem BlockingGetEntries_length (ScanEntries : Int → List LoggedEntry) (start end_ : Int)
    (include_scts : Bool) :
    (BlockingGetEntries ScanEntries start end_ include_scts).length = 1 := by
  unfold BlockingGetEntries
  cases hloop : entriesLoop include_scts end_ (ScanEntries start) start [] with
  | error sent =>
    rw [entriesLoop_error include_scts end_ _ _ _ sent hloop]
    rfl
  | ok out =>
    simp only
    split <;> rfl

theorem replies_map_send (sent : List Reply) : replies (sent.map Call.Send) = sent := by
  induction sent with
  | nil => rfl
  | cons r sent ih =>
    rw [List.map_cons, replies, List.filterMap_cons]
    simp only
    rw [← replies, ih]

end HttpHandler

namespace SparseMerkleTree

theorem hashMap_some (hasher : TreeHasher) (ops : List (Path × String)) (q : Path)
    (h : String) :
    hashMap hasher ops q = some h ↔
      ∃ data, lastData ops q = some data ∧ hasher.HashLeaf data = h := by
  simp [hashMap, Option.map_eq_some']

/-- The invariant of the proofs gives the representation invariant. -/
theorem RepInvariant.of_inv (hasher : TreeHasher) (ops : List (Path × String))
    (t : SparseMerkleTree) (inv : Inv hasher t (hashMap hasher ops)) :
    RepInvariant hasher ops t.tree_ := by
  refine ⟨?_, ?_, ?_, ?_, ?_, ?_⟩
  · intro d k node h
    obtain ⟨q, h2, hM, hq⟩ := inv.sem.inhabited d k node h
    obtain ⟨data, hd, _⟩ := (hashMap_some hasher ops q h2).1 hM
    exact ⟨q, data, hd, hq⟩
  · intro q data hd
    obtain ⟨d, node, hnode, hl, hh, hp⟩ :=
      (inv.sem.leaves q (hasher.HashLeaf data)).1
        ((hashMap_some hasher ops q _).2 ⟨data, hd, rfl⟩)
    refine ⟨d, ?_⟩
    rw [hnode]
    cases node
    simp only [TreeNode.leaf] at hl hh hp ⊢
    subst hl hh hp
    rfl
  · intro d k node h hl
    obtain ⟨q, hp, hq⟩ := inv.wf.leaf d k node h hl
    obtain ⟨hM, _⟩ := leaf_in_map inv.wf inv.sem h hl hp
    obtain ⟨data, hd, hh⟩ := (hashMap_some hasher ops q _).1 hM
    refine ⟨q, data, hd, hq, ?_⟩
    cases node
    simp only [TreeNode.leaf] at hl hh hp ⊢
    subst hl hh hp
    rfl
  · intro d k node e j node2 q h1 hl1 hp1 h2 hl2 hp2
    obtain ⟨q1, hq1, hk⟩ := inv.wf.leaf d k node h1 hl1
    obtain ⟨q2, hq2, hj⟩ := inv.wf.leaf e j node2 h2 hl2
    rw [hp1] at hq1
    rw [hp2] at hq2
    cases hq1
    cases hq2
    have hde : d = e := by
      rcases Nat.lt_trichotomy d e with hlt | heq | hgt
      · obtain ⟨par, hpar, hi⟩ := inv.wf.ancestor (e - d) e j node2 h2 d (by omega) (by omega)
        rw [← hj, Path.pre_pre, Nat.min_eq_right (by omega), hk, h1] at hpar
        cases hpar
        rw [hl1] at hi
        cases hi
      · exact heq
      · obtain ⟨par, hpar, hi⟩ := inv.wf.ancestor (d - e) d k node h1 e (by omega) (by omega)
        rw [← hk, Path.pre_pre, Nat.min_eq_right (by omega), hj, h2] at hpar
        cases hpar
        rw [hl2] at hi
        cases hi
    subst hde
    exact ⟨rfl, hk.symm.trans hj⟩
  · intro d k node h e he
    exact inv.wf.ancestor (d - e) d k node h e (by omega) (by omega)
  · exact inv.wf.internal

theorem rootValue_update_empty (hasher : TreeHasher) (M : Path → Option String) (p : Path)
    (h : M p = none) :
    rootValue hasher (Function.update M p (some (hasher.HashLeaf ""))) = rootValue hasher M := by
  have hl : leafOf hasher (Function.update M p (some (hasher.HashLeaf "")))
      = leafOf hasher M := by
    funext q
    by_cases hq : q = p
    · subst hq
      simp [leafOf, h]
    · simp [leafOf, Function.update_noteq hq]
  unfold rootValue
  rw [hl]

/-- A map that carries no leaf with the path `p` holds no leaf hash for `p`. -/
theorem unset_of_no_leaf {tree : List Level} {M : Path → Option String} (sem : Sem tree M)
    (p : Path)
    (hp : ∀ d k node, levelAt tree d k = some node → node.type_ = NodeType.LEAF →
      node.path_ ≠ some p) : M p = none := by
  cases hM : M p with
  | none => rfl
  | some h =>
    obtain ⟨d, node, hnode, hl, _, hpath⟩ := (sem.leaves p h).1 hM
    exact absurd hpath (hp d _ node hnode hl)

end SparseMerkleTree

namespace SparseMerkleTree

theorem Path.pre_eq_of_agree (p q : Path) (n : Nat)
    (h : ∀ i, i < n → p.nth_msb i = q.nth_msb i) : p.pre n = q.pre n := by
  apply Path.ext_bits
  intro m _
  rw [Path.nth_msb_pre, Path.nth_msb_pre]
  by_cases hm : m < n
  · simp [hm, h m hm]
  · simp [hm]

theorem Path.pre_succ_ne (p q : Path) (k : Nat) (h : p.nth_msb k ≠ q.nth_msb k) :
    q.pre (k + 1) ≠ p.pre (k + 1) := by
  intro he
  have h2 := Path.bit_of_pre_succ q (p.pre (k + 1)) k he
  rw [Path.nth_msb_pre] at h2
  simp only [Nat.lt_succ_self, decide_True, Bool.true_and] at h2
  exact h h2

theorem Path.pre_zero (p : Path) : p.pre 0 = Path.zero := rfl

/-- The first `SetLeaf` on empty maps stores the leaf at level 0. -/
theorem SetLeafLoop_first (p : Path) (hp : String) :
    ∃ T, SetLeafLoop p hp 256 0 Path.zero [] = .ok T ∧ T.length = 1 ∧
      ∀ e i, levelAt T e i = collisionStage p hp 0 e i := by
  have hkey : Path.zero.set_nth_msb 0 (p.nth_msb 0) = p.pre 1 := by
    rw [Path.pre_succ, Path.pre_zero]
  have hnone : levelAt (EnsureHaveLevel [] 0) 0 (Path.zero.set_nth_msb 0 (p.nth_msb 0))
      = none := by
    rw [levelAt_ensure]; rfl
  refine ⟨_, SetLeafLoop_none p hp 255 0 Path.zero [] hnone, ?_, ?_⟩
  · rw [List.length_set, length_ensure]; rfl
  · intro e i
    rw [levelAt_set, length_ensure, hkey]
    by_cases he : e = 0
    · subst he
      simp only [collisionStage, Nat.lt_irrefl, if_false, if_true, true_and,
        List.length_nil, Nat.zero_add, Nat.zero_max, Nat.lt_one_iff]
      by_cases hi : i = p.pre 1
      · simp [hi]
      · simp only [hi, if_false]
        rw [levelAt_ensure]; rfl
    · simp only [he, false_and, if_false, collisionStage, Nat.not_lt_zero]
      rw [levelAt_ensure]; rfl

/-- One iteration of the loop of `SetLeaf` that meets the leaf of `p` under a key it
shares with `q`: the leaf moves down one level. -/
theorem SetLeafLoop_collide (p q : Path) (hp hq : String) (n j : Nat) (idx : IndexType)
    (T : List Level) (hj : j < 255) (hagree : ∀ i, i ≤ j → p.nth_msb i = q.nth_msb i)
    (hne : p ≠ q) (hidx : idx.set_nth_msb j (q.nth_msb j) = q.pre (j + 1))
    (hlen : T.length = j + 1) (hT : ∀ e i, levelAt T e i = collisionStage p hp j e i) :
    ∃ idx2 T2, SetLeafLoop q hq (n + 1) j idx T = SetLeafLoop q hq n (j + 1) idx2 T2 ∧
      idx2.set_nth_msb (j + 1) (q.nth_msb (j + 1)) = q.pre (j + 2) ∧
      T2.length = j + 2 ∧ ∀ e i, levelAt T2 e i = collisionStage p hp (j + 1) e i := by
  have hpq : q.pre (j + 1) = p.pre (j + 1) :=
    (Path.pre_eq_of_agree p q (j + 1) (fun i hi => hagree i (by omega))).symm
  have hnode : levelAt (EnsureHaveLevel T j) j (idx.set_nth_msb j (q.nth_msb j))
      = some (TreeNode.leaf p hp) := by
    rw [levelAt_ensure, hidx, hT]
    simp [collisionStage, hpq]
  have hfree : levelAt (EnsureHaveLevel (EnsureHaveLevel T j) (j + 1)) (j + 1)
      ((idx.set_nth_msb j (q.nth_msb j)).set_nth_msb (j + 1) (p.nth_msb (j + 1))) = none := by
    rw [levelAt_ensure, levelAt_ensure, hT]
    simp [collisionStage]
  have hidx2 : (idx.set_nth_msb j (q.nth_msb j)).set_nth_msb (j + 1) (p.nth_msb (j + 1))
      = p.pre (j + 2) := by
    rw [hidx, hpq, ← Path.pre_succ]
  refine ⟨_, _, SetLeafLoop_push q hq n j idx T (TreeNode.leaf p hp) p hnode
    (by simp [TreeNode.leaf]) rfl hne hj hfree, ?_, ?_, ?_⟩
  · rw [Path.set_set, hidx, ← Path.pre_succ]
  · rw [List.length_set, List.length_set, length_ensure, length_ensure, hlen]
    omega
  · intro e i
    rw [hidx2, hidx, hpq]
    rw [levelAt_set, List.length_set, length_ensure, length_ensure, hlen]
    by_cases he : e = j
    · subst he
      have h1 : e < max (max (e + 1) (e + 1)) (e + 1 + 1) := by omega
      simp only [true_and, h1, if_true]
      rw [levelAt_set_ne _ _ _ _ (by omega), levelAt_ensure, levelAt_ensure]
      simp only [Level.modify, hT, collisionStage, Nat.lt_irrefl, if_false, if_true,
        Nat.lt_succ_self]
      by_cases hi : i = p.pre (e + 1)
      · simp [hi]
      · simp [hi]
    · simp only [he, false_and, if_false]
      rw [levelAt_set, length_ensure, length_ensure, hlen]
      by_cases he2 : e = j + 1
      · subst he2
        have h1 : j + 1 < max (max (j + 1) (j + 1)) (j + 1 + 1) := by omega
        simp only [true_and, h1, if_true]
        rw [levelAt_ensure, levelAt_ensure, hT]
        simp only [collisionStage, Nat.lt_irrefl, if_false, if_true]
        have h2 : ¬ (j + 1 < j) := by omega
        have h3 : ¬ (j + 1 = j) := by omega
        simp only [h2, h3, if_false]
      · simp only [he2, false_and, if_false]
        rw [levelAt_ensure, levelAt_ensure, hT]
        simp only [collisionStage]
        by_cases h4 : e < j
        · have h5 : e < j + 1 := by omega
          simp only [h4, h5, if_true]
        · have h5 : ¬ e < j + 1 := by omega
          simp only [h4, h5, he, he2, if_false]

/-- The iteration of the loop of `SetLeaf` at the level where `q` leaves the path of `p`:
the leaf of `q` is stored there. -/
theorem SetLeafLoop_settle (p q : Path) (hp hq : String) (n k : Nat) (idx : IndexType)
    (T : List Level) (hdiff : p.nth_msb k ≠ q.nth_msb k)
    (hidx : idx.set_nth_msb k (q.nth_msb k) = q.pre (k + 1))
    (hlen : T.length = k + 1) (hT : ∀ e i, levelAt T e i = collisionStage p hp k e i) :
    ∃ T2, SetLeafLoop q hq (n + 1) k idx T = .ok T2 ∧ T2.length = k + 1 ∧
      ∀ e i, levelAt T2 e i = collisionFinal p q hp hq k e i := by
  have hqp := Path.pre_succ_ne p q k hdiff
  have hnone : levelAt (EnsureHaveLevel T k) k (idx.set_nth_msb k (q.nth_msb k)) = none := by
    rw [levelAt_ensure, hidx, hT]
    simp [collisionStage, hqp]
  refine ⟨_, SetLeafLoop_none q hq n k idx T hnone, ?_, ?_⟩
  · rw [List.length_set, length_ensure, hlen]
    omega
  · intro e i
    rw [levelAt_set, length_ensure, hlen, hidx]
    by_cases he : e = k
    · subst he
      have h1 : e < max (e + 1) (e + 1) := by omega
      simp only [true_and, h1, if_true, collisionFinal]
      by_cases hi : i = q.pre (e + 1)
      · simp [hi]
      · simp only [hi, if_false]
        rw [levelAt_ensure, hT]
    · simp only [he, false_and, if_false, collisionFinal]
      rw [levelAt_ensure, hT]

/-- The second `SetLeaf` reaches iteration `j`, for every `j` up to the length of the
common part of the two paths, with the leaf of `p` moved down to level `j`. -/
theorem SetLeafLoop_chain (p q : Path) (hp hq : String) (k : Nat) (hk : k ≤ 255)
    (hagree : ∀ i, i < k → p.nth_msb i = q.nth_msb i) (hne : p ≠ q) (T1 : List Level)
    (hlen1 : T1.length = 1) (hT1 : ∀ e i, levelAt T1 e i = collisionStage p hp 0 e i) :
    ∀ j, j ≤ k → ∃ idx T,
      SetLeafLoop q hq 256 0 Path.zero T1 = SetLeafLoop q hq (256 - j) j idx T ∧
      idx.set_nth_msb j (q.nth_msb j) = q.pre (j + 1) ∧
      T.length = j + 1 ∧ ∀ e i, levelAt T e i = collisionStage p hp j e i := by
  intro j
  induction j with
  | zero =>
    intro _
    refine ⟨Path.zero, T1, rfl, ?_, hlen1, hT1⟩
    rw [Path.pre_succ, Path.pre_zero]
  | succ j ih =>
    intro hj
    obtain ⟨idx, T, hrun, hidx, hlen, hT⟩ := ih (by omega)
    have hn : 256 - j = (255 - j) + 1 := by omega
    rw [hn] at hrun
    obtain ⟨idx2, T2, hstep, hidx2, hlen2, hT2⟩ :=
      SetLeafLoop_collide p q hp hq (255 - j) j idx T (by omega)
        (fun i hi => hagree i (by omega)) hne hidx hlen hT
    refine ⟨idx2, T2, ?_, hidx2, hlen2, hT2⟩
    rw [hrun, hstep]
    have hn2 : 256 - (j + 1) = 255 - j := by omega
    rw [hn2]

end SparseMerkleTree

namespace SparseMerkleTree

/-- Claim C22: every sequence of `SetLeaf` calls on a fresh tree succeeds and leaves maps
that satisfy the representation invariant: (a) a node exists at `(depth, key)` only if
some path that was set has `key` as its first `depth + 1` bits; (b) the LEAF nodes
correspond one to one to the distinct paths set, the leaf of a path stored under the key
made of the first bits of that path at its depth and carrying `HashLeaf` of the last data
set for it; (c) every position above a node holds an INTERNAL node, and INTERNAL nodes
occur only at depths below 255. -/
theorem C22_representation_invariant (hasher : TreeHasher) (h32 : hasher.DigestSize = 32)
    (ops : List (Path × String)) :
    ∃ t, SetLeaves hasher (fresh hasher) ops = .ok t ∧ RepInvariant hasher ops t.tree_ := by
  obtain ⟨t, ht, inv, _⟩ := SetLeaves_inv hasher h32 ops
  exact ⟨t, ht, RepInvariant.of_inv hasher ops t inv⟩

/-- Witness of C22: three calls, the last replacing the data of the first path. -/
theorem C22_witness :
    ∃ t, SetLeaves flagHasher (fresh flagHasher)
        [(Path.zero, "a"), (secondPath, "b"), (Path.zero, "c")] = .ok t ∧
      RepInvariant flagHasher [(Path.zero, "a"), (secondPath, "b"), (Path.zero, "c")] t.tree_ :=
  C22_representation_invariant flagHasher rfl
    [(Path.zero, "a"), (secondPath, "b"), (Path.zero, "c")]

/-- In every tree state that `SetLeaf` and `CurrentRoot` calls produce from the first
tree of a process, and for every path `p` that no leaf of the tree carries (it was not set),
`CurrentRoot` after `SetLeaf(p, "")` returns the digest `CurrentRoot` returns before it,
whether `SetLeaf` runs on the state before or after the first `CurrentRoot` filled its
caches. -/
theorem empty_value_invisible_first (hasher : TreeHasher) (h32 : hasher.DigestSize = 32)
    (t : SparseMerkleTree) (hr : Reachable hasher t) (p : Path)
    (hp : ∀ d k node, levelAt t.tree_ d k = some node → node.type_ = NodeType.LEAF →
      node.path_ ≠ some p) :
    ∃ r t1 t2 t3 t4 t5, CurrentRoot hasher t = .ok (r, t1) ∧
      SetLeaf hasher t p "" = .ok t2 ∧ CurrentRoot hasher t2 = .ok (r, t3) ∧
      SetLeaf hasher t1 p "" = .ok t4 ∧ CurrentRoot hasher t4 = .ok (r, t5) := by
  obtain ⟨M, inv⟩ := hr.inv h32
  have hM : M p = none := unset_of_no_leaf inv.sem p hp
  obtain ⟨t1, h1, inv1, _⟩ := CurrentRoot_spec hasher h32 M t inv
  obtain ⟨t2, h2, inv2, _⟩ := SetLeaf_spec hasher h32 M t inv p ""
  obtain ⟨t3, h3, _, _⟩ := CurrentRoot_spec hasher h32 _ t2 inv2
  obtain ⟨t4, h4, inv4, _⟩ := SetLeaf_spec hasher h32 M t1 inv1 p ""
  obtain ⟨t5, h5, _, _⟩ := CurrentRoot_spec hasher h32 _ t4 inv4
  rw [rootValue_update_empty hasher M p hM] at h3 h5
  exact ⟨_, t1, t2, t3, t4, t5, h1, h2, h3, h4, h5⟩

/-- Claim C27 (the code at a failing input): a tree constructed with `constHasher` after
one was constructed with `flagHasher` in the same process receives the null hashes
computed with `flagHasher` (last entry "0"), not those of its own hasher (last entry
"x"). -/
theorem C27_code_at_failing_input :
    (create constHasher (create flagHasher none).2).1.null_hashes_
      = (GetNullHashes flagHasher none).1 ∧
    (create constHasher (create flagHasher none).2).1.null_hashes_.get? 255 = some "0" ∧
    (GetNullHashes constHasher none).1.get? 255 = some "x" ∧
    (create constHasher (create flagHasher none).2).1.null_hashes_
      ≠ (GetNullHashes constHasher none).1 := by
  have h1 : (create constHasher (create flagHasher none).2).1.null_hashes_
      = (GetNullHashes flagHasher none).1 := by
    simp only [create, GetNullHashes]
  have h2 : (GetNullHashes flagHasher none).1.get? 255 = some "0" := by
    rw [GetNullHashes_none, computeNullHashes_get flagHasher 255 (by decide)]
    rfl
  have h3 : (GetNullHashes constHasher none).1.get? 255 = some "x" := by
    rw [GetNullHashes_none, computeNullHashes_get constHasher 255 (by decide)]
    rfl
  refine ⟨h1, by rw [h1]; exact h2, h3, ?_⟩
  intro h
  rw [h1] at h
  rw [h, h3] at h2
  exact absurd h2 (by decide)

end SparseMerkleTree

namespace SparseMerkleTree

/-- Claim C23: for two paths `p` and `q` that agree on their first `k` bits and differ at
bit `k` (`k <= 255`), `SetLeaf(p, a)` then `SetLeaf(q, b)` on a fresh tree succeed and
leave `k + 1` levels holding exactly: at each level `j < k` one INTERNAL node without
cached hash under the common first `j + 1` bits, and at level `k` the two leaves under
their own first `k + 1` bits. The loop of the second call reaches every iteration
`j <= k` with the leaf of `p` at level `j` and INTERNAL nodes above it, so the leaf moved
down one level per iteration, `k` times in total. -/
theorem C23_collision_resolution (hasher : TreeHasher) (h32 : hasher.DigestSize = 32)
    (p q : Path) (a b : String) (k : Nat) (hk : k ≤ 255)
    (hagree : ∀ i, i < k → p.nth_msb i = q.nth_msb i)
    (hdiff : p.nth_msb k ≠ q.nth_msb k) :
    ∃ t1 t2, SetLeaf hasher (fresh hasher) p a = .ok t1 ∧ SetLeaf hasher t1 q b = .ok t2 ∧
      t2.tree_.length = k + 1 ∧
      (∀ e i, levelAt t2.tree_ e i
        = collisionFinal p q (hasher.HashLeaf a) (hasher.HashLeaf b) k e i) ∧
      (∀ j, j ≤ k → ∃ idx T,
        SetLeafLoop q (hasher.HashLeaf b) 256 0 Path.zero t1.tree_
          = SetLeafLoop q (hasher.HashLeaf b) (256 - j) j idx T ∧
        T.length = j + 1 ∧
        ∀ e i, levelAt T e i = collisionStage p (hasher.HashLeaf a) j e i) := by
  have hne : p ≠ q := Path.ne_of_bit_ne p q k hdiff
  obtain ⟨T1, hrun1, hlen1, hT1⟩ := SetLeafLoop_first p (hasher.HashLeaf a)
  have hchain := SetLeafLoop_chain p q (hasher.HashLeaf a) (hasher.HashLeaf b) k hk hagree
    hne T1 hlen1 hT1
  obtain ⟨idx, T, hrun, hidx, hlen, hT⟩ := hchain k (le_refl k)
  have hn : 256 - k = (255 - k) + 1 := by omega
  rw [hn] at hrun
  obtain ⟨T2, hrun2, hlen2, hT2⟩ :=
    SetLeafLoop_settle p q (hasher.HashLeaf a) (hasher.HashLeaf b) (255 - k) k idx T hdiff
      hidx hlen hT
  have hfresh : (fresh hasher).tree_ = [] := rfl
  have hs1 : SetLeaf hasher (fresh hasher) p a
      = .ok { fresh hasher with tree_ := T1, root_hash_ := "" } := by
    unfold SetLeaf
    rw [if_pos (by rw [h32]; rfl), hfresh]
    show (match SetLeafLoop p (hasher.HashLeaf a) 256 0 Path.zero [] with
      | .ok tree => Except.ok { fresh hasher with tree_ := tree, root_hash_ := "" }
      | .error e => Except.error e) = _
    rw [hrun1]
  have hs2 : SetLeaf hasher { fresh hasher with tree_ := T1, root_hash_ := "" } q b
      = .ok { fresh hasher with tree_ := T2, root_hash_ := "" } := by
    unfold SetLeaf
    rw [if_pos (by rw [h32]; rfl)]
    show (match SetLeafLoop q (hasher.HashLeaf b) 256 0 Path.zero T1 with
      | .ok tree => Except.ok { fresh hasher with tree_ := tree, root_hash_ := "" }
      | .error e => Except.error e) = _
    rw [hrun, hrun2]
  refine ⟨_, _, hs1, hs2, hlen2, hT2, ?_⟩
  intro j hj
  obtain ⟨idx3, T3, h1, _, h3, h4⟩ := hchain j hj
  exact ⟨idx3, T3, h1, h3, h4⟩

/-- Witness of C23: the zero path and the path with only its second bit set share one
bit. -/
theorem C23_witness :
    ∃ t1 t2, SetLeaf flagHasher (fresh flagHasher) Path.zero "a" = .ok t1 ∧
      SetLeaf flagHasher t1 secondPath "b" = .ok t2 ∧
      t2.tree_.length = 1 + 1 ∧
      (∀ e i, levelAt t2.tree_ e i
        = collisionFinal Path.zero secondPath (flagHasher.HashLeaf "a")
            (flagHasher.HashLeaf "b") 1 e i) ∧
      (∀ j, j ≤ 1 → ∃ idx T,
        SetLeafLoop secondPath (flagHasher.HashLeaf "b") 256 0 Path.zero t1.tree_
          = SetLeafLoop secondPath (flagHasher.HashLeaf "b") (256 - j) j idx T ∧
        T.length = j + 1 ∧
        ∀ e i, levelAt T e i = collisionStage Path.zero (flagHasher.HashLeaf "a") j e i) :=
  C23_collision_resolution flagHasher rfl Path.zero secondPath "a" "b" 1 (by decide)
    (by decide) (by decide)

/-- Example: on the first tree of a process, after the zero path and the path with only
its second bit set were given data, setting the empty value at the path with only its
first bit set leaves the root as it was. -/
theorem empty_value_invisible_first_example :
    ∃ t, SetLeaves flagHasher (fresh flagHasher) [(Path.zero, "a"), (secondPath, "b")]
        = .ok t ∧
      ∃ r t1 t2 t3 t4 t5, CurrentRoot flagHasher t = .ok (r, t1) ∧
        SetLeaf flagHasher t highPath "" = .ok t2 ∧ CurrentRoot flagHasher t2 = .ok (r, t3) ∧
        SetLeaf flagHasher t1 highPath "" = .ok t4 ∧
        CurrentRoot flagHasher t4 = .ok (r, t5) := by
  obtain ⟨t, ht, inv, hr⟩ := SetLeaves_inv flagHasher rfl [(Path.zero, "a"), (secondPath, "b")]
  refine ⟨t, ht, empty_value_invisible_first flagHasher rfl t hr highPath ?_⟩
  intro d k node hnode hleaf hpath
  have hrep := RepInvariant.of_inv flagHasher _ t inv
  obtain ⟨q, data, hd, _, hn⟩ := hrep.path_of_leaf d k node hnode hleaf
  rw [hn] at hpath
  simp only [TreeNode.leaf, Option.some.injEq] at hpath
  subst hpath
  have hmem := lastData_mem _ _ _ hd
  simp only [List.mem_cons, Prod.mk.injEq, List.mem_singleton, List.not_mem_nil,
    or_false] at hmem
  rcases hmem with ⟨h1, _⟩ | ⟨h1, _⟩
  · exact absurd h1 (by decide)
  · exact absurd h1 (by decide)

end SparseMerkleTree

namespace HttpHandler

/-- Claim C21 (as stated, refuted at a concrete input): on a stale node a GET request for
get-sth is handed to the proxy and no latency scope of the path is opened or closed around
it, so the forwarded request is not accounted for in the latency measurement. -/
theorem C21_counterexample :
    serve FLAGS_default exampleLibrary { exampleHandler 0 with node_is_stale_ := true }
        "/ct/v1/get-sth" (exampleRequest evhttp_cmd_type.EVHTTP_REQ_GET "" "" 0 0)
      = some [Call.PoolAdd (PoolTask.ProxyRequest
          (exampleRequest evhttp_cmd_type.EVHTTP_REQ_GET "" "" 0 0))] ∧
    Call.ScopedLatencyBegin "/ct/v1/get-sth"
      ∉ [Call.PoolAdd (PoolTask.ProxyRequest
          (exampleRequest evhttp_cmd_type.EVHTTP_REQ_GET "" "" 0 0))] := by
  refine ⟨rfl, ?_⟩
  simp

/-- Claim C21 (amended): every callback registered through `AddProxyWrappedHandler` is
the proxy interceptor applied to the latency-measuring wrapper of the local handler: the
proxy interceptor is the outer wrapper and the latency measurement the inner one. So a
request forwarded because the node is stale makes the single call `pool_->Add` and no
latency scope encloses it, and a request handled locally runs the local handler between
the begin and the end of the latency scope of its path. -/
theorem C21_proxy_wraps_latency (flags : Flags) (lib : Library)
    (this : CertificateHttpHandler) :
    ∃ server, Add flags lib this [] = some server ∧
      ∀ e ∈ server, ∃ local_handler : BoundCallback,
        (e.2 = fun that =>
          ProxyInterceptor that (StatsHandlerInterceptor e.1 (local_handler that))) ∧
        (∀ (that : CertificateHttpHandler) (req : Request), that.node_is_stale_ = true →
          e.2 that req = [Call.PoolAdd (PoolTask.ProxyRequest req)] ∧
          Call.ScopedLatencyBegin e.1 ∉ e.2 that req ∧
          Call.ScopedLatencyEnd e.1 ∉ e.2 that req) ∧
        (∀ (that : CertificateHttpHandler) (req : Request), that.node_is_stale_ = false →
          e.2 that req = [Call.ScopedLatencyBegin e.1] ++ local_handler that req
            ++ [Call.ScopedLatencyEnd e.1]) := by
  refine ⟨_, Add_eq flags lib this, ?_⟩
  have key : ∀ (path : String) (local_handler : BoundCallback),
      ∃ l : BoundCallback,
        ((fun that => ProxyInterceptor that (StatsHandlerInterceptor path (local_handler that)))
          = fun that => ProxyInterceptor that (StatsHandlerInterceptor path (l that))) ∧
        (∀ (that : CertificateHttpHandler) (req : Request), that.node_is_stale_ = true →
          ProxyInterceptor that (StatsHandlerInterceptor path (local_handler that)) req
            = [Call.PoolAdd (PoolTask.ProxyRequest req)] ∧
          Call.ScopedLatencyBegin path
            ∉ ProxyInterceptor that (StatsHandlerInterceptor path (local_handler that)) req ∧
          Call.ScopedLatencyEnd path
            ∉ ProxyInterceptor that (StatsHandlerInterceptor path (local_handler that)) req) ∧
        (∀ (that : CertificateHttpHandler) (req : Request), that.node_is_stale_ = false →
          ProxyInterceptor that (StatsHandlerInterceptor path (local_handler that)) req
            = [Call.ScopedLatencyBegin path] ++ l that req
              ++ [Call.ScopedLatencyEnd path]) := by
    intro path local_handler
    refine ⟨local_handler, rfl, ?_, ?_⟩
    · intro that req hs
      simp [ProxyInterceptor, IsNodeStale, hs]
    · intro that req hs
      simp [ProxyInterceptor, IsNodeStale, hs, StatsHandlerInterceptor]
  intro e he
  cases hc : this.cert_checker_ <;> cases hf : this.frontend_ <;>
    simp only [hc, hf, Option.isSome, Bool.false_eq_true, if_false, if_true, List.append_nil,
      List.cons_append, List.nil_append, List.mem_cons, List.mem_singleton,
      List.not_mem_nil, or_false] at he <;>
    rcases he with rfl | he <;> first
      | exact key _ _
      | (rcases he with rfl | he <;> first
          | exact key _ _
          | (rcases he with rfl | he <;> first
              | exact key _ _
              | (rcases he with rfl | he <;> first
                  | exact key _ _
                  | (rcases he with rfl | he <;> first
                      | exact key _ _
                      | (rcases he with rfl | rfl <;> exact key _ _)))))

/-- Claim C24: if the scan opened at `start` begins with a run of in-sequence entries that
serialise, followed, still within `[start, e]`, by an in-sequence entry for which
`SerializeForLeaf`, `SerializeExtraData` or, with `include_scts` set, `SerializeSCT`
fails, then the only reply of get-entries is HTTP 500 "Serialization failed.", however
long the run; and without `include_scts` no reply is that error as long as the leaf input
and the extra data of every entry serialise, whatever the SCTs do. -/
theorem C24_serialisation_failure_atomic (ScanEntries : Int → List LoggedEntry)
    (start e : Int) (include_scts : Bool) (run : List LoggedEntry) (x : LoggedEntry)
    (rest : List LoggedEntry)
    (hstart : -(2 ^ 63) ≤ start) (he : e < 2 ^ 63)
    (hscan : ScanEntries start = run ++ x :: rest)
    (hseq : ∀ j (hj : j < run.length), (run.get ⟨j, hj⟩).sequence_number = start + j)
    (hser : ∀ y ∈ run, serialises include_scts y = true)
    (hx : x.sequence_number = start + run.length)
    (hin : start + run.length ≤ e)
    (hfail : serialises include_scts x = false) :
    BlockingGetEntries ScanEntries start e include_scts
        = [Reply.SendError HTTP_INTERNAL "Serialization failed."] ∧
    (∀ (Scan2 : Int → List LoggedEntry) (s2 e2 : Int),
      (∀ y ∈ Scan2 s2, y.leaf_input ≠ none ∧ y.extra_data ≠ none) →
      Reply.SendError HTTP_INTERNAL "Serialization failed."
        ∉ BlockingGetEntries Scan2 s2 e2 false) := by
  refine ⟨?_, ?_⟩
  · unfold BlockingGetEntries
    rw [hscan, entriesLoop_skip include_scts e he run (x :: rest) start [] hstart hin hseq hser,
      entriesLoop_fail include_scts e x rest _ _ hin hx hfail]
  · intro Scan2 s2 e2 h
    obtain ⟨out, hout⟩ := entriesLoop_no_sct e2 (Scan2 s2) s2 [] h
    unfold BlockingGetEntries
    rw [hout]
    simp only
    split <;> simp [HTTP_INTERNAL, HTTP_BADREQUEST]

/-- Witness of C24: the scan holds entry 0, which serialises, then entry 1, whose extra
data does not; the request for entries 0 to 5 is answered with 500 alone. -/
theorem C24_witness :
    BlockingGetEntries
        (fun _ => [⟨0, some "a", some "b", none⟩, ⟨1, some "c", none, none⟩,
          ⟨2, some "e", some "f", none⟩]) 0 5 false
      = [Reply.SendError HTTP_INTERNAL "Serialization failed."] :=
  (C24_serialisation_failure_atomic
    (fun _ => [⟨0, some "a", some "b", none⟩, ⟨1, some "c", none, none⟩,
      ⟨2, some "e", some "f", none⟩]) 0 5 false
    [⟨0, some "a", some "b", none⟩] ⟨1, some "c", none, none⟩ [⟨2, some "e", some "f", none⟩]
    (by decide) (by decide) rfl
    (by intro j hj; simp only [List.length_singleton, Nat.lt_one_iff] at hj; subst hj; rfl)
    (by intro y hy; simp only [List.mem_singleton] at hy; subst hy; rfl)
    rfl (by decide) rfl).1

/-- Claim C26 (the code at a failing input): for `start = end = 2^63 - 1` and the default
flag value 1000 the sum `start + 1000` wraps to `-2^63 + 999`, so the clamped end is below
`start`; the loop is not entered and the request is answered "Entry not found." although
the scan opened at `start` holds the entry with that sequence number. -/
theorem C26_code_at_failing_input :
    min (2 ^ 63 - 1 : Int) (wrap64 ((2 ^ 63 - 1) + FLAGS_default.max_leaf_entries_per_response))
      = -(2 ^ 63) + 999 ∧
    ¬ ((2 ^ 63 - 1 : Int)
      ≤ min (2 ^ 63 - 1 : Int)
          (wrap64 ((2 ^ 63 - 1) + FLAGS_default.max_leaf_entries_per_response))) ∧
    GetEntries FLAGS_default
        { exampleHandler 0 with
          db_ := fun _ => [⟨2 ^ 63 - 1, some "leaf", some "extra", none⟩] }
        (exampleRequest evhttp_cmd_type.EVHTTP_REQ_GET "start" "end" (2 ^ 63 - 1) (2 ^ 63 - 1))
      = [Call.ScanEntries (2 ^ 63 - 1),
         Call.Send (Reply.SendError HTTP_BADREQUEST "Entry not found.")] := by
  refine ⟨by decide, by decide, ?_⟩
  simp [GetEntries, exampleRequest, FLAGS_default, wrap64, BlockingGetEntriesCalls,
    BlockingGetEntries, entriesLoop]

end HttpHandler

namespace CertificateHttpHandler

theorem ExtractChainLoop_sends (lib : Library) :
    ∀ (items : List JsonDoc) (chain : List String),
      ((ExtractChainLoop lib items chain).1 = false →
        (ExtractChainLoop lib items chain).2.1.length = 1) ∧
      ((ExtractChainLoop lib items chain).1 = true →
        (ExtractChainLoop lib items chain).2.1 = []) := by
  intro items
  induction items with
  | nil => intro chain; simp [ExtractChainLoop]
  | cons x items ih =>
    intro chain
    cases x with
    | string s =>
      rw [ExtractChainLoop]
      by_cases hl : lib.IsLoaded (lib.FromBase64 s) = true
      · simp only [hl, Bool.not_true, Bool.false_eq_true, if_false]
        exact ih _
      · simp [hl]
    | null => simp [ExtractChainLoop]
    | boolean b => simp [ExtractChainLoop]
    | number t => simp [ExtractChainLoop]
    | array a => simp [ExtractChainLoop]
    | object o => simp [ExtractChainLoop]

theorem ExtractChain_sends (lib : Library) (req : Request) :
    ((ExtractChain lib req).1 = false → (ExtractChain lib req).2.1.length = 1) ∧
    ((ExtractChain lib req).1 = true → (ExtractChain lib req).2.1 = []) := by
  by_cases hpost : req.command = evhttp_cmd_type.EVHTTP_REQ_POST
  · rw [ExtractChain_post lib req hpost]
    cases req.body.bind (JsonDoc.arrayMember "chain") with
    | none => simp
    | some items => exact ExtractChainLoop_sends lib items []
  · simp [ExtractChain, hpost]

theorem GetRootsLoop_replies :
    ∀ (certs : List (Option String)) (roots : List JsonValue),
      (HttpHandler.replies (GetRootsLoop certs roots)).length = 1 := by
  intro certs
  induction certs with
  | nil => intro roots; simp [GetRootsLoop, HttpHandler.replies]
  | cons c certs ih =>
    intro roots
    cases c with
    | none => simp [GetRootsLoop, HttpHandler.replies]
    | some cert =>
      rw [GetRootsLoop, HttpHandler.replies, List.filterMap_cons]
      simp only
      exact ih _

end CertificateHttpHandler

namespace HttpHandler

/-- Claim C28: each of GetEntries (with BlockingGetEntries), GetProof, GetSTH,
GetConsistency and GetRoots (which returns whenever the method is not GET or the cert
checker is not null) makes exactly one reply among its calls, AddEntryReply makes exactly
one reply, and ExtractChain sends exactly one error when it returns false and nothing when
it returns true. -/
theorem C28_exactly_one_reply (flags : Flags) (lib : Library)
    (this : CertificateHttpHandler) (req : Request) :
    (replies (GetEntries flags this req)).length = 1 ∧
    (∀ start e include_scts, (BlockingGetEntries this.db_ start e include_scts).length = 1) ∧
    (replies (GetProof lib this req)).length = 1 ∧
    (replies (GetSTH this req)).length = 1 ∧
    (replies (GetConsistency this req)).length = 1 ∧
    ((req.command ≠ evhttp_cmd_type.EVHTTP_REQ_GET ∨ this.cert_checker_ ≠ none) →
      ∃ calls, CertificateHttpHandler.GetRoots this req = some calls) ∧
    (∀ calls, CertificateHttpHandler.GetRoots this req = some calls →
      (replies calls).length = 1) ∧
    (∀ add_status sct, (AddEntryReply add_status sct).length = 1) ∧
    ((CertificateHttpHandler.ExtractChain lib req).1 = false →
      (CertificateHttpHandler.ExtractChain lib req).2.1.length = 1) ∧
    ((CertificateHttpHandler.ExtractChain lib req).1 = true →
      (CertificateHttpHandler.ExtractChain lib req).2.1 = []) := by
  refine ⟨?_, ?_, ?_, ?_, ?_, ?_, ?_, ?_,
    (CertificateHttpHandler.ExtractChain_sends lib req).1,
    (CertificateHttpHandler.ExtractChain_sends lib req).2⟩
  · unfold GetEntries
    split
    · rfl
    · simp only
      split
      · rfl
      · split
        · rfl
        · rw [BlockingGetEntriesCalls, replies, List.filterMap_cons]
          simp only
          rw [← replies, replies_map_send]
          exact BlockingGetEntries_length _ _ _ _
  · intro start e include_scts
    exact BlockingGetEntries_length _ _ _ _
  · unfold GetProof
    split
    · rfl
    · simp only
      split
      · rfl
      · split
        · rfl
        · split
          · rfl
          · split
            · rfl
            · split <;> rfl
  · unfold GetSTH
    split <;> rfl
  · unfold GetConsistency
    split
    · rfl
    · simp only
      split
      · rfl
      · split <;> rfl
  · intro h
    unfold CertificateHttpHandler.GetRoots
    by_cases hm : req.command ≠ evhttp_cmd_type.EVHTTP_REQ_GET
    · exact ⟨_, if_pos hm⟩
    · rw [if_neg hm]
      rcases h with h | h
      · exact absurd h hm
      · cases hc : this.cert_checker_ with
        | none => exact absurd hc h
        | some c => exact ⟨_, rfl⟩
  · intro calls h
    unfold CertificateHttpHandler.GetRoots at h
    by_cases hm : req.command ≠ evhttp_cmd_type.EVHTTP_REQ_GET
    · rw [if_pos hm] at h
      cases h
      rfl
    · rw [if_neg hm] at h
      cases hc : this.cert_checker_ with
      | none => rw [hc] at h; cases h
      | some c =>
        rw [hc] at h
        cases h
        rw [replies, List.filterMap_cons]
        simp only
        exact CertificateHttpHandler.GetRootsLoop_replies _ _
  · intro add_status sct
    unfold AddEntryReply
    split <;> rfl

end HttpHandler

namespace SparseMerkleTree

/-! ### The uncached recomputation -/

theorem BelowU.self (d : Nat) (k : IndexType) : BelowU d k d k :=
  ⟨Nat.le_refl d, fun _ _ => rfl⟩

theorem BelowU.left {d : Nat} {k : IndexType} {e : Nat} {j : IndexType}
    (h : BelowU (d + 1) k e j) : BelowU d k e j :=
  ⟨by have := h.1; omega, fun i hi => h.2 i (by omega)⟩

theorem BelowU.right {d : Nat} {k : IndexType} {e : Nat} {j : IndexType}
    (h : BelowU (d + 1) (k.set_nth_msb (d + 1) true) e j) : BelowU d k e j := by
  refine ⟨by have := h.1; omega, fun i hi => ?_⟩
  have h1 := h.1
  rw [h.2 i (by omega), Path.nth_msb_set]
  have : ¬ (i = d + 1 ∧ d + 1 < 256) := by omega
  rw [if_neg this]

theorem uncached_none (hasher : TreeHasher) (nulls : List String) (tree : List Level)
    (g d : Nat) (k : IndexType) (h : levelAt tree d k = none) :
    uncachedSubtreeHash hasher nulls tree (g + 1) d k = nullAt nulls d := by
  unfold uncachedSubtreeHash
  simp only [h]

theorem uncached_internal (hasher : TreeHasher) (nulls : List String) (tree : List Level)
    (g d : Nat) (k : IndexType) (node : TreeNode) (h : levelAt tree d k = some node)
    (hi : node.type_ = NodeType.INTERNAL) :
    uncachedSubtreeHash hasher nulls tree (g + 1) d k
      = match uncachedSubtreeHash hasher nulls tree g (d + 1) k with
        | .error e => .error e
        | .ok left =>
          match uncachedSubtreeHash hasher nulls tree g (d + 1)
              (k.set_nth_msb (d + 1) true) with
          | .error e => .error e
          | .ok right => .ok (hasher.HashChildren left right) := by
  conv => lhs; unfold uncachedSubtreeHash
  simp only [h, hi]
  try rfl

theorem uncached_leaf (hasher : TreeHasher) (nulls : List String) (tree : List Level)
    (g d : Nat) (k : IndexType) (node : TreeNode) (h : levelAt tree d k = some node)
    (hi : node.type_ = NodeType.LEAF) :
    uncachedSubtreeHash hasher nulls tree (g + 1) d k
      = match node.path_ with
        | none => .error Fatal.null_path
        | some q => foldLeaf hasher nulls q (kDigestSizeBits - 1 - d) (kDigestSizeBits - 1)
            node.hash_ := by
  conv => lhs; unfold uncachedSubtreeHash
  simp only [h, hi]
  try rfl

/-- The recomputation started at `(d, k)` reads only the positions below `(d, k)`, and of
an INTERNAL node only its type. -/
theorem uncached_congr (hasher : TreeHasher) (nulls : List String) (a b : List Level)
    (g : Nat) : ∀ (d : Nat) (k : IndexType),
      (∀ e j, BelowU d k e j → SimO (levelAt a e j) (levelAt b e j)) →
      uncachedSubtreeHash hasher nulls a g d k = uncachedSubtreeHash hasher nulls b g d k := by
  induction g with
  | zero => intro d k _; rfl
  | succ g ih =>
    intro d k h
    have hs := h d k (BelowU.self d k)
    cases ha : levelAt a d k with
    | none =>
      cases hb : levelAt b d k with
      | none => rw [uncached_none _ _ _ _ _ _ ha, uncached_none _ _ _ _ _ _ hb]
      | some y => rw [ha, hb] at hs; exact hs.elim
    | some x =>
      cases hb : levelAt b d k with
      | none => rw [ha, hb] at hs; exact hs.elim
      | some y =>
        rw [ha, hb] at hs
        obtain ⟨hty, hpa, hha⟩ := hs
        cases hx : x.type_ with
        | INTERNAL =>
          rw [uncached_internal _ _ _ _ _ _ x ha hx,
            uncached_internal _ _ _ _ _ _ y hb (hty ▸ hx),
            ih (d + 1) k (fun e j hb => h e j hb.left),
            ih (d + 1) (k.set_nth_msb (d + 1) true) (fun e j hb => h e j hb.right)]
        | LEAF =>
          rw [uncached_leaf _ _ _ _ _ _ x ha hx,
            uncached_leaf _ _ _ _ _ _ y hb (hty ▸ hx), ← hpa, ← hha hx]

theorem uncached_sameSkel (hasher : TreeHasher) (nulls : List String) {a b : List Level}
    (h : SameSkel a b) (g d : Nat) (k : IndexType) :
    uncachedSubtreeHash hasher nulls a g d k = uncachedSubtreeHash hasher nulls b g d k :=
  uncached_congr hasher nulls a b g d k (fun e j _ => h.2 e j)

/-- Past the last level the recursion stops, so any bound that reaches it gives the same
result. -/
theorem uncached_fuel (hasher : TreeHasher) (nulls : List String) (tree : List Level)
    (g : Nat) : ∀ (g2 d : Nat) (k : IndexType),
      0 < g → 0 < g2 → tree.length + 1 ≤ g + d → tree.length + 1 ≤ g2 + d →
      uncachedSubtreeHash hasher nulls tree g d k
        = uncachedSubtreeHash hasher nulls tree g2 d k := by
  induction g with
  | zero => intro g2 d k h; omega
  | succ g ih =>
    intro g2 d k _ h2 hg hg2
    obtain ⟨g2, rfl⟩ : ∃ m, g2 = m + 1 := ⟨g2 - 1, by omega⟩
    cases ha : levelAt tree d k with
    | none => rw [uncached_none _ _ _ _ _ _ ha, uncached_none _ _ _ _ _ _ ha]
    | some x =>
      have hlt := levelAt_some_lt tree d k x ha
      cases hx : x.type_ with
      | INTERNAL =>
        rw [uncached_internal _ _ _ _ _ _ x ha hx, uncached_internal _ _ _ _ _ _ x ha hx,
          ih g2 (d + 1) k (by omega) (by omega) (by omega) (by omega),
          ih g2 (d + 1) (k.set_nth_msb (d + 1) true) (by omega) (by omega) (by omega)
            (by omega)]
      | LEAF =>
        rw [uncached_leaf _ _ _ _ _ _ x ha hx, uncached_leaf _ _ _ _ _ _ x ha hx]

end SparseMerkleTree

namespace SparseMerkleTree

/-! ### `CalculateSubtreeHash` against the uncached recomputation -/

theorem CalculateSubtreeHash_at_none (hasher : TreeHasher) (fuel : Nat) (t : SparseMerkleTree)
    (d : Nat) (k : IndexType) (hnone : levelAt t.tree_ d k = none) :
    CalculateSubtreeHash hasher (fuel + 1) t d k
      = match nullAt t.null_hashes_ d with
        | .ok h => .ok (h, t)
        | .error e => .error e := by
  conv => lhs; unfold CalculateSubtreeHash
  split
  · rfl
  · simp only [hnone]
    try rfl

theorem CalculateSubtreeHash_at_cached (hasher : TreeHasher) (fuel : Nat)
    (t : SparseMerkleTree) (d : Nat) (k : IndexType) (node : TreeNode)
    (hnode : levelAt t.tree_ d k = some node) (hi : node.type_ = NodeType.INTERNAL)
    (hc : node.hash_ ≠ "") :
    CalculateSubtreeHash hasher (fuel + 1) t d k = .ok (node.hash_, t) := by
  have hlt : ¬ t.tree_.length ≤ d := by
    have := levelAt_some_lt _ _ _ _ hnode; omega
  conv => lhs; unfold CalculateSubtreeHash
  rw [if_neg hlt]
  simp only [hnode, hi]
  rw [if_pos hc]

theorem CalculateSubtreeHash_at_internal (hasher : TreeHasher) (fuel : Nat)
    (t : SparseMerkleTree) (d : Nat) (k : IndexType) (node : TreeNode)
    (hnode : levelAt t.tree_ d k = some node) (hi : node.type_ = NodeType.INTERNAL)
    (hc : node.hash_ = "") :
    CalculateSubtreeHash hasher (fuel + 1) t d k
      = match CalculateSubtreeHash hasher fuel t (d + 1) k with
        | .error e => .error e
        | .ok (left, t1) =>
          match CalculateSubtreeHash hasher fuel t1 (d + 1) (k.set_nth_msb (d + 1) true) with
          | .error e => .error e
          | .ok (right, t2) =>
            .ok (hasher.HashChildren left right,
              { t2 with tree_ := t2.tree_.set d ((levelAt t2.tree_ d).modify k
                (fun x => { x with hash_ := hasher.HashChildren left right })) }) := by
  have hlt : ¬ t.tree_.length ≤ d := by
    have := levelAt_some_lt _ _ _ _ hnode; omega
  conv => lhs; unfold CalculateSubtreeHash
  rw [if_neg hlt]
  simp only [hnode, hi]
  rw [if_neg (by simpa using hc)]
  try rfl

theorem CalculateSubtreeHash_at_leaf (hasher : TreeHasher) (fuel : Nat)
    (t : SparseMerkleTree) (d : Nat) (k : IndexType) (node : TreeNode)
    (hnode : levelAt t.tree_ d k = some node) (hi : node.type_ = NodeType.LEAF) :
    CalculateSubtreeHash hasher (fuel + 1) t d k
      = match node.path_ with
        | none => .error Fatal.null_path
        | some q =>
          match foldLeaf hasher t.null_hashes_ q (kDigestSizeBits - 1 - d)
              (kDigestSizeBits - 1) node.hash_ with
          | .ok ret => .ok (ret, t)
          | .error e => .error e := by
  have hlt : ¬ t.tree_.length ≤ d := by
    have := levelAt_some_lt _ _ _ _ hnode; omega
  conv => lhs; unfold CalculateSubtreeHash
  rw [if_neg hlt]
  simp only [hnode, hi]
  try rfl

theorem KeyNormal.of_sameSkel {a b : List Level} (h : KeyNormal a) (s : SameSkel a b) :
    KeyNormal b := by
  intro d k node hn
  obtain ⟨x, hx, _⟩ := s.get hn
  exact h d k x hx

/-- With valid caches `CalculateSubtreeHash` stops exactly where the uncached recomputation
stops and returns exactly its digest; the caches it fills are valid again. -/
theorem CalculateSubtreeHash_uncached (hasher : TreeHasher) (fuel : Nat) :
    ∀ (t : SparseMerkleTree) (d : Nat) (k : IndexType),
      CacheValid hasher t.null_hashes_ t.tree_ → t.tree_.length + 1 ≤ fuel + d → 0 < fuel →
      (∀ e, uncachedSubtreeHash hasher t.null_hashes_ t.tree_ fuel d k = .error e →
        CalculateSubtreeHash hasher fuel t d k = .error e) ∧
      (∀ h, uncachedSubtreeHash hasher t.null_hashes_ t.tree_ fuel d k = .ok h →
        ∃ t2, CalculateSubtreeHash hasher fuel t d k = .ok (h, t2) ∧
          CacheValid hasher t2.null_hashes_ t2.tree_ ∧ SameSkel t.tree_ t2.tree_ ∧
          t2.null_hashes_ = t.null_hashes_ ∧ t2.root_hash_ = t.root_hash_) := by
  induction fuel with
  | zero => intro t d k _ _ h0; omega
  | succ fuel ih =>
    intro t d k cv hfuel _
    cases hnode : levelAt t.tree_ d k with
    | none =>
      rw [uncached_none _ _ _ _ _ _ hnode, CalculateSubtreeHash_at_none _ _ _ _ _ hnode]
      cases hn : nullAt t.null_hashes_ d with
      | error e0 => exact ⟨fun e he => by cases he; rfl, fun h he => by cases he⟩
      | ok h0 =>
        refine ⟨fun e he => (by cases he), fun h he => ?_⟩
        cases he
        exact ⟨t, rfl, cv, SameSkel.skel_refl _, rfl, rfl⟩
    | some node =>
      have hlt := levelAt_some_lt _ _ _ _ hnode
      cases htype : node.type_ with
      | INTERNAL =>
        by_cases hc : node.hash_ = ""
        · rw [uncached_internal _ _ _ _ _ _ node hnode htype,
            CalculateSubtreeHash_at_internal _ _ _ _ _ node hnode htype hc]
          obtain ⟨ihe, iho⟩ := ih t (d + 1) k cv (by omega) (by omega)
          cases hl : uncachedSubtreeHash hasher t.null_hashes_ t.tree_ fuel (d + 1) k with
          | error e0 =>
            rw [ihe e0 hl]
            exact ⟨fun e he => by cases he; rfl, fun h he => by cases he⟩
          | ok left =>
            obtain ⟨t1, e1, cv1, skel1, n1, r1⟩ := iho left hl
            rw [e1]
            simp only
            obtain ⟨ihe2, iho2⟩ := ih t1 (d + 1) (k.set_nth_msb (d + 1) true) cv1
              (by rw [← skel1.1]; omega) (by omega)
            rw [n1, ← uncached_sameSkel hasher t.null_hashes_ skel1] at ihe2 iho2
            cases hr : uncachedSubtreeHash hasher t.null_hashes_ t.tree_ fuel (d + 1)
                (k.set_nth_msb (d + 1) true) with
            | error e0 =>
              rw [ihe2 e0 hr]
              exact ⟨fun e he => by cases he; rfl, fun h he => by cases he⟩
            | ok right =>
              obtain ⟨t2, e2, cv2, skel2, n2, r2⟩ := iho2 right hr
              rw [e2]
              simp only
              refine ⟨fun e he => (by cases he), fun h he => ?_⟩
              cases he
              obtain ⟨node2, hnode2, hsim⟩ :=
                (SameSkel.skel_symm (skel1.skel_trans skel2)).get hnode
              have hint2 : node2.type_ = NodeType.INTERNAL := hsim.1.trans htype
              have hupd := Upd_modify t2.tree_ d k
                (fun x => { x with hash_ := hasher.HashChildren left right }) node2 hnode2
              have skel3 := SameSkel.of_upd hnode2 hint2 hupd
              have skel : SameSkel t.tree_ (t2.tree_.set d ((levelAt t2.tree_ d).modify k
                  (fun x => { x with hash_ := hasher.HashChildren left right }))) :=
                (skel1.skel_trans skel2).skel_trans skel3
              refine ⟨_, rfl, ?_, skel, by simp only; rw [n2], by simp only; rw [r2, r1]⟩
              intro e j x hx hxi hxh g hg
              simp only at hx hg ⊢
              rw [n2, ← uncached_sameSkel hasher t.null_hashes_ skel]
              rw [hupd.2 e j] at hx
              by_cases hpos : e = d ∧ j = k
              · rw [if_pos hpos] at hx
                cases hx
                rw [hpos.1, hpos.2]
                simp only
                rw [← skel.1] at hg
                rw [uncached_fuel hasher t.null_hashes_ t.tree_ g (fuel + 1) d k (by omega)
                  (by omega) (by omega) (by omega),
                  uncached_internal _ _ _ _ _ _ node hnode htype, hl, hr]
              · rw [if_neg hpos] at hx
                have := cv2 e j x hx hxi hxh g (by rw [skel3.1]; exact hg)
                rw [n2, ← uncached_sameSkel hasher t.null_hashes_
                  (skel1.skel_trans skel2)] at this
                exact this
        · have hu := cv d k node hnode htype hc (fuel + 1) (by omega)
          rw [hu, CalculateSubtreeHash_at_cached _ _ _ _ _ node hnode htype hc]
          refine ⟨fun e he => (by cases he), fun h he => ?_⟩
          cases he
          exact ⟨t, rfl, cv, SameSkel.skel_refl _, rfl, rfl⟩
      | LEAF =>
        rw [uncached_leaf _ _ _ _ _ _ node hnode htype,
          CalculateSubtreeHash_at_leaf _ _ _ _ _ node hnode htype]
        cases node.path_ with
        | none => exact ⟨fun e he => by cases he; rfl, fun h he => by cases he⟩
        | some q =>
          simp only
          cases foldLeaf hasher t.null_hashes_ q (kDigestSizeBits - 1 - d)
              (kDigestSizeBits - 1) node.hash_ with
          | error e0 => exact ⟨fun e he => by cases he; rfl, fun h he => by cases he⟩
          | ok h0 =>
            refine ⟨fun e he => (by cases he), fun h he => ?_⟩
            cases he
            exact ⟨t, rfl, cv, SameSkel.skel_refl _, rfl, rfl⟩

end SparseMerkleTree

namespace SparseMerkleTree

/-! ### `CurrentRoot` against the uncached recomputation -/

theorem uncachedRoot_congr (hasher : TreeHasher) (t u : SparseMerkleTree)
    (hn : u.null_hashes_ = t.null_hashes_) (hs : SameSkel t.tree_ u.tree_) :
    uncachedRoot hasher u = uncachedRoot hasher t := by
  unfold uncachedRoot
  rw [hn, ← hs.1, ← uncached_sameSkel hasher t.null_hashes_ hs,
    ← uncached_sameSkel hasher t.null_hashes_ hs]

/-- On a tree whose caches are valid `CurrentRoot` stops exactly where the uncached
recomputation of the root stops and returns exactly its digest, and it leaves valid
caches. -/
theorem CurrentRoot_memo (hasher : TreeHasher) (t : SparseMerkleTree) (m : Memo hasher t) :
    (match CurrentRoot hasher t with
      | .ok r => .ok r.1
      | .error e => .error e) = uncachedRoot hasher t ∧
    ∀ r t2, CurrentRoot hasher t = .ok (r, t2) →
      Memo hasher t2 ∧ t2.null_hashes_ = t.null_hashes_ ∧ SameSkel t.tree_ t2.tree_ := by
  by_cases hroot : t.root_hash_ = ""
  · have hcr : CurrentRoot hasher t
        = match CalculateSubtreeHash hasher (t.tree_.length + 1) t 0 (Path.ofUInt64 0) with
          | .error e => .error e
          | .ok (left, t1) =>
            match CalculateSubtreeHash hasher (t1.tree_.length + 1) t1 0 (Path.ofUInt64 1) with
            | .error e => .error e
            | .ok (right, t2) =>
              .ok (hasher.HashChildren left right,
                { t2 with root_hash_ := hasher.HashChildren left right }) := by
      unfold CurrentRoot
      rw [if_pos hroot]
      try rfl
    rw [hcr]
    obtain ⟨ihe, iho⟩ := CalculateSubtreeHash_uncached hasher (t.tree_.length + 1) t 0
      (Path.ofUInt64 0) m.cache (by omega) (by omega)
    have hur : uncachedRoot hasher t
        = match uncachedSubtreeHash hasher t.null_hashes_ t.tree_ (t.tree_.length + 1) 0
            (Path.ofUInt64 0) with
          | .error e => .error e
          | .ok left =>
            match uncachedSubtreeHash hasher t.null_hashes_ t.tree_ (t.tree_.length + 1) 0
                (Path.ofUInt64 1) with
            | .error e => .error e
            | .ok right => .ok (hasher.HashChildren left right) := rfl
    cases hl : uncachedSubtreeHash hasher t.null_hashes_ t.tree_ (t.tree_.length + 1) 0
        (Path.ofUInt64 0) with
    | error e0 =>
      rw [hur, hl, ihe e0 hl]
      exact ⟨rfl, fun r t2 he => by cases he⟩
    | ok left =>
      obtain ⟨t1, e1, cv1, skel1, n1, r1⟩ := iho left hl
      rw [e1]
      simp only
      obtain ⟨ihe2, iho2⟩ := CalculateSubtreeHash_uncached hasher (t1.tree_.length + 1) t1 0
        (Path.ofUInt64 1) cv1 (by omega) (by omega)
      rw [n1, ← uncached_sameSkel hasher t.null_hashes_ skel1, ← skel1.1] at ihe2 iho2
      cases hr : uncachedSubtreeHash hasher t.null_hashes_ t.tree_ (t.tree_.length + 1) 0
          (Path.ofUInt64 1) with
      | error e0 =>
        rw [hur, hl, hr, ← skel1.1, ihe2 e0 hr]
        exact ⟨rfl, fun r t2 he => by cases he⟩
      | ok right =>
        obtain ⟨t2, e2, cv2, skel2, n2, r2⟩ := iho2 right hr
        rw [hur, hl, hr, ← skel1.1, e2]
        refine ⟨rfl, ?_⟩
        intro r t3 he
        simp only [Except.ok.injEq, Prod.mk.injEq] at he
        obtain ⟨_, rfl⟩ := he
        refine ⟨⟨m.keys.of_sameSkel (skel1.skel_trans skel2), cv2, ?_⟩, n2,
          skel1.skel_trans skel2⟩
        intro _
        have := uncachedRoot_congr hasher t
          { t2 with root_hash_ := hasher.HashChildren left right } n2
          (skel1.skel_trans skel2)
        rw [this, hur, hl, hr]
  · have hcr : CurrentRoot hasher t = .ok (t.root_hash_, t) := by
      unfold CurrentRoot
      rw [if_neg hroot]
    rw [hcr]
    refine ⟨(m.root hroot).symm, ?_⟩
    intro r t2 he
    simp only [Except.ok.injEq, Prod.mk.injEq] at he
    obtain ⟨_, rfl⟩ := he
    exact ⟨m, rfl, SameSkel.skel_refl _⟩

end SparseMerkleTree

namespace SparseMerkleTree

/-! ### What `SetLeaf` leaves of the caches -/

theorem BelowU.eq_of_same {d : Nat} {k j : IndexType} (h : BelowU d k d j) : j = k := by
  apply Path.ext_bits
  intro n _
  exact h.2 n (by omega)

theorem index_pre (p : Path) (depth : Nat) (idx : IndexType)
    (lo : ∀ i, i < depth → idx.nth_msb i = p.nth_msb i)
    (hi : ∀ i, depth < i → idx.nth_msb i = false) :
    idx.set_nth_msb depth (p.nth_msb depth) = p.pre (depth + 1) := by
  apply Path.ext_bits
  intro n hn
  rw [Path.nth_msb_set, Path.nth_msb_pre]
  by_cases h1 : n = depth
  · subst h1
    simp [hn]
  · have h2 : ¬ (n = depth ∧ depth < 256) := fun x => h1 x.1
    rw [if_neg h2]
    by_cases h3 : n < depth
    · rw [lo n h3]
      have : n < depth + 1 := by omega
      simp [this]
    · rw [hi n (by omega)]
      have : ¬ n < depth + 1 := by omega
      simp [this]

theorem levelAt_set_at (tree : List Level) (d : Nat) (m : Level) (hlt : d < tree.length)
    (e : Nat) (j : IndexType) :
    levelAt (tree.set d m) e j = if e = d then m j else levelAt tree e j := by
  rw [levelAt_set]
  by_cases h : e = d
  · rw [if_pos ⟨h, hlt⟩, if_pos h]
  · rw [if_neg (fun x => h x.1), if_neg h]

theorem LoopMemo.same (p : Path) (depth : Nat) (T : List Level) : LoopMemo p depth T T :=
  ⟨fun _ _ _ _ _ => rfl, fun _ _ _ h _ _ => ⟨h, fun _ _ _ _ _ => rfl⟩⟩

/-- One iteration of the loop of `SetLeaf`: it writes at the position `(depth, K)` of the
path, where it leaves no cached hash, and possibly at a free position `(depth + 1, K2)`
under it, where it puts no INTERNAL node. -/
theorem LoopMemo.step {p : Path} {depth : Nat} {K J : IndexType} {tree tree1 T : List Level}
    (hK : K = p.pre (depth + 1))
    (hK2 : ∀ i, i ≤ depth → J.nth_msb i = p.nth_msb i)
    (hsame : ∀ e j, ¬ (e = depth ∧ j = K) → ¬ (e = depth + 1 ∧ j = J) →
      levelAt tree1 e j = levelAt tree e j)
    (hnoK : ∀ node, levelAt tree1 depth K = some node → node.type_ = NodeType.INTERNAL →
      node.hash_ = "")
    (hK2c : levelAt tree1 (depth + 1) J = levelAt tree (depth + 1) J ∨
      (levelAt tree (depth + 1) J = none ∧
        ∀ node, levelAt tree1 (depth + 1) J = some node → node.type_ ≠ NodeType.INTERNAL))
    (ih : LoopMemo p (depth + 1) tree1 T) : LoopMemo p depth tree T := by
  have hKbit : ∀ i, i ≤ depth → K.nth_msb i = p.nth_msb i := by
    intro i hi
    rw [hK, Path.nth_msb_pre]
    have : i < depth + 1 := by omega
    simp [this]
  constructor
  · intro e j i hie hne
    rw [ih.1 e j i hie hne]
    apply hsame
    · rintro ⟨rfl, rfl⟩
      exact hne (hKbit i (by omega))
    · rintro ⟨rfl, rfl⟩
      exact hne (hK2 i (by omega))
  · intro d k node hn hty hh
    obtain ⟨h1, h2⟩ := ih.2 d k node hn hty hh
    have hnotK : ¬ (d = depth ∧ k = K) := by
      rintro ⟨rfl, rfl⟩
      exact hh (hnoK node h1 hty)
    have hfirst : levelAt tree d k = some node := by
      by_cases hp2 : d = depth + 1 ∧ k = J
      · obtain ⟨rfl, rfl⟩ := hp2
        rcases hK2c with hc | ⟨_, hc⟩
        · rw [← hc]; exact h1
        · exact absurd hty (hc node h1)
      · rw [← hsame d k hnotK hp2]; exact h1
    refine ⟨hfirst, ?_⟩
    intro hd hk e j hb
    have hde := hb.1
    by_cases hd0 : d = depth
    · subst hd0
      exact absurd ⟨rfl, hk.trans hK.symm⟩ hnotK
    · rw [h2 (by omega) hk e j hb]
      by_cases hp2 : e = depth + 1 ∧ j = J
      · obtain ⟨rfl, rfl⟩ := hp2
        have hdd : d = depth + 1 := by omega
        subst hdd
        have hjk := hb.eq_of_same
        subst hjk
        rcases hK2c with hc | ⟨hc, _⟩
        · exact hc
        · rw [hc] at hfirst; cases hfirst
      · exact hsame e j (fun x => by omega) hp2

end SparseMerkleTree

namespace SparseMerkleTree

/-- An iteration that writes the node `v` at the position of the path and nothing else. -/
theorem LoopMemo.write {p : Path} {depth : Nat} {K : IndexType} {tree tree1 T : List Level}
    {v : TreeNode} (hK : K = p.pre (depth + 1)) (kn : KeyNormal tree)
    (hpt : ∀ e j, levelAt tree1 e j = if e = depth ∧ j = K then some v else levelAt tree e j)
    (hv : v.type_ = NodeType.INTERNAL → v.hash_ = "")
    (ih : LoopMemo p (depth + 1) tree1 T) :
    KeyNormal tree1 ∧ LoopMemo p depth tree T := by
  constructor
  · intro d k node hn
    rw [hpt] at hn
    by_cases hp : d = depth ∧ k = K
    · rw [hp.1, hp.2, hK, Path.pre_idem]
    · rw [if_neg hp] at hn
      exact kn d k node hn
  · refine LoopMemo.step hK (J := K) ?_ ?_ ?_ (Or.inl ?_) ih
    · intro i hi
      rw [hK, Path.nth_msb_pre]
      have : i < depth + 1 := by omega
      simp [this]
    · intro e j h1 _
      rw [hpt, if_neg h1]
    · intro node hn hty
      rw [hpt, if_pos ⟨rfl, rfl⟩] at hn
      cases hn
      exact hv hty
    · rw [hpt, if_neg (fun x => by omega)]

/-- The loop of `SetLeaf` keeps the keys normal and clears every cached hash whose subtree
it touches. -/
theorem SetLeafLoop_memo (p : Path) (h : String) (n : Nat) :
    ∀ (depth : Nat) (idx : IndexType) (tree T : List Level),
      SetLeafLoop p h n depth idx tree = .ok T → KeyNormal tree →
      (∀ i, i < depth → idx.nth_msb i = p.nth_msb i) →
      (∀ i, depth < i → idx.nth_msb i = false) →
      KeyNormal T ∧ LoopMemo p depth tree T := by
  induction n with
  | zero =>
    intro depth idx tree T hT
    unfold SetLeafLoop at hT
    cases hT
  | succ n ih =>
    intro depth idx tree T hT kn lo hi
    have hK := index_pre p depth idx lo hi
    have hl1 := lt_length_ensure tree depth
    cases hnode : levelAt (EnsureHaveLevel tree depth) depth
        (idx.set_nth_msb depth (p.nth_msb depth)) with
    | none =>
      rw [SetLeafLoop_none p h n depth idx tree hnode] at hT
      cases hT
      refine LoopMemo.write (v := TreeNode.leaf p h) hK kn ?_ (fun x => by cases x)
        (LoopMemo.same _ _ _)
      intro e j
      rw [levelAt_set_at _ _ _ hl1]
      by_cases he : e = depth
      · subst he
        rw [if_pos rfl]
        by_cases hj : j = idx.set_nth_msb e (p.nth_msb e)
        · rw [if_pos hj, if_pos ⟨rfl, hj⟩]
        · rw [if_neg hj, if_neg (fun x => hj x.2), levelAt_ensure]
      · rw [if_neg he, if_neg (fun x => he x.1), levelAt_ensure]
    | some node =>
      have hnode0 : levelAt tree depth (idx.set_nth_msb depth (p.nth_msb depth)) = some node := by
        rw [← levelAt_ensure tree depth depth]; exact hnode
      by_cases hi0 : node.type_ = NodeType.INTERNAL
      · rw [SetLeafLoop_internal p h n depth idx tree node hnode hi0] at hT
        have hupd := Upd_modify (EnsureHaveLevel tree depth) depth
          (idx.set_nth_msb depth (p.nth_msb depth)) (fun x => { x with hash_ := "" }) node hnode
        have hpt : ∀ e j, levelAt ((EnsureHaveLevel tree depth).set depth
            ((levelAt (EnsureHaveLevel tree depth) depth).modify
              (idx.set_nth_msb depth (p.nth_msb depth)) (fun x => { x with hash_ := "" }))) e j
            = if e = depth ∧ j = idx.set_nth_msb depth (p.nth_msb depth)
              then some { node with hash_ := "" } else levelAt tree e j := by
          intro e j
          rw [hupd.2 e j, levelAt_ensure]
        have hlo : ∀ i, i < depth + 1 →
            (idx.set_nth_msb depth (p.nth_msb depth)).nth_msb i = p.nth_msb i := by
          intro i hi1
          rw [hK, Path.nth_msb_pre]
          simp [hi1]
        have hhi : ∀ i, depth + 1 < i →
            (idx.set_nth_msb depth (p.nth_msb depth)).nth_msb i = false := by
          intro i hi1
          rw [hK, Path.nth_msb_pre]
          have : ¬ i < depth + 1 := by omega
          simp [this]
        have kn1 : KeyNormal ((EnsureHaveLevel tree depth).set depth
            ((levelAt (EnsureHaveLevel tree depth) depth).modify
              (idx.set_nth_msb depth (p.nth_msb depth)) (fun x => { x with hash_ := "" }))) :=
          (LoopMemo.write hK kn hpt (fun _ => rfl) (LoopMemo.same _ _ _)).1
        obtain ⟨knT, lm⟩ := ih _ _ _ _ hT kn1 hlo hhi
        exact ⟨knT, (LoopMemo.write hK kn hpt (fun _ => rfl) lm).2⟩
      · cases hp : node.path_ with
        | none =>
          rw [SetLeafLoop_null_path p h n depth idx tree node hnode hi0 hp] at hT
          cases hT
        | some q =>
          by_cases hqp : q = p
          · rw [hqp] at hp
            rw [SetLeafLoop_replace p h n depth idx tree node hnode hi0 hp] at hT
            cases hT
            have hupd := Upd_modify (EnsureHaveLevel tree depth) depth
              (idx.set_nth_msb depth (p.nth_msb depth)) (fun x => { x with hash_ := h }) node
              hnode
            refine LoopMemo.write (v := { node with hash_ := h }) hK kn ?_
              (fun x => absurd x hi0) (LoopMemo.same _ _ _)
            intro e j
            rw [hupd.2 e j, levelAt_ensure]
          · by_cases hd : depth < 255
            · cases hfree : levelAt (EnsureHaveLevel (EnsureHaveLevel tree depth) (depth + 1))
                  (depth + 1) ((idx.set_nth_msb depth (p.nth_msb depth)).set_nth_msb (depth + 1)
                    (q.nth_msb (depth + 1))) with
              | none =>
                rw [SetLeafLoop_push p h n depth idx tree node q hnode hi0 hp hqp hd hfree] at hT
                have hfree0 : levelAt tree (depth + 1)
                    ((idx.set_nth_msb depth (p.nth_msb depth)).set_nth_msb (depth + 1)
                      (q.nth_msb (depth + 1))) = none := by
                  rw [← levelAt_ensure tree depth (depth + 1),
                    ← levelAt_ensure (EnsureHaveLevel tree depth) (depth + 1) (depth + 1)]
                  exact hfree
                have hl2 := lt_length_ensure (EnsureHaveLevel tree depth) (depth + 1)
                have hl3 := le_length_ensure (EnsureHaveLevel tree depth) (depth + 1)
                generalize hA : (EnsureHaveLevel (EnsureHaveLevel tree depth) (depth + 1)).set
                  (depth + 1)
                  (fun j => if j = (idx.set_nth_msb depth (p.nth_msb depth)).set_nth_msb
                      (depth + 1) (q.nth_msb (depth + 1)) then some node
                    else levelAt (EnsureHaveLevel (EnsureHaveLevel tree depth) (depth + 1))
                      (depth + 1) j) = A at hT
                have hAp : ∀ e j, levelAt A e j
                    = if e = depth + 1 ∧ j = (idx.set_nth_msb depth (p.nth_msb depth)).set_nth_msb
                        (depth + 1) (q.nth_msb (depth + 1)) then some node
                      else levelAt tree e j := by
                  intro e j
                  rw [← hA, levelAt_set_at _ _ _ hl2]
                  by_cases he : e = depth + 1
                  · subst he
                    rw [if_pos rfl]
                    by_cases hj : j = (idx.set_nth_msb depth (p.nth_msb depth)).set_nth_msb
                        (depth + 1) (q.nth_msb (depth + 1))
                    · rw [if_pos hj, if_pos ⟨rfl, hj⟩]
                    · rw [if_neg hj, if_neg (fun x => hj x.2), levelAt_ensure, levelAt_ensure]
                  · rw [if_neg he, if_neg (fun x => he x.1), levelAt_ensure, levelAt_ensure]
                have hAnode : levelAt A depth (idx.set_nth_msb depth (p.nth_msb depth))
                    = some node := by
                  rw [hAp, if_neg (fun x => by omega)]
                  exact hnode0
                have hupd := Upd_modify A depth (idx.set_nth_msb depth (p.nth_msb depth))
                  (fun _ => ⟨NodeType.INTERNAL, "", none⟩) node hAnode
                generalize hB : A.set depth ((levelAt A depth).modify
                  (idx.set_nth_msb depth (p.nth_msb depth))
                  (fun _ => ⟨NodeType.INTERNAL, "", none⟩)) = B at hT hupd
                have hBp : ∀ e j, levelAt B e j
                    = if e = depth ∧ j = idx.set_nth_msb depth (p.nth_msb depth)
                      then some ⟨NodeType.INTERNAL, "", none⟩ else levelAt A e j :=
                  hupd.2
                have hK2key : ((idx.set_nth_msb depth (p.nth_msb depth)).set_nth_msb (depth + 1)
                    (q.nth_msb (depth + 1))).pre (depth + 1 + 1)
                    = (idx.set_nth_msb depth (p.nth_msb depth)).set_nth_msb (depth + 1)
                      (q.nth_msb (depth + 1)) := by
                  apply Path.key_set
                  rw [hK, Path.pre_idem]
                have hlo : ∀ i, i < depth + 1 →
                    ((idx.set_nth_msb depth (p.nth_msb depth)).set_nth_msb (depth + 1)
                      (q.nth_msb (depth + 1))).nth_msb i = p.nth_msb i := by
                  intro i hi1
                  rw [Path.nth_msb_set, if_neg (fun x => by omega), hK, Path.nth_msb_pre]
                  simp [hi1]
                have hhi : ∀ i, depth + 1 < i →
                    ((idx.set_nth_msb depth (p.nth_msb depth)).set_nth_msb (depth + 1)
                      (q.nth_msb (depth + 1))).nth_msb i = false := by
                  intro i hi1
                  rw [Path.nth_msb_set, if_neg (fun x => by omega), hK, Path.nth_msb_pre]
                  have : ¬ i < depth + 1 := by omega
                  simp [this]
                have kn1 : KeyNormal B := by
                  intro d k x hx
                  rw [hBp] at hx
                  by_cases hp1 : d = depth ∧ k = idx.set_nth_msb depth (p.nth_msb depth)
                  · rw [hp1.1, hp1.2, hK, Path.pre_idem]
                  · rw [if_neg hp1, hAp] at hx
                    by_cases hp2 : d = depth + 1 ∧ k = (idx.set_nth_msb depth
                        (p.nth_msb depth)).set_nth_msb (depth + 1) (q.nth_msb (depth + 1))
                    · rw [hp2.1, hp2.2]
                      exact hK2key
                    · rw [if_neg hp2] at hx
                      exact kn d k x hx
                obtain ⟨knT, lm⟩ := ih _ _ _ _ hT kn1 hlo hhi
                refine ⟨knT, LoopMemo.step hK (fun i hi1 => hlo i (by omega)) ?_ ?_
                  (Or.inr ⟨hfree0, ?_⟩) lm⟩
                · intro e j h1 h2
                  rw [hBp, if_neg h1, hAp, if_neg h2]
                · intro x hx _
                  rw [hBp, if_pos ⟨rfl, rfl⟩] at hx
                  cases hx
                  rfl
                · intro x hx
                  rw [hBp, if_neg (fun y => by omega), hAp, if_pos ⟨rfl, rfl⟩] at hx
                  cases hx
                  exact hi0
              | some x =>
                rw [SetLeafLoop_push_blocked p h n depth idx tree node q x hnode hi0 hp hqp hd
                  hfree] at hT
                cases hT
            · rw [SetLeafLoop_depth_limit p h n depth idx tree node q hnode hi0 hp hqp hd] at hT
              cases hT

end SparseMerkleTree

namespace SparseMerkleTree

theorem key_off_path {k p : Path} {d : Nat} (hk : k.pre (d + 1) = k)
    (hne : k ≠ p.pre (d + 1)) : ∃ i, i ≤ d ∧ k.nth_msb i ≠ p.nth_msb i := by
  by_contra hcon
  apply hne
  apply Path.ext_bits
  intro n _
  rw [Path.nth_msb_pre]
  by_cases hn : n ≤ d
  · have : k.nth_msb n = p.nth_msb n := by
      by_contra hx
      exact hcon ⟨n, hn, hx⟩
    have h1 : n < d + 1 := by omega
    simp [h1, this]
  · rw [Path.key_bit k (d + 1) n hk (by omega)]
    have h1 : ¬ n < d + 1 := by omega
    simp [h1]

/-- `SetLeaf` leaves valid caches: it clears `root_hash_` and the hash cached on every
INTERNAL node whose subtree it changes. -/
theorem SetLeaf_memo (hasher : TreeHasher) (t t2 : SparseMerkleTree) (p : Path) (data : String)
    (m : Memo hasher t) (hs : SetLeaf hasher t p data = .ok t2) :
    Memo hasher t2 ∧ t2.null_hashes_ = t.null_hashes_ := by
  unfold SetLeaf at hs
  by_cases hsz : hasher.DigestSize = p.size
  · rw [if_pos hsz] at hs
    cases hloop : SetLeafLoop p (hasher.HashLeaf data) kDigestSizeBits 0 Path.zero t.tree_ with
    | error e => rw [hloop] at hs; cases hs
    | ok T =>
      rw [hloop] at hs
      cases hs
      obtain ⟨knT, lm⟩ := SetLeafLoop_memo p _ _ 0 Path.zero t.tree_ T hloop m.keys
        (fun i hi => absurd hi (by omega)) (fun i _ => Path.nth_msb_zero i)
      obtain ⟨hlen, _, _⟩ := SetLeafLoop_frame p _ _ 0 Path.zero t.tree_ T hloop
      refine ⟨⟨knT, ?_, fun hr => absurd rfl hr⟩, rfl⟩
      intro d k node hn hty hh g hg
      simp only at hn hg ⊢
      obtain ⟨h0, hpath⟩ := lm.2 d k node hn hty hh
      have hkey := m.keys d k node h0
      have hsim : ∀ e j, BelowU d k e j → SimO (levelAt T e j) (levelAt t.tree_ e j) := by
        intro e j hb
        by_cases hk : k = p.pre (d + 1)
        · rw [hpath (Nat.zero_le d) hk e j hb]
          exact SimO.opt_refl _
        · obtain ⟨i, hid, hbit⟩ := key_off_path hkey hk
          have hjbit : j.nth_msb i ≠ p.nth_msb i := by
            rw [hb.2 i (Or.inl hid)]; exact hbit
          by_cases hie : i < e
          · rw [lm.1 e j i hie hjbit]
            exact SimO.opt_refl _
          · have hed : e = d := by have := hb.1; omega
            subst hed
            have hjk := hb.eq_of_same
            subst hjk
            rw [hn, h0]
            exact SimO.opt_refl _
      rw [uncached_congr hasher t.null_hashes_ T t.tree_ g d k hsim]
      exact m.cache d k node h0 hty hh g (by omega)
  · rw [if_neg hsz] at hs
    cases hs

theorem create_memo (hasher : TreeHasher) (cache : Option (List String)) :
    Memo hasher (create hasher cache).1 := by
  have hnone : ∀ d k, levelAt (create hasher cache).1.tree_ d k = none := fun _ _ => rfl
  refine ⟨?_, ?_, fun hr => absurd rfl hr⟩
  · intro d k node hn
    rw [hnone] at hn
    cases hn
  · intro d k node hn
    rw [hnone] at hn
    cases hn

/-- Every interleaving of `SetLeaf` and `CurrentRoot` keeps the caches valid and the null
hashes of the tree object. -/
theorem runCalls_memo (hasher : TreeHasher) (calls : List TreeCall) :
    ∀ (t t2 : SparseMerkleTree), Memo hasher t → runCalls hasher t calls = .ok t2 →
      Memo hasher t2 ∧ t2.null_hashes_ = t.null_hashes_ := by
  induction calls with
  | nil =>
    intro t t2 m h
    unfold runCalls at h
    cases h
    exact ⟨m, rfl⟩
  | cons c rest ih =>
    intro t t2 m h
    cases c with
    | SetLeaf path data =>
      unfold runCalls at h
      cases hs : SetLeaf hasher t path data with
      | error e => rw [hs] at h; cases h
      | ok t1 =>
        rw [hs] at h
        obtain ⟨m1, n1⟩ := SetLeaf_memo hasher t t1 path data m hs
        obtain ⟨m2, n2⟩ := ih t1 t2 m1 h
        exact ⟨m2, n2.trans n1⟩
    | CurrentRoot =>
      unfold runCalls at h
      cases hs : CurrentRoot hasher t with
      | error e => rw [hs] at h; cases h
      | ok r =>
        rw [hs] at h
        obtain ⟨m1, n1, _⟩ := (CurrentRoot_memo hasher t m).2 r.1 r.2 hs
        obtain ⟨m2, n2⟩ := ih r.2 t2 m1 h
        exact ⟨m2, n2.trans n1⟩

/-- An interleaving run on the first tree of a process ends in a reachable state. -/
theorem runCalls_reachable (hasher : TreeHasher) (calls : List TreeCall) :
    ∀ (t t2 : SparseMerkleTree), Reachable hasher t → runCalls hasher t calls = .ok t2 →
      Reachable hasher t2 := by
  induction calls with
  | nil =>
    intro t t2 m h
    unfold runCalls at h
    cases h
    exact m
  | cons c rest ih =>
    intro t t2 m h
    cases c with
    | SetLeaf path data =>
      unfold runCalls at h
      cases hs : SetLeaf hasher t path data with
      | error e => rw [hs] at h; cases h
      | ok t1 =>
        rw [hs] at h
        exact ih t1 t2 (Reachable.setLeaf t path data t1 m hs) h
    | CurrentRoot =>
      unfold runCalls at h
      cases hs : CurrentRoot hasher t with
      | error e => rw [hs] at h; cases h
      | ok r =>
        rw [hs] at h
        exact ih r.2 t2 (Reachable.currentRoot t r.1 r.2 m hs) h

theorem create_eq_fresh (hasher : TreeHasher) (cache : Option (List String))
    (h : (create hasher cache).1.null_hashes_ = computeNullHashes hasher) :
    (create hasher cache).1 = fresh hasher := by
  cases cache with
  | none => rfl
  | some r =>
    have hr : r = computeNullHashes hasher := h
    rw [hr]
    rfl

end SparseMerkleTree

namespace SparseMerkleTree

set_option maxHeartbeats 1000000 in
/-- Claim C4 (the code at a failing input): a tree is constructed with `sumHasher` after a
tree was constructed with `flagHasher` in the same process. Entry 0 of the vector that
`GetNullHashes` returns to it is "0", the entry of `flagHasher`, and `CurrentRoot` on the
tree with no leaves set returns `HashChildren("0", "0")` = "1", which is not the 256-fold
self-hash chain of `HashLeaf("")` for `sumHasher`, "3". -/
theorem C4_code_at_failing_input :
    (GetNullHashes sumHasher (create flagHasher none).2).1.get? 0 = some "0" ∧
    rootAfterIn sumHasher (create flagHasher none).2 []
      = .ok (sumHasher.HashChildren "0" "0") ∧
    sumHasher.HashChildren "0" "0" = "1" ∧
    nullChain sumHasher 256 = "3" := by
  refine ⟨by decide!, by decide!, by decide!, by decide!⟩

set_option maxHeartbeats 1000000 in
/-- Claim C8 (the code at a failing input): a tree is constructed with the 32-byte
`flagHasher` after a tree was constructed with the 16-byte `narrowHasher` in the same
process, so its null-hash vector has 128 entries. `SetLeaf` of the zero path returns, and
`CurrentRoot` then reads the vector out of range in the LEAF loop of
`CalculateSubtreeHash` (`null_hashes_->at(255)`). -/
theorem C8_code_at_failing_input :
    (create flagHasher (create narrowHasher none).2).1.null_hashes_.length = 128 ∧
    (SetLeaves flagHasher (create flagHasher (create narrowHasher none).2).1
      [(Path.zero, "a")]).toBool = true ∧
    rootAfterIn flagHasher (create narrowHasher none).2 [(Path.zero, "a")]
      = .error Fatal.null_hash_out_of_range := by
  refine ⟨by decide!, by decide!, by decide!⟩

set_option maxHeartbeats 1000000 in
/-- Claim C25 (the code at a failing input): a tree is constructed with `sumHasher` after
a tree was constructed with `flagHasher` in the same process; the zero path has not been
set. `CurrentRoot` returns "1" before `SetLeaf(zero, "")` and "5" after it, both when the
two roots are computed from scratch and when the calls are made in a row on the one tree
object. -/
theorem C25_code_at_failing_input :
    rootAfterIn sumHasher (create flagHasher none).2 [] = .ok "1" ∧
    rootAfterIn sumHasher (create flagHasher none).2 [(Path.zero, "")] = .ok "5" ∧
    (runCalls sumHasher (create sumHasher (create flagHasher none).2).1
        [TreeCall.CurrentRoot]).map (fun t => t.root_hash_) = .ok "1" ∧
    (runCalls sumHasher (create sumHasher (create flagHasher none).2).1
        [TreeCall.CurrentRoot, TreeCall.SetLeaf Path.zero "", TreeCall.CurrentRoot]).map
          (fun t => t.root_hash_) = .ok "5" := by
  refine ⟨by decide!, by decide!, by decide!, by decide!⟩

end SparseMerkleTree

namespace SparseMerkleTree

/-- Claim C7: memoisation is transparent. Take any hasher, any content of the static
pointer of `GetNullHashes` at construction, and any interleaving `calls` of `SetLeaf` and
`CurrentRoot` that runs from the constructed tree to a state `t` (every `CurrentRoot`
call of an interleaving is made in such a state). Then
(1) `CurrentRoot` on `t` returns exactly the digest, or stops with exactly the fatal exit,
of the uncached recomputation `uncachedRoot` on the node map of `t`, which reads neither
`root_hash_` nor any hash cached on an INTERNAL node, and that recomputation does not
stop for lack of recursion budget;
(2) a non-empty `root_hash_` is the digest of that recomputation;
(3) every non-empty hash cached on an INTERNAL node is the digest of the uncached
recomputation `uncachedSubtreeHash` of the subtree at the position of the node;
(4) when the digest width is 32 and the null hashes of the tree are those of its hasher,
the nodes represent a map `M` from paths to leaf hashes for which `CurrentRoot` returns
`rootValue hasher M`, a non-empty `root_hash_` is `rootValue hasher M`, and every
non-empty hash cached on an INTERNAL node at `(d, k)` is the reference hash `refHash` of
the subtree of height `255 - d` under `k`. -/
theorem C7_memoisation_transparent (hasher : TreeHasher) (cache : Option (List String))
    (calls : List TreeCall) (t : SparseMerkleTree)
    (hrun : runCalls hasher (create hasher cache).1 calls = .ok t) :
    ((match CurrentRoot hasher t with
        | .ok r => .ok r.1
        | .error e => .error e) = uncachedRoot hasher t ∧
      uncachedRoot hasher t ≠ .error Fatal.recursion_budget) ∧
    (t.root_hash_ ≠ "" → uncachedRoot hasher t = .ok t.root_hash_) ∧
    (∀ d k node, levelAt t.tree_ d k = some node → node.type_ = NodeType.INTERNAL →
      node.hash_ ≠ "" →
      uncachedSubtreeHash hasher t.null_hashes_ t.tree_ (t.tree_.length + 1 - d) d k
        = .ok node.hash_) ∧
    (hasher.DigestSize = 32 → t.null_hashes_ = computeNullHashes hasher →
      ∃ M, Sem t.tree_ M ∧
        (∃ t2, CurrentRoot hasher t = .ok (rootValue hasher M, t2)) ∧
        (t.root_hash_ ≠ "" → t.root_hash_ = rootValue hasher M) ∧
        ∀ d k node, levelAt t.tree_ d k = some node → node.type_ = NodeType.INTERNAL →
          node.hash_ ≠ "" → node.hash_ = refHash hasher (leafOf hasher M) (255 - d) k) := by
  obtain ⟨m, hn⟩ := runCalls_memo hasher calls _ t (create_memo hasher cache) hrun
  have h1 := (CurrentRoot_memo hasher t m).1
  refine ⟨⟨h1, ?_⟩, m.root, ?_, ?_⟩
  · intro hb
    rw [hb] at h1
    have hcr := CurrentRoot_budget hasher t
    cases hc : CurrentRoot hasher t with
    | error e =>
      rw [hc] at h1
      simp only [Except.error.injEq] at h1
      rw [h1] at hc
      exact hcr hc
    | ok r =>
      rw [hc] at h1
      cases h1
  · intro d k node hnode hty hh
    have hlt := levelAt_some_lt _ _ _ _ hnode
    exact m.cache d k node hnode hty hh _ (by omega)
  · intro h32 hnulls
    rw [hn] at hnulls
    have hfresh := create_eq_fresh hasher cache hnulls
    rw [hfresh] at hrun
    obtain ⟨M, inv⟩ := (runCalls_reachable hasher calls _ t Reachable.fresh hrun).inv h32
    obtain ⟨t2, h2, _, _⟩ := CurrentRoot_spec hasher h32 M t inv
    exact ⟨M, inv.sem, ⟨t2, h2⟩, inv.root, inv.cache⟩

set_option maxHeartbeats 1000000 in
/-- Witness of C7: two `SetLeaf` calls whose paths share their first bit, then
`CurrentRoot`, on a tree of `flagHasher`. The state reached holds an INTERNAL node with
the cached hash "1" at level 0 and the cached root "1", and the statement of C7 holds
of it. -/
theorem C7_witness :
    ∃ t, runCalls flagHasher (create flagHasher none).1
        [TreeCall.SetLeaf Path.zero "a", TreeCall.SetLeaf secondPath "b",
          TreeCall.CurrentRoot] = .ok t ∧
      cachesAtTop t = (some (NodeType.INTERNAL, "1"), "1") ∧
      ((match CurrentRoot flagHasher t with
          | .ok r => .ok r.1
          | .error e => .error e) = uncachedRoot flagHasher t ∧
        uncachedRoot flagHasher t ≠ .error Fatal.recursion_budget) ∧
      (t.root_hash_ ≠ "" → uncachedRoot flagHasher t = .ok t.root_hash_) ∧
      (∀ d k node, levelAt t.tree_ d k = some node → node.type_ = NodeType.INTERNAL →
        node.hash_ ≠ "" →
        uncachedSubtreeHash flagHasher t.null_hashes_ t.tree_ (t.tree_.length + 1 - d) d k
          = .ok node.hash_) ∧
      (flagHasher.DigestSize = 32 → t.null_hashes_ = computeNullHashes flagHasher →
        ∃ M, Sem t.tree_ M ∧
          (∃ t2, CurrentRoot flagHasher t = .ok (rootValue flagHasher M, t2)) ∧
          (t.root_hash_ ≠ "" → t.root_hash_ = rootValue flagHasher M) ∧
          ∀ d k node, levelAt t.tree_ d k = some node → node.type_ = NodeType.INTERNAL →
            node.hash_ ≠ "" →
            node.hash_ = refHash flagHasher (leafOf flagHasher M) (255 - d) k) := by
  have hE : (runCalls flagHasher (create flagHasher none).1
      [TreeCall.SetLeaf Path.zero "a", TreeCall.SetLeaf secondPath "b",
        TreeCall.CurrentRoot]).map cachesAtTop
      = .ok (some (NodeType.INTERNAL, "1"), "1") := by decide!
  cases h : runCalls flagHasher (create flagHasher none).1
      [TreeCall.SetLeaf Path.zero "a", TreeCall.SetLeaf secondPath "b",
        TreeCall.CurrentRoot] with
  | error e =>
    rw [h] at hE
    cases hE
  | ok t =>
    rw [h] at hE
    have hc : cachesAtTop t = (some (NodeType.INTERNAL, "1"), "1") := by
      simpa [Except.map] using hE
    exact ⟨t, rfl, hc, C7_memoisation_transparent flagHasher none _ t h⟩

end SparseMerkleTree
